import Mathlib

/-!
# Menu / role hierarchy of ginfast: a shallow embedding

Definitions are translated from `app/models/sysrole.go`,
`app/service/sysmenuservice.go`, `app/service/userservice.go` and
`app/controllers/sysmenu.go`.  Go `uint` identifiers are `Nat`, Go `int`
sort keys are `Int` (only compared, never added, so no wrap-around arises).
-/

namespace GinFast

/-! ## Data model -/

/-- Role tree node: the fields of `SysRole` that the tree code reads
(`ID`, `Sort`, `ParentID`) and the transient `Children` list. -/
inductive SysRole where
  | mk (ID : Nat) (SortKey : Int) (ParentID : Nat) (Children : List SysRole)

namespace SysRole

/-- Field `ID`. -/
def ID : SysRole → Nat
  | mk i _ _ _ => i

/-- Field `Sort` (renamed, `Sort` being reserved). -/
def SortKey : SysRole → Int
  | mk _ s _ _ => s

/-- Field `ParentID`. -/
def ParentID : SysRole → Nat
  | mk _ _ p _ => p

/-- Field `Children`. -/
def Children : SysRole → List SysRole
  | mk _ _ _ c => c

end SysRole

/-! ## `sort.Slice` -/

/-- What Go requires of the `less` argument of `sort.Slice`: a strict weak
ordering. -/
structure StrictWeak {α : Type} (less : α → α → Bool) : Prop where
  irrefl : ∀ a, less a a = false
  trans : ∀ a b c, less a b = true → less b c = true → less a c = true
  negTrans : ∀ a b c, less a b = false → less b c = false → less a c = false

/-- Contract of the standard library's `sort.Slice`, which the repository calls
but does not contain: the slice is rearranged (a permutation) and, when `less`
is a strict weak ordering, no later element is `less` than an earlier one.
Stability is not part of the contract. -/
structure SliceSorter where
  sort : {α : Type} → (α → α → Bool) → List α → List α
  perm : ∀ {α : Type} (less : α → α → Bool) (l : List α), (sort less l).Perm l
  sorted : ∀ {α : Type} (less : α → α → Bool) (l : List α), StrictWeak less →
    (sort less l).Pairwise (fun a b => less b a = false)

/-- Insertion of `a` before the first element that `a` is `less` than; used by
`insertionSort`. -/
def orderedInsert {α : Type} (less : α → α → Bool) (a : α) : List α → List α
  | [] => [a]
  | b :: l => if less a b then a :: b :: l else b :: orderedInsert less a l

/-- Insertion sort, a concrete instance of the `sort.Slice` contract.  Elements
that `less` does not order leave it in the reverse of their input order. -/
def insertionSort {α : Type} (less : α → α → Bool) : List α → List α
  | [] => []
  | a :: l => orderedInsert less a (insertionSort less l)

/-- Insertion sort meets the `sort.Slice` contract. -/
def insertionSorter : SliceSorter where
  sort := fun less l => insertionSort less l
  perm := by
    intro α less l
    have hins : ∀ (a : α) (l : List α), (orderedInsert less a l).Perm (a :: l) := by
      intro a l
      induction l with
      | nil => simp [orderedInsert]
      | cons b l ih =>
        simp only [orderedInsert]
        split
        · exact List.Perm.refl _
        · exact (List.Perm.cons b ih).trans (List.Perm.swap a b l)
    induction l with
    | nil => simp [insertionSort]
    | cons a l ih =>
      simp only [insertionSort]
      exact (hins a _).trans (List.Perm.cons a ih)
  sorted := by
    intro α less l hw
    have hperm : ∀ (a : α) (l : List α), (orderedInsert less a l).Perm (a :: l) := by
      intro a l
      induction l with
      | nil => simp [orderedInsert]
      | cons b l ih =>
        simp only [orderedInsert]
        split
        · exact List.Perm.refl _
        · exact (List.Perm.cons b ih).trans (List.Perm.swap a b l)
    have hins : ∀ (a : α) (l : List α), l.Pairwise (fun x y => less y x = false) →
        (orderedInsert less a l).Pairwise (fun x y => less y x = false) := by
      intro a l
      induction l with
      | nil => intro _; simp [orderedInsert]
      | cons b l ih =>
        intro hl
        rw [List.pairwise_cons] at hl
        simp only [orderedInsert]
        split
        · rename_i hab
          refine List.pairwise_cons.mpr ⟨?_, List.pairwise_cons.mpr hl⟩
          intro y hy
          have hba : less b a = false := by
            cases hc : less b a with
            | false => rfl
            | true => have := hw.trans a b a hab hc; rw [hw.irrefl] at this; cases this
          rcases List.mem_cons.mp hy with rfl | hy
          · exact hba
          · exact hw.negTrans y _ a (hl.1 y hy) hba
        · rename_i hab
          have hab : less a b = false := by simpa using hab
          refine List.pairwise_cons.mpr ⟨?_, ih hl.2⟩
          intro y hy
          rcases List.mem_cons.mp ((hperm a l).mem_iff.mp hy) with rfl | hy
          · exact hab
          · exact hl.1 y hy
    induction l with
    | nil => simp [insertionSort]
    | cons a l ih => exact hins a _ ih

/-! ## Go's `sort.Slice`

`sort.Slice(x, less)` of the Go standard library (package `sort`, from Go 1.19
on) runs `pdqsort_func(data, 0, n, bits.Len(n))`, a pattern-defeating quicksort
that hands every range of at most 12 elements to `insertionSort_func`.  The
library is not part of the repository; the functions below follow its file
`zsortfunc.go` for slices of fewer than 50 elements.  `data.Less(i, j)` and
`data.Swap(i, j)` act on positions of the slice, which is held as a list. -/

/-- The inner loop `for j := i; j > a && data.Less(j, j-1); j-- { Swap(j, j-1) }`
of `insertionSort_func`: the element `x = data[i]` moves left past every
element it is less than.  The sorted prefix `data[a:i]` is held reversed, its
last element first. -/
def sinkLeft {β : Type} (lt : β → β → Bool) (x : β) : List β → List β
  | [] => [x]
  | y :: ys => if lt x y then y :: sinkLeft lt x ys else x :: y :: ys

/-- `insertionSort_func` on a whole slice: the outer loop
`for i := a + 1; i < b; i++` takes the elements from left to right. -/
def insertionSort_func {β : Type} (lt : β → β → Bool) (l : List β) : List β :=
  (l.foldl (fun sortedPrefix x => sinkLeft lt x sortedPrefix) []).reverse

/-- `insertionSort_func(data, a, b)`: the range `data[a:b]` is sorted in
place. -/
def insertionSortRange {β : Type} (lt : β → β → Bool) (data : List β) (a b : Nat) : List β :=
  data.take a ++ insertionSort_func lt ((data.drop a).take (b - a)) ++ data.drop b

/-- `data.Less(i, j)`. -/
def lessAt {β : Type} (lt : β → β → Bool) (data : List β) (i j : Nat) : Bool :=
  match data[i]?, data[j]? with
  | some x, some y => lt x y
  | _, _ => false

/-- `data.Swap(i, j)`. -/
def swapAt {β : Type} (data : List β) (i j : Nat) : List β :=
  match data[i]?, data[j]? with
  | some x, some y => (data.set i y).set j x
  | _, _ => data

/-- The type `sortedHint` of `zsortfunc.go`. -/
inductive sortedHint where
  | unknownHint
  | increasingHint
  | decreasingHint
  deriving DecidableEq, Repr

/-- `order2_func`: the positions `a`, `b` in the order of their elements, and
the count of swaps. -/
def order2_func {β : Type} (lt : β → β → Bool) (data : List β) (a b swaps : Nat) :
    Nat × Nat × Nat :=
  if lessAt lt data b a then (b, a, swaps + 1) else (a, b, swaps)

/-- `median_func`: the position of the median of `data[a]`, `data[b]`,
`data[c]`, and the count of swaps. -/
def median_func {β : Type} (lt : β → β → Bool) (data : List β) (a b c swaps : Nat) :
    Nat × Nat :=
  let r1 := order2_func lt data a b swaps
  let r2 := order2_func lt data r1.2.1 c r1.2.2
  let r3 := order2_func lt data r1.1 r2.1 r2.2.2
  (r3.2.1, r3.2.2)

/-- `choosePivot_func` for a range of fewer than 50 elements (`shortestNinther`;
from there on the Tukey ninther is used, which is not modelled: `none`). -/
def choosePivot_func {β : Type} (lt : β → β → Bool) (data : List β) (a b : Nat) :
    Option (Nat × sortedHint) :=
  let l := b - a
  let i := a + l / 4 * 1
  let j := a + l / 4 * 2
  let k := a + l / 4 * 3
  if 50 ≤ l then none
  else
    let m : Nat × Nat := if 8 ≤ l then median_func lt data i j k 0 else (j, 0)
    if m.2 = 0 then some (m.1, sortedHint.increasingHint)
    else if m.2 = 4 * 3 then some (m.1, sortedHint.decreasingHint)
    else some (m.1, sortedHint.unknownHint)

/-- The loop `for i < b && !data.Less(i, i-1) { i++ }` of
`partialInsertionSort_func`; it advances at most `fuel` times. -/
def scanOrdered {β : Type} (lt : β → β → Bool) (data : List β) (b : Nat) : Nat → Nat → Nat
  | 0, i => i
  | fuel + 1, i =>
    if i < b ∧ lessAt lt data i (i - 1) = false then scanOrdered lt data b fuel (i + 1) else i

/-- `partialInsertionSort_func` for a range of fewer than 50 elements
(`shortestShifting`): it reports whether the range is in order and moves
nothing.  The shifting of longer ranges is not modelled: `none`. -/
def partialInsertionSort_func {β : Type} (lt : β → β → Bool) (data : List β) (a b : Nat) :
    Option Bool :=
  let i := scanOrdered lt data b data.length (a + 1)
  if i = b then some true
  else if b - a < 50 then some false
  else none

/-- The loop `for i <= j && data.Less(i, a) { i++ }` of `partition_func`. -/
def scanLess {β : Type} (lt : β → β → Bool) (data : List β) (a j : Nat) : Nat → Nat → Nat
  | 0, i => i
  | fuel + 1, i =>
    if i ≤ j ∧ lessAt lt data i a = true then scanLess lt data a j fuel (i + 1) else i

/-- The loop `for i <= j && !data.Less(j, a) { j-- }` of `partition_func`. -/
def scanNotLess {β : Type} (lt : β → β → Bool) (data : List β) (a i : Nat) : Nat → Nat → Nat
  | 0, j => j
  | fuel + 1, j =>
    if i ≤ j ∧ lessAt lt data j a = false then scanNotLess lt data a i fuel (j - 1) else j

/-- The `for { ... }` loop of `partition_func`: both scans, then either `break`
on `i > j` or a swap and `i++`, `j--`.  The result is the slice and `j`. -/
def partitionLoop {β : Type} (lt : β → β → Bool) (a : Nat) :
    Nat → List β → Nat → Nat → List β × Nat
  | 0, data, _, j => (data, j)
  | fuel + 1, data, i, j =>
    let i1 := scanLess lt data a j data.length i
    let j1 := scanNotLess lt data a i1 data.length j
    if j1 < i1 then (data, j1)
    else partitionLoop lt a fuel (swapAt data i1 j1) (i1 + 1) (j1 - 1)

/-- `partition_func`: one quicksort partition of `data[a:b]` around
`data[pivot]`.  The result is the slice, `newpivot` and `alreadyPartitioned`. -/
def partition_func {β : Type} (lt : β → β → Bool) (data : List β) (a b pivot : Nat) :
    List β × Nat × Bool :=
  let data1 := swapAt data a pivot
  let i := scanLess lt data1 a (b - 1) data1.length (a + 1)
  let j := scanNotLess lt data1 a i data1.length (b - 1)
  if j < i then (swapAt data1 j a, j, true)
  else
    let r := partitionLoop lt a data1.length (swapAt data1 i j) (i + 1) (j - 1)
    (swapAt r.1 r.2 a, r.2, false)

/-- `pdqsort_func(data, a, b, limit)`; the two Booleans are its local
variables `wasBalanced` and `wasPartitioned`, `true` on entry, and the fuel
counts the iterations of its loop and the depth of its recursion.  Not
modelled, and answered by `none`: `heapSort_func` (reached on `limit == 0`),
`breakPatterns_func` (after an unbalanced partition), `reverseRange_func` and
the ninther (ranges of 50 elements and more), `partitionEqual_func`. -/
def pdqsort_func {β : Type} (lt : β → β → Bool) :
    Nat → List β → Nat → Nat → Nat → Bool → Bool → Option (List β)
  | 0, _, _, _, _, _, _ => none
  | fuel + 1, data, a, b, limit, wasBalanced, wasPartitioned =>
    let length := b - a
    if length ≤ 12 then some (insertionSortRange lt data a b)
    else if limit = 0 then none
    else if wasBalanced = false then none
    else
      match choosePivot_func lt data a b with
      | none => none
      | some (pivot, hint) =>
        if hint = sortedHint.decreasingHint then none
        else
          match (if wasBalanced = true ∧ wasPartitioned = true ∧
                hint = sortedHint.increasingHint then
              partialInsertionSort_func lt data a b else some false) with
          | none => none
          | some true => some data
          | some false =>
            if 0 < a ∧ lessAt lt data (a - 1) pivot = false then none
            else
              let p := partition_func lt data a b pivot
              let mid := p.2.1
              let leftLen := mid - a
              let rightLen := b - mid
              let balanceThreshold := length / 8
              if leftLen < rightLen then
                match pdqsort_func lt fuel p.1 a mid limit true true with
                | none => none
                | some sorted =>
                  pdqsort_func lt fuel sorted (mid + 1) b limit
                    (decide (balanceThreshold ≤ leftLen)) p.2.2
              else
                match pdqsort_func lt fuel p.1 (mid + 1) b limit true true with
                | none => none
                | some sorted =>
                  pdqsort_func lt fuel sorted a mid limit
                    (decide (balanceThreshold ≤ rightLen)) p.2.2

/-- `bits.Len(uint(n))`: the number of bits of `n`. -/
def bitsLen : Nat → Nat → Nat
  | 0, _ => 0
  | fuel + 1, n => if n = 0 then 0 else 1 + bitsLen fuel (n / 2)

/-- `sort.Slice` on a slice of more than 12 elements, run on the positions
`0 .. n-1` of the input, which `less` compares through the elements they stand
for: the positions in their final order, or `none` where the model of
`pdqsort_func` ends. -/
def sortPositions {α : Type} (less : α → α → Bool) (l : List α) : Option (List Nat) :=
  pdqsort_func (fun i j => lessAt less l i j) (l.length + 1) (List.range l.length)
    0 l.length (bitsLen l.length l.length) true true

/-- `sort.Slice` as a sorter.  A slice of at most 12 elements is sorted by
`insertionSort_func`, as `pdqsort_func` does at once.  A longer slice is sorted
by the quicksort; its result is taken when it is a rearrangement of the input
in order, which spares a correctness proof of the quicksort.  Where the model
of the quicksort ends the sorter `other` stands in. -/
def goSorter (other : SliceSorter) : SliceSorter where
  sort := fun {α} less l =>
    if l.length ≤ 12 then insertionSort_func less l
    else
      match sortPositions less l with
      | none => other.sort less l
      | some pos =>
        if pos.length = l.length ∧ (∀ k ∈ List.range l.length, k ∈ pos) ∧
            (pos.filterMap (fun k => l[k]?)).Pairwise (fun a b => less b a = false) then
          pos.filterMap (fun k => l[k]?)
        else other.sort less l
  perm := by
    intro α less l
    have hsink : ∀ (x : α) (pre : List α), (sinkLeft less x pre).Perm (x :: pre) := by
      intro x pre
      induction pre with
      | nil => exact List.Perm.refl _
      | cons y ys ih =>
        simp only [sinkLeft]
        split
        · exact (List.Perm.cons y ih).trans (List.Perm.swap x y ys)
        · exact List.Perm.refl _
    have hfold : ∀ (l acc : List α),
        (l.foldl (fun pre x => sinkLeft less x pre) acc).Perm (l ++ acc) := by
      intro l
      induction l with
      | nil => intro acc; exact List.Perm.refl _
      | cons x rest ih =>
        intro acc
        rw [List.foldl_cons]
        refine (ih _).trans ?_
        refine (List.Perm.append_left rest (hsink x acc)).trans ?_
        exact List.perm_middle
    simp only
    split
    · have h := hfold l []
      rw [List.append_nil] at h
      exact (List.reverse_perm _).trans h
    · split
      · exact other.perm less l
      · rename_i pos _
        split
        · rename_i hok
          obtain ⟨hlen, hall, _⟩ := hok
          have hperm : pos.Perm (List.range l.length) := by
            have hsub : (List.range l.length).Subperm pos :=
              List.subperm_of_subset (List.nodup_range _) hall
            exact (hsub.perm_of_length_le (by rw [hlen, List.length_range])).symm
          have hgen : ∀ (l pre : List α),
              (List.range' pre.length l.length).filterMap (fun k => (pre ++ l)[k]?) = l := by
            intro l
            induction l with
            | nil => intro pre; rfl
            | cons x rest ih =>
              intro pre
              have h := ih (pre ++ [x])
              rw [List.length_append, List.length_singleton, List.append_assoc,
                List.singleton_append] at h
              rw [List.length_cons, List.range'_succ, List.filterMap_cons,
                List.getElem?_append_right (Nat.le_refl _), Nat.sub_self]
              simp only [List.getElem?_cons_zero]
              rw [h]
          have hrange : (List.range l.length).filterMap (fun k => l[k]?) = l := by
            have h := hgen l []
            rw [List.length_nil, List.nil_append, ← List.range_eq_range'] at h
            exact h
          have h2 := hperm.filterMap (fun k => l[k]?)
          rw [hrange] at h2
          exact h2
        · exact other.perm less l
  sorted := by
    intro α less l hw
    have hsink : ∀ (x : α) (pre : List α), (sinkLeft less x pre).Perm (x :: pre) := by
      intro x pre
      induction pre with
      | nil => exact List.Perm.refl _
      | cons y ys ih =>
        simp only [sinkLeft]
        split
        · exact (List.Perm.cons y ih).trans (List.Perm.swap x y ys)
        · exact List.Perm.refl _
    have hins : ∀ (x : α) (pre : List α), pre.Pairwise (fun a b => less a b = false) →
        (sinkLeft less x pre).Pairwise (fun a b => less a b = false) := by
      intro x pre
      induction pre with
      | nil => intro _; simp [sinkLeft]
      | cons y ys ih =>
        intro hpre
        rw [List.pairwise_cons] at hpre
        simp only [sinkLeft]
        split
        · rename_i hxy
          refine List.pairwise_cons.mpr ⟨?_, ih hpre.2⟩
          intro z hz
          rcases List.mem_cons.mp ((hsink x ys).mem_iff.mp hz) with rfl | hz
          · cases hc : less y z with
            | false => rfl
            | true => have := hw.trans z y z hxy hc; rw [hw.irrefl] at this; cases this
          · exact hpre.1 z hz
        · rename_i hxy
          have hxy : less x y = false := by simpa using hxy
          refine List.pairwise_cons.mpr ⟨?_, List.pairwise_cons.mpr hpre⟩
          intro z hz
          rcases List.mem_cons.mp hz with rfl | hz
          · exact hxy
          · exact hw.negTrans x y z hxy (hpre.1 z hz)
    have hfold : ∀ (l acc : List α), acc.Pairwise (fun a b => less a b = false) →
        (l.foldl (fun pre x => sinkLeft less x pre) acc).Pairwise
          (fun a b => less a b = false) := by
      intro l
      induction l with
      | nil => intro acc h; exact h
      | cons x rest ih => intro acc h; exact ih _ (hins x acc h)
    simp only
    split
    · rw [insertionSort_func, List.pairwise_reverse]
      exact hfold l [] List.Pairwise.nil
    · split
      · exact other.sorted less l hw
      · split
        · rename_i hok
          exact hok.2.2
        · exact other.sorted less l hw

/-! ## `SysRoleList.TreeSort` -/

/-- The comparison closure handed to `sort.Slice` in `TreeSort`. -/
def roleLess (a b : SysRole) : Bool :=
  if a.SortKey = 0 ∧ b.SortKey = 0 then decide (a.ID < b.ID)
  else if a.SortKey = 0 then false
  else if b.SortKey = 0 then true
  else decide (a.SortKey < b.SortKey)

/-- `SysRoleList.TreeSort`: sort the current level, then sort the children of
every item that has some. -/
def TreeSort (s : SliceSorter) (list : List SysRole) : List SysRole :=
  if list.length = 0 then list
  else
    (s.sort roleLess list).attach.map (fun item =>
      if 0 < item.1.Children.length then
        SysRole.mk item.1.ID item.1.SortKey item.1.ParentID (TreeSort s item.1.Children)
      else item.1)
termination_by sizeOf list
decreasing_by
  have hmem : item.1 ∈ list := (s.perm roleLess list).mem_iff.mp item.2
  have h1 := List.sizeOf_lt_of_mem hmem
  have h2 : sizeOf item.1.Children < sizeOf item.1 := by
    cases item.1 with
    | mk i k p c => simp only [SysRole.Children, SysRole.mk.sizeOf_spec]; omega
  omega

mutual
/-- Sibling groups below the nodes of a list. -/
def groupsOfList : List SysRole → List (List SysRole)
  | [] => []
  | n :: rest => groupsOfNode n ++ groupsOfList rest
/-- Sibling groups below one node: its `Children` and everything below them. -/
def groupsOfNode : SysRole → List (List SysRole)
  | SysRole.mk _ _ _ c => c :: groupsOfList c
end

/-- Every sibling group of a forest: the top-level list and, recursively, the
`Children` list of every node. -/
def siblingGroups (l : List SysRole) : List (List SysRole) :=
  l :: groupsOfList l

/-- The ordering rule of one sibling group: no unset (`Sort == 0`) node stands
before a node with a sort key, the nodes with a sort key ascend by it, and the
unset nodes ascend by `ID`. -/
def GroupOrdered (g : List SysRole) : Prop :=
  g.Pairwise (fun a b => b.SortKey ≠ 0 → a.SortKey ≠ 0) ∧
  (g.filter (fun a => decide (a.SortKey ≠ 0))).Pairwise (fun a b => a.SortKey ≤ b.SortKey) ∧
  (g.filter (fun a => decide (a.SortKey = 0))).Pairwise (fun a b => a.ID ≤ b.ID)

/-- Scenario siblings: twelve roles of `Sort` 5 with the ids 1 to 12, in that
order, followed by role 13 of `Sort` 1. -/
def scenarioThirteen : List SysRole :=
  [SysRole.mk 1 5 0 [], SysRole.mk 2 5 0 [], SysRole.mk 3 5 0 [], SysRole.mk 4 5 0 [],
    SysRole.mk 5 5 0 [], SysRole.mk 6 5 0 [], SysRole.mk 7 5 0 [], SysRole.mk 8 5 0 [],
    SysRole.mk 9 5 0 [], SysRole.mk 10 5 0 [], SysRole.mk 11 5 0 [], SysRole.mk 12 5 0 [],
    SysRole.mk 13 1 0 []]

/-! ## Flattening a forest -/

mutual
/-- Nodes of a list of trees, each tree in pre-order. -/
def flattenList : List SysRole → List SysRole
  | [] => []
  | n :: rest => flattenNode n ++ flattenList rest
/-- Nodes of one tree in pre-order: the node, then its `Children`. -/
def flattenNode : SysRole → List SysRole
  | SysRole.mk i k p c => SysRole.mk i k p c :: flattenList c
end

/-- The stored fields of a node: `ID`, `ParentID` and `Sort`. -/
def roleFields (n : SysRole) : Nat × Nat × Int :=
  (n.ID, n.ParentID, n.SortKey)

/-- The nodes of a sibling group whose `Sort` is `k`, in the order of the
group, as stored fields. -/
def withSortKey (k : Int) (g : List SysRole) : List (Nat × Nat × Int) :=
  (g.filter (fun n => decide (n.SortKey = k))).map roleFields

/-! ## Go maps -/

/-- Lookup in a Go `map[uint]V`, kept as an association list with one entry per
key. -/
def mapGet {V : Type} : List (Nat × V) → Nat → Option V
  | [], _ => none
  | (k1, v) :: rest, k => if k1 = k then some v else mapGet rest k

/-- Assignment `m[k] = v`: overwrite the entry of `k` or add one. -/
def mapSet {V : Type} : List (Nat × V) → Nat → V → List (Nat × V)
  | [], k, v => [(k, v)]
  | (k1, v1) :: rest, k, v =>
    if k1 = k then (k, v) :: rest else (k1, v1) :: mapSet rest k v

/-- Keys of a map. -/
def mapKeys {V : Type} (m : List (Nat × V)) : List Nat :=
  m.map Prod.fst

/-- Order in which a `range` over a Go map yields its entries: unspecified, so
any rearrangement of the entries. -/
structure MapOrder where
  enum : {α : Type} → List α → List α
  perm : ∀ {α : Type} (l : List α), (enum l).Perm l

/-- The iteration order that yields entries in insertion order. -/
def insertionOrder : MapOrder where
  enum := fun l => l
  perm := fun l => List.Perm.refl l

/-! ## `SysRoleList.BuildTree` -/

/-- A role node as `BuildTree` holds it: behind a pointer, with `Children` a
slice of pointers.  Every pointer that `BuildTree` stores is a value of
`nodeMap`, so a pointer is represented by the key of its node in `nodeMap`. -/
structure RoleCell where
  ID : Nat
  SortKey : Int
  ParentID : Nat
  Children : List Nat
  deriving DecidableEq, Repr

/-- First loop of `BuildTree`: skip a node with `ID == ParentID`, otherwise
clear its `Children` and set `nodeMap[id] = node`. -/
def registerNodes (list : List SysRole) : List (Nat × RoleCell) :=
  list.foldl
    (fun nodeMap node =>
      if node.ID = node.ParentID then nodeMap
      else mapSet nodeMap node.ID ⟨node.ID, node.SortKey, node.ParentID, []⟩)
    []

/-- Body of the second loop of `BuildTree` for the entry `node` of `nodeMap`:
a node with `ParentID == 0` is appended to `roots`, any other node to the
`Children` of `nodeMap[ParentID]` when that exists, and is otherwise left out. -/
def linkNode (st : List (Nat × RoleCell) × List Nat) (node : Nat × RoleCell) :
    List (Nat × RoleCell) × List Nat :=
  if node.2.ParentID = 0 then (st.1, st.2 ++ [node.1])
  else
    match mapGet st.1 node.2.ParentID with
    | some parent =>
      (mapSet st.1 node.2.ParentID { parent with Children := parent.Children ++ [node.1] },
        st.2)
    | none => st

/-- The tree behind a list of pointers, read from the heap `nodeMap` down to
depth `fuel`. -/
def readForest (nodeMap : List (Nat × RoleCell)) : Nat → List Nat → List SysRole
  | 0, _ => []
  | fuel + 1, ptrs =>
    ptrs.filterMap (fun p =>
      (mapGet nodeMap p).map (fun cell =>
        SysRole.mk cell.ID cell.SortKey cell.ParentID (readForest nodeMap fuel cell.Children)))

/-- `SysRoleList.BuildTree`: register the nodes, link them in the order `ord`
in which `range nodeMap` yields them, and return `roots.TreeSort()`.  A tree
below a root is never deeper than the number of registered nodes, which is
the depth to which the roots are read. -/
def BuildTree (s : SliceSorter) (ord : MapOrder) (list : List SysRole) : List SysRole :=
  let nodeMap := registerNodes list
  let linked := (ord.enum nodeMap).foldl linkNode (nodeMap, [])
  TreeSort s (readForest linked.1 (nodeMap.length + 1) linked.2)

/-- The nodes that the claim expects in the forest: neither self-referencing
nor orphans (a non-zero `ParentID` matching no node of the list). -/
def claimedSurvivors (list : List SysRole) : List SysRole :=
  list.filter (fun n =>
    !decide (n.ID = n.ParentID) &&
      !(!decide (n.ParentID = 0) && list.all (fun m => !decide (m.ID = n.ParentID))))

/-- A node id is rooted in `list` when its chain of `ParentID` pointers leads,
through nodes of the list that are not self-referencing, to a node with
`ParentID == 0`. -/
inductive Rooted (list : List SysRole) : Nat → Prop
  | root (n : SysRole) : n ∈ list → n.ID ≠ n.ParentID → n.ParentID = 0 → Rooted list n.ID
  | child (n : SysRole) : n ∈ list → n.ID ≠ n.ParentID → n.ParentID ≠ 0 →
      Rooted list n.ParentID → Rooted list n.ID

/-- Depth of a registered node below the roots of `nodeMap`: 0 for a node with
`ParentID == 0`, one more than its parent otherwise. -/
inductive AtDepth (nodeMap : List (Nat × RoleCell)) : Nat → Nat → Prop
  | root (k : Nat) (cell : RoleCell) : mapGet nodeMap k = some cell → cell.ParentID = 0 →
      AtDepth nodeMap 0 k
  | child (k d : Nat) (cell : RoleCell) : mapGet nodeMap k = some cell →
      cell.ParentID ≠ 0 → AtDepth nodeMap d cell.ParentID → AtDepth nodeMap (d + 1) k

/-- The pointers that the second loop appends to `roots` while running over the
entries `entries`. -/
def rootsOf (entries : List (Nat × RoleCell)) : List Nat :=
  (entries.filter (fun e => decide (e.2.ParentID = 0))).map Prod.fst

/-- The pointers that the second loop appends to the `Children` of the node
filed under `k` while running over the entries `entries`. -/
def kidsOf (entries : List (Nat × RoleCell)) (k : Nat) : List Nat :=
  (entries.filter (fun e => !decide (e.2.ParentID = 0) && decide (e.2.ParentID = k))).map
    Prod.fst

/-- Parent-to-child step between registered nodes: `b` is registered and its
`ParentID` is the non-zero `a`. -/
def RoleChild (nodeMap : List (Nat × RoleCell)) (a b : Nat) : Prop :=
  a ≠ 0 ∧ ∃ cell, mapGet nodeMap b = some cell ∧ cell.ParentID = a

/-- Scenario roles: root 1 over 2 and 3, 4 under 3; 5 an orphan (parent 9 is
absent) with child 6; 7 self-referencing with child 8. -/
def scenarioRoles : List SysRole :=
  [SysRole.mk 1 0 0 [], SysRole.mk 2 5 1 [], SysRole.mk 3 2 1 [], SysRole.mk 4 0 3 [],
    SysRole.mk 5 0 9 [], SysRole.mk 6 0 5 [], SysRole.mk 7 0 7 [], SysRole.mk 8 0 7 []]

/-! ## Menus and `checkCircularReference` -/

/-- Menu row: the fields of `SysMenu` read by the service code. -/
structure SysMenu where
  ID : Nat
  ParentID : Nat := 0
  MenuType : Nat := 1
  Name : String := ""
  Path : String := ""
  Permission : String := ""
  Disable : Bool := false
  SortKey : Int := 0
  deriving DecidableEq, Repr

/-- The `menuMap` built by `checkCircularReference`: `menuMap[menu.ID] = menu`
for every menu in turn. -/
def buildMenuMap (allMenus : List SysMenu) : List (Nat × SysMenu) :=
  allMenus.foldl (fun m menu => mapSet m menu.ID menu) []

/-- The recursive closure `checkParent` of `checkCircularReference`.  The fuel
counts invocations; `none` means the recursion has not returned within it. -/
def checkParent (menuMap : List (Nat × SysMenu)) (currentMenuID : Nat) :
    Nat → Nat → Option Bool
  | 0, _ => none
  | fuel + 1, menuID =>
    if menuID = 0 then some false
    else if menuID = currentMenuID then some true
    else
      match mapGet menuMap menuID with
      | none => some false
      | some menu => checkParent menuMap currentMenuID fuel menu.ParentID

/-- `SysMenuService.checkCircularReference` over the menu table `allMenus` (the
query is taken to succeed).  `some (.error _)` is the returned error, `some
(.ok ())` is `nil`, `none` is no return within the fuel. -/
def checkCircularReference (fuel : Nat) (allMenus : List SysMenu)
    (currentMenuID parentID : Nat) : Option (Except String Unit) :=
  if parentID = 0 then some (Except.ok ())
  else
    match checkParent (buildMenuMap allMenus) currentMenuID fuel parentID with
    | none => none
    | some true => some (Except.error "不能设置为父级菜单：会导致循环引用")
    | some false => some (Except.ok ())

/-- One upward step of the menu walk: from a non-zero id present in the table
to its non-zero `ParentID`. -/
def MenuStep (allMenus : List SysMenu) (a b : Nat) : Prop :=
  a ≠ 0 ∧ b ≠ 0 ∧ ∃ menu, mapGet (buildMenuMap allMenus) a = some menu ∧ menu.ParentID = b

/-- The parent pointers of the menu table contain no cycle. -/
def MenuAcyclic (allMenus : List SysMenu) : Prop :=
  ∀ a, ¬ Relation.TransGen (MenuStep allMenus) a a

/-- The parent pointers of the menu table contain no cycle that avoids the
node `cur`. -/
def MenuAcyclicAvoiding (allMenus : List SysMenu) (cur : Nat) : Prop :=
  ∀ a, ¬ Relation.TransGen (fun x y => x ≠ cur ∧ MenuStep allMenus x y) a a

/-! ## `GetAllAncestorRoleIDs` -/

/-- The `roleMap` of `GetAllAncestorRoleIDs`: `roleMap[role.ID] = role` for
every role in turn. -/
def buildRoleMap (allRoles : List SysRole) : List (Nat × SysRole) :=
  allRoles.foldl (fun m role => mapSet m role.ID role) []

/-- The inner `for { ... }` loop of `GetAllAncestorRoleIDs`, started at
`currentRoleID`.  The fuel counts iterations; `none` means the loop has not
reached its `break` within it. -/
def ancestorLoop (roleMap : List (Nat × SysRole)) :
    Nat → Nat → List (Nat × Bool) → Option (List (Nat × Bool))
  | 0, _, _ => none
  | fuel + 1, currentRoleID, allRoleIDs =>
    match mapGet roleMap currentRoleID with
    | none => some allRoleIDs
    | some role =>
      if role.ParentID = 0 then some allRoleIDs
      else ancestorLoop roleMap fuel role.ParentID (mapSet allRoleIDs role.ParentID true)

/-- The outer loop `for _, roleID := range roleIDs`. -/
def ancestorsForEach (roleMap : List (Nat × SysRole)) (fuel : Nat) :
    List Nat → List (Nat × Bool) → Option (List (Nat × Bool))
  | [], allRoleIDs => some allRoleIDs
  | roleID :: rest, allRoleIDs =>
    match ancestorLoop roleMap fuel roleID allRoleIDs with
    | none => none
    | some next => ancestorsForEach roleMap fuel rest next

/-- `SysMenuService.GetAllAncestorRoleIDs` over the role table `allRoles` (the
query is taken to succeed).  `ord` is the order in which the final `range`
over the `allRoleIDs` map yields its keys; `none` is no return within the fuel
allowed to each walk. -/
def GetAllAncestorRoleIDs (ord : MapOrder) (fuel : Nat) (allRoles : List SysRole)
    (roleIDs : List Nat) : Option (List Nat) :=
  match ancestorsForEach (buildRoleMap allRoles) fuel roleIDs
      (roleIDs.foldl (fun m id => mapSet m id true) []) with
  | none => none
  | some allRoleIDs => some (ord.enum (mapKeys allRoleIDs))

/-- One upward step of the role walk: from an id present in the table to its
non-zero `ParentID`. -/
def RoleStep (allRoles : List SysRole) (a b : Nat) : Prop :=
  b ≠ 0 ∧ ∃ role, mapGet (buildRoleMap allRoles) a = some role ∧ role.ParentID = b

/-- The parent pointers of the role table contain no cycle. -/
def RoleAcyclic (allRoles : List SysRole) : Prop :=
  ∀ a, ¬ Relation.TransGen (RoleStep allRoles) a a

/-- No ancestor chain that starts at one of `roleIDs` runs into a cycle. -/
def RoleChainsAcyclic (allRoles : List SysRole) (roleIDs : List Nat) : Prop :=
  ∀ r ∈ roleIDs, ∀ a, Relation.ReflTransGen (RoleStep allRoles) r a →
    ¬ Relation.TransGen (RoleStep allRoles) a a

/-! ## The store, `GetAllDescendantIDs` and `BatchDelete` -/

/-- Row of `sys_role_menu`. -/
structure SysRoleMenu where
  RoleID : Nat
  MenuID : Nat
  deriving DecidableEq, Repr

/-- Row of `sys_menu_api`. -/
structure SysMenuApi where
  MenuID : Nat
  ApiID : Nat
  deriving DecidableEq, Repr

/-- Row of `sys_api`. -/
structure SysApi where
  ID : Nat
  Path : String := ""
  Method : String := ""
  deriving DecidableEq, Repr

/-- The tables the menu service reads and writes (live rows). -/
structure Store where
  menus : List SysMenu := []
  roleMenus : List SysRoleMenu := []
  menuApis : List SysMenuApi := []
  apis : List SysApi := []
  deriving DecidableEq, Repr

/-- What a service call leaves behind: the returned error (`none` for `nil`)
and the store after the call. -/
structure Outcome where
  err : Option String
  store : Store
  deriving DecidableEq, Repr

/-- The `childrenMap` of `GetAllDescendantIDs`:
`childrenMap[menu.ParentID] = append(childrenMap[menu.ParentID], menu.ID)`. -/
def buildChildrenMap (allMenus : List SysMenu) : List (Nat × List Nat) :=
  allMenus.foldl
    (fun m menu => mapSet m menu.ParentID ((mapGet m menu.ParentID).getD [] ++ [menu.ID])) []

/-- A loop `for _, id := range ids { f(id) }` over a body that updates an id
set and may fail to return. -/
def forEachID (f : Nat → List (Nat × Bool) → Option (List (Nat × Bool))) :
    List Nat → List (Nat × Bool) → Option (List (Nat × Bool))
  | [], acc => some acc
  | x :: rest, acc =>
    match f x acc with
    | none => none
    | some next => forEachID f rest next

/-- The recursive closure `collectDescendants` of `GetAllDescendantIDs`.  The
fuel bounds the recursion depth; `none` means it was exceeded. -/
def collectDescendants (childrenMap : List (Nat × List Nat)) :
    Nat → Nat → List (Nat × Bool) → Option (List (Nat × Bool))
  | 0, _, _ => none
  | fuel + 1, menuID, allIDs =>
    if (mapGet allIDs menuID).getD false = true then some allIDs
    else
      forEachID (collectDescendants childrenMap fuel)
        ((mapGet childrenMap menuID).getD []) (mapSet allIDs menuID true)

/-- `SysMenuService.GetAllDescendantIDs` over the menu table `allMenus` (the
query is taken to succeed); `ord` is the order of the final `range` over the
`allIDs` map. -/
def GetAllDescendantIDs (ord : MapOrder) (fuel : Nat) (allMenus : List SysMenu)
    (menuIDs : List Nat) : Option (List Nat) :=
  if menuIDs.length = 0 then some []
  else
    match forEachID (collectDescendants (buildChildrenMap allMenus) fuel) menuIDs [] with
    | none => none
    | some allIDs => some (ord.enum (mapKeys allIDs))

/-- The ids `apiIdsToDelete` computed inside the transaction of `BatchDelete`:
the Api ids linked from a menu of `allMenuIDs` that no menu outside
`allMenuIDs` links to. -/
def apiIdsToDelete (menuApis : List SysMenuApi) (allMenuIDs : List Nat) : List Nat :=
  let relatedApiIds :=
    ((menuApis.filter (fun l => decide (l.MenuID ∈ allMenuIDs))).map (fun l => l.ApiID)).dedup
  if 0 < relatedApiIds.length then
    let apiIdsWithRelations :=
      ((menuApis.filter (fun l =>
          decide (l.ApiID ∈ relatedApiIds) && !decide (l.MenuID ∈ allMenuIDs))).map
        (fun l => l.ApiID)).dedup
    let relationsMap := apiIdsWithRelations.foldl (fun m id => mapSet m id true) []
    relatedApiIds.filter (fun apiId => !(mapGet relationsMap apiId).getD false)
  else []

/-- `SysMenuService.BatchDelete` (every query is taken to succeed, so the
transaction commits).  `none` means `GetAllDescendantIDs` did not return within
the fuel. -/
def BatchDelete (ord : MapOrder) (fuel : Nat) (db : Store) (menuIDs : List Nat) :
    Option Outcome :=
  if menuIDs.length = 0 then some ⟨some "菜单ID列表不能为空", db⟩
  else
    match GetAllDescendantIDs ord fuel db.menus menuIDs with
    | none => none
    | some allMenuIDs =>
      if allMenuIDs.length = 0 then some ⟨some "菜单不存在", db⟩
      else if 0 < (db.roleMenus.filter (fun l => decide (l.MenuID ∈ allMenuIDs))).length then
        some ⟨some "存在角色关联这些菜单，无法删除", db⟩
      else
        let toDelete := apiIdsToDelete db.menuApis allMenuIDs
        some ⟨none,
          { menus := db.menus.filter (fun m => !decide (m.ID ∈ allMenuIDs))
            roleMenus := db.roleMenus.filter (fun l => !decide (l.MenuID ∈ allMenuIDs))
            menuApis := db.menuApis.filter (fun l => !decide (l.MenuID ∈ allMenuIDs))
            apis :=
              if 0 < toDelete.length then
                db.apis.filter (fun a => !decide (a.ID ∈ toDelete))
              else db.apis }⟩

/-- One downward step of the menu tree: `b` is the `ID` of a menu whose
`ParentID` is `a`. -/
def ChildStep (allMenus : List SysMenu) (a b : Nat) : Prop :=
  ∃ menu ∈ allMenus, menu.ParentID = a ∧ menu.ID = b

/-- The expanded set of a request: the requested ids and all their
descendants. -/
def InExpandedSet (allMenus : List SysMenu) (menuIDs : List Nat) (x : Nat) : Prop :=
  ∃ r ∈ menuIDs, Relation.ReflTransGen (ChildStep allMenus) r x

/-- Well-formed id set (`map[uint]bool` used as a set): one entry per key and
every entry is `true`. -/
def IdSetOk (all : List (Nat × Bool)) : Prop :=
  (mapKeys all).Nodup ∧ ∀ x ∈ mapKeys all, mapGet all x = some true

/-- Relation between the id set before (`all`) and after (`res`) collecting
from the ids `starts`: nothing is lost, the starts are in, and every id that
is new is reached from a start and has all its children in the set. -/
def Collected (allMenus : List SysMenu) (starts : List Nat)
    (all res : List (Nat × Bool)) : Prop :=
  IdSetOk res ∧
  (∀ y ∈ mapKeys all, y ∈ mapKeys res) ∧
  (∀ s ∈ starts, s ∈ mapKeys res) ∧
  ∀ y ∈ mapKeys res, y ∉ mapKeys all →
    (∃ s ∈ starts, Relation.ReflTransGen (ChildStep allMenus) s y) ∧
    ∀ c, ChildStep allMenus y c → c ∈ mapKeys res

/-- Number of candidate ids of `cands` not yet in the id set: the measure
that bounds the recursion depth of `collectDescendants`. -/
def unvisitedCount (cands : List Nat) (all : List (Nat × Bool)) : Nat :=
  (cands.filter (fun u => !decide (u ∈ mapKeys all))).length

/-- Scenario menus: directory `D1` (1) over menu `M1` (2) over button `B1` (3),
and next to them a menu `M2` (4) over a button `B2` (5). -/
def scenarioMenus : List SysMenu :=
  [{ ID := 1 }, { ID := 2, ParentID := 1, MenuType := 2 },
    { ID := 3, ParentID := 2, MenuType := 3, Permission := "user:add" },
    { ID := 4, MenuType := 2 }, { ID := 5, ParentID := 4, MenuType := 3 }]

/-- Scenario store in which a role is linked to `B1`. -/
def scenarioStoreLinked : Store :=
  { menus := scenarioMenus
    roleMenus := [{ RoleID := 7, MenuID := 3 }]
    menuApis := [{ MenuID := 3, ApiID := 10 }]
    apis := [{ ID := 10 }] }

/-- Scenario store in which no role is linked below `D1`; Api 10 is linked from
`B1` only, Api 11 from `B1` and `B2`, Api 12 from no menu. -/
def scenarioStoreFree : Store :=
  { menus := scenarioMenus
    roleMenus := [{ RoleID := 7, MenuID := 5 }]
    menuApis := [{ MenuID := 3, ApiID := 10 }, { MenuID := 3, ApiID := 11 },
      { MenuID := 5, ApiID := 11 }]
    apis := [{ ID := 10 }, { ID := 11 }, { ID := 12 }] }

/-! ## `SysMenuService.Update` -/

/-- Menu type constant `MenuTypeDir` of `userservice.go`. -/
def MenuTypeDir : Nat := 1

/-- Menu type constant `MenuTypeMenu` of `userservice.go`. -/
def MenuTypeMenu : Nat := 2

/-- Menu type constant `MenuTypeBtn` of `userservice.go`. -/
def MenuTypeBtn : Nat := 3

/-- Modelled from the spec: the declaration of `models.SysMenuUpdateRequest` is
not among the sources; these are the fields that `Update` reads from the
request and that the menu row of this model keeps. -/
structure SysMenuUpdateRequest where
  ID : Nat
  ParentID : Nat := 0
  MenuType : Nat := 1
  Name : String := ""
  Path : String := ""
  Permission : String := ""
  Disable : Bool := false
  SortKey : Int := 0
  deriving DecidableEq, Repr

/-- Modelled from the spec: `models.NewSysMenu` is not among the sources; it is
taken to return the zero value of the row, as `NewSysRole` and its siblings
do. -/
def NewSysMenu : SysMenu :=
  { ID := 0, MenuType := 0 }

/-- Modelled from the spec: `SysMenu.Find` is not among the sources; it is the
single-row query of the store, which loads the first live row meeting the
condition into the receiver and leaves the receiver as it was when no row
does.  Every caller passes a receiver fresh from `NewSysMenu`. -/
def findMenu (menus : List SysMenu) (cond : SysMenu → Bool) : SysMenu :=
  (menus.find? cond).getD NewSysMenu

/-- Modelled from the spec: `SysMenu.IsEmpty` is not among the sources; it is
taken to be the test of its sibling `SysRole.IsEmpty` in `sysrole.go`, which
on a non-nil receiver is `ID == 0`. -/
def SysMenu.IsEmpty (m : SysMenu) : Bool :=
  m.ID == 0

/-- The statement `Save(menu)` for a menu with a non-zero `ID`: the row with
that primary key takes the values of `menu`. -/
def saveMenu (menus : List SysMenu) (menu : SysMenu) : List SysMenu :=
  menus.map (fun m => if m.ID = menu.ID then menu else m)

deriving instance DecidableEq for Except

/-- The block `if req.ParentID > 0 { ... }` of `Update`: `some (some msg)` is
the error it returns, `some none` means it was passed, `none` that
`checkCircularReference` did not return within the fuel. -/
def updateParentCheck (fuel : Nat) (db : Store) (req : SysMenuUpdateRequest) :
    Option (Option String) :=
  if 0 < req.ParentID then
    if req.ParentID = req.ID then some (some "不能将自己设置为父级菜单")
    else
      match checkCircularReference fuel db.menus req.ID req.ParentID with
      | none => none
      | some (Except.error e) => some (some e)
      | some (Except.ok _) =>
        let parentMenu := findMenu db.menus (fun m => decide (m.ID = req.ParentID))
        if parentMenu.IsEmpty then some (some "父级菜单不存在")
        else
          match parentMenu.MenuType with
          | 1 =>
            if req.MenuType ≠ 1 ∧ req.MenuType ≠ 2 then some (some "目录下只能添加目录或菜单")
            else some none
          | 2 =>
            if req.MenuType ≠ 3 then some (some "菜单下只能添加按钮")
            else some none
          | 3 => some (some "按钮下不能添加子项")
          | _ => some (some "未知的父级菜单类型")
  else some none

/-- The checks of `Update` that come before the parent block: the menu exists,
a Button names a parent, name and path are not used by another menu (for a
Directory or Menu), the permission is not used by another Button.  The result
is the error of the first check that fails. -/
def updateFieldChecks (db : Store) (req : SysMenuUpdateRequest) : Option String :=
  if (findMenu db.menus (fun m => decide (m.ID = req.ID))).IsEmpty then some "菜单不存在"
  else if req.MenuType = MenuTypeBtn ∧ req.ParentID = 0 then some "请选择父级菜单"
  else if (req.MenuType = MenuTypeDir ∨ req.MenuType = MenuTypeMenu) ∧
      (findMenu db.menus
        (fun m => decide (m.Name = req.Name ∧ m.ID ≠ req.ID))).IsEmpty = false then
    some "菜单名称已被其他菜单使用"
  else if (req.MenuType = MenuTypeDir ∨ req.MenuType = MenuTypeMenu) ∧
      (findMenu db.menus
        (fun m => decide (m.Path = req.Path ∧ m.ID ≠ req.ID))).IsEmpty = false then
    some "路由路径已被其他菜单使用"
  else if req.MenuType = MenuTypeBtn ∧ req.Permission ≠ "" ∧
      (findMenu db.menus
        (fun m => decide (m.Permission = req.Permission ∧ m.MenuType = MenuTypeBtn ∧
          m.ID ≠ req.ID))).IsEmpty = false then
    some "按钮权限标识已被其他按钮使用"
  else none

/-- The menu that `Update` saves: the row found, with the fields of the
request written over it. -/
def updatedMenu (db : Store) (req : SysMenuUpdateRequest) : SysMenu :=
  { findMenu db.menus (fun m => decide (m.ID = req.ID)) with
    ParentID := req.ParentID
    Path := req.Path
    Name := req.Name
    Disable := req.Disable
    SortKey := req.SortKey
    MenuType := req.MenuType
    Permission := req.Permission }

/-- `SysMenuService.Update` (every query is taken to succeed): the field
checks, the parent block, then the assignment of the request fields and
`Save`.  The result is the returned pair, `Except.error msg` standing for
`(nil, error)`, together with the store after the call; `none` means
`checkCircularReference` did not return within the fuel. -/
def Update (fuel : Nat) (db : Store) (req : SysMenuUpdateRequest) :
    Option (Except String SysMenu × Store) :=
  match updateFieldChecks db req with
  | some msg => some (Except.error msg, db)
  | none =>
    match updateParentCheck fuel db req with
    | none => none
    | some (some msg) => some (Except.error msg, db)
    | some none =>
      some (Except.ok (updatedMenu db req),
        { db with menus := saveMenu db.menus (updatedMenu db req) })

/-- The pairs of types the type-parentage rule allows: a Directory parents
Directories and Menus, a Menu parents Buttons, a Button parents nothing. -/
def parentAllows (parentType childType : Nat) : Bool :=
  match parentType with
  | 1 => childType == 1 || childType == 2
  | 2 => childType == 3
  | _ => false

/-- The type-parentage rule on a menu table: every menu with a non-zero
`ParentID` is of a type allowed under every row that carries that `ID`. -/
def TypeRule (menus : List SysMenu) : Prop :=
  ∀ child ∈ menus, child.ParentID ≠ 0 →
    ∀ parent ∈ menus, parent.ID = child.ParentID →
      parentAllows parent.MenuType child.MenuType = true

instance (menus : List SysMenu) : Decidable (TypeRule menus) := by
  unfold TypeRule
  infer_instance

/-- Scenario table: directory `D1` (1) over menu `M1` (2) over button `B1`
(3), each with a name and a path of its own. -/
def scenarioChain : List SysMenu :=
  [{ ID := 1, Name := "d1", Path := "/d1" },
    { ID := 2, ParentID := 1, MenuType := 2, Name := "m1", Path := "/d1/m1" },
    { ID := 3, ParentID := 2, MenuType := 3, Name := "b1", Permission := "user:add" }]

/-- Request that moves `M1` under the button `B1`. -/
def requestUnderButton : SysMenuUpdateRequest :=
  { ID := 2, ParentID := 3, MenuType := 2, Name := "m1", Path := "/d1/m1" }

/-- Request that turns the menu `M1` into a directory, leaving it under `D1`. -/
def requestRetype : SysMenuUpdateRequest :=
  { ID := 2, ParentID := 1, MenuType := 1, Name := "m1", Path := "/d1/m1" }

/-- Request that moves the menu `M2` of `scenarioMenus` under `D1`. -/
def requestMove : SysMenuUpdateRequest :=
  { ID := 4, ParentID := 1, MenuType := 2, Name := "m2", Path := "/m2" }

/-! ## Users, `GetUserProfile` and `GetRouters` -/

/-- Modelled from the spec: the declaration of `models.User` is not among the
sources; these are the columns of `sys_user` that the queries of
`GetUserProfile` and `GetRouters` read. -/
structure SysUser where
  ID : Nat
  TenantID : Nat := 0
  deriving DecidableEq, Repr

/-- Modelled from the spec: the declaration of `models.SysUserRole` is not
among the sources; it is the row of the join table `sys_user_role` named in the
`many2many` tag of `SysRole.Users`. -/
structure SysUserRole where
  UserID : Nat
  RoleID : Nat
  deriving DecidableEq, Repr

/-- Row of `sys_role` as the queries see it: the node fields used by the tree
and ancestor code, and the column `TenantID`. -/
structure SysRoleRow where
  role : SysRole
  TenantID : Nat := 0

/-- The user and role tables (live rows). -/
structure AuthTables where
  users : List SysUser := []
  userRoles : List SysUserRole := []
  roles : List SysRoleRow := []

/-- The role table as `GetAllAncestorRoleIDs` loads it. -/
def AuthTables.allRoles (auth : AuthTables) : List SysRole :=
  auth.roles.map (fun row => row.role)

/-- Modelled from the spec: `User.Find` and `models.NewUser` are not among the
sources; as with `SysRole.Find`, the first live row meeting the condition is
loaded and the zero value is left when there is none. -/
def findUser (users : List SysUser) (cond : SysUser → Bool) : SysUser :=
  (users.find? cond).getD { ID := 0 }

/-- Modelled from the spec: `User.IsEmpty` is not among the sources; it is
taken to be the test of `SysRole.IsEmpty`, `ID == 0`. -/
def SysUser.IsEmpty (u : SysUser) : Bool :=
  u.ID == 0

/-- Modelled from the spec: the association `User.Roles` filled by
`Preload("Roles")` is not among the sources; it is the roles of `sys_role`
joined to the user through `sys_user_role`. -/
def preloadRoles (auth : AuthTables) (user : SysUser) : List SysRole :=
  (auth.roles.filter (fun row =>
    auth.userRoles.any (fun l => decide (l.UserID = user.ID ∧ l.RoleID = row.role.ID)))).map
    (fun row => row.role)

/-- `SysRoleList.GetRoleIDs`. -/
def GetRoleIDs (list : List SysRole) : List Nat :=
  list.map SysRole.ID

/-- Modelled from the spec: `common.IsSkipAuthUser` is not among the sources;
it is membership in the configured bypass list, here the parameter
`skipAuth`. -/
def IsSkipAuthUser (skipAuth : List Nat) (userID : Nat) : Bool :=
  decide (userID ∈ skipAuth)

/-- The loop `permissionSet[menu.Permission] = true` over the button menus: a
`map[string]bool` holding only `true`, kept as the list of its keys. -/
def permissionSetOf (buttonMenus : List SysMenu) : List String :=
  buttonMenus.foldl
    (fun keys menu => if menu.Permission ∈ keys then keys else keys ++ [menu.Permission]) []

/-- `User.GetUserProfile` (every query is taken to succeed), reduced to the
`Permissions` of the profile it returns.  `ordRoles` and `ordPerms` are the
orders of the `range` over the role id map and over `permissionSet`; `none`
means `GetAllAncestorRoleIDs` did not return within the fuel. -/
def GetUserProfile (ordRoles ordPerms : MapOrder) (fuel : Nat) (skipAuth : List Nat)
    (db : Store) (auth : AuthTables) (userID : Nat) : Option (Except String (List String)) :=
  let user := findUser auth.users (fun u => decide (u.ID = userID))
  if user.IsEmpty then some (Except.error "用户不存在")
  else if IsSkipAuthUser skipAuth userID then some (Except.ok ["*:*:*"])
  else if (preloadRoles auth user).length ≠ 0 then
    match GetAllAncestorRoleIDs ordRoles fuel auth.allRoles
        (GetRoleIDs (preloadRoles auth user)) with
    | none => none
    | some roleIDs =>
      let roleMenuList := db.roleMenus.filter (fun l => decide (l.RoleID ∈ roleIDs))
      if 0 < roleMenuList.length then
        let menuIDs : List Nat := roleMenuList.map (fun roleMenu => roleMenu.MenuID)
        let buttonMenus := db.menus.filter (fun m : SysMenu =>
          decide (m.ID ∈ menuIDs ∧ m.MenuType = MenuTypeBtn ∧ m.Permission ≠ ""))
        some (Except.ok (ordPerms.enum (permissionSetOf buttonMenus)))
      else some (Except.ok [])
  else some (Except.ok [])

/-- A menu with its `Children`, as the response of `GetRouters` carries it. -/
inductive MenuNode where
  | mk (menu : SysMenu) (Children : List MenuNode)

/-- Modelled from the spec: `common.GetClaims` and its result type are not
among the sources; these are the fields of the claims that `GetRouters`
reads. -/
structure Claims where
  UserID : Nat
  TenantID : Nat := 0
  deriving DecidableEq, Repr

/-- `SysMenuController.GetRouters` (every query is taken to succeed).  The
result is the menu list handed to `Success`, or the message handed to
`FailAndAbort`, which is not among the sources and is taken to end the handler;
`claims` is what `GetClaims` returned (`none` for `nil`), `notCheckUserIds` the
configured list `server.notcheckuser`, and `buildTree` stands for
`SysMenuList.BuildTree().TreeSort()`, which is not among the sources either.
`none` means `GetAllAncestorRoleIDs` did not return within the fuel. -/
def GetRouters (ord : MapOrder) (fuel : Nat) (buildTree : List SysMenu → List MenuNode)
    (notCheckUserIds : List Nat) (db : Store) (auth : AuthTables) :
    Option Claims → Option (Except String (List MenuNode))
  | none => some (Except.error "用户未登录")
  | some claims =>
    let finish : List SysMenu → Option (Except String (List MenuNode)) := fun menuList =>
      if menuList.length ≠ 0 then some (Except.ok (buildTree menuList))
      else some (Except.ok [])
    if notCheckUserIds.any (fun userId => decide (userId = claims.UserID)) then
      finish (db.menus.filter (fun m =>
        decide (m.Disable = false ∧ (m.MenuType = 1 ∨ m.MenuType = 2))))
    else
      let user := findUser auth.users (fun u => decide (u.ID = claims.UserID))
      let sysUserRoleList :=
        if user.TenantID = 0 then
          auth.userRoles.filter (fun l => decide (l.UserID = claims.UserID))
        else
          auth.userRoles.filter (fun l =>
            decide (l.UserID = claims.UserID ∧
              l.RoleID ∈ (auth.roles.filter
                (fun row => decide (row.TenantID = claims.TenantID))).map
                (fun row => row.role.ID)))
      if sysUserRoleList.length = 0 then some (Except.error "用户未分配角色")
      else
        match GetAllAncestorRoleIDs ord fuel auth.allRoles
            (sysUserRoleList.map (fun sur => sur.RoleID)) with
        | none => none
        | some allRoleIds =>
          finish (db.menus.filter (fun m =>
            decide (m.Disable = false ∧ (m.MenuType = 1 ∨ m.MenuType = 2) ∧
              m.ID ∈ (db.roleMenus.filter (fun l => decide (l.RoleID ∈ allRoleIds))).map
                (fun l => l.MenuID))))

/-- The ancestor closure of a list of role ids: the ids themselves and
everything reached from one of them by upward steps. -/
def InRoleClosure (allRoles : List SysRole) (roleIDs : List Nat) (x : Nat) : Prop :=
  x ∈ roleIDs ∨ ∃ r ∈ roleIDs, Relation.TransGen (RoleStep allRoles) r x

/-- Scenario store: the chain `D1 → M1 → B1` and the role 7 linked to `B1`
only. -/
def scenarioStoreButtonOnly : Store :=
  { menus := scenarioChain, roleMenus := [{ RoleID := 7, MenuID := 3 }] }

/-- Scenario store: the chain `D1 → M1 → B1`, with `B1` linked to the role 8
only. -/
def scenarioStoreInherited : Store :=
  { menus := scenarioChain, roleMenus := [{ RoleID := 8, MenuID := 3 }] }

/-- Scenario users: user 9 holds the role 7, whose parent is the root role 8. -/
def scenarioAuthInherit : AuthTables :=
  { users := [{ ID := 9 }]
    userRoles := [{ UserID := 9, RoleID := 7 }]
    roles := [{ role := SysRole.mk 7 0 8 [] }, { role := SysRole.mk 8 0 0 [] }] }

/-- Scenario users: user 9 holds the role 1 of the role cycle `1 → 2 → 1`. -/
def scenarioAuthCycle : AuthTables :=
  { users := [{ ID := 9 }]
    userRoles := [{ UserID := 9, RoleID := 1 }]
    roles := [{ role := SysRole.mk 1 0 2 [] }, { role := SysRole.mk 2 0 1 [] }] }

/-- Scenario users: user 9 holds the root role 7 and nothing else. -/
def scenarioAuth : AuthTables :=
  { users := [{ ID := 9 }]
    userRoles := [{ UserID := 9, RoleID := 7 }]
    roles := [{ role := SysRole.mk 7 0 0 [] }] }

/-- The scenario of a user whose only role, `r`, is linked to the button `b1`
and to nothing else: the user exists and every row of `sys_user_role` of the
user names `r`, a role of the table that the tenant filter of `GetRouters`
lets through; every RoleMenuLink of `r` or of one of its ancestors points to
`b1`, which is a Button with permission `user:add`; no ancestor chain of `r`
runs into a cycle. -/
structure ButtonOnlyScenario (db : Store) (auth : AuthTables) (claims : Claims)
    (r b1 : Nat) : Prop where
  userExists : (findUser auth.users (fun u => decide (u.ID = claims.UserID))).IsEmpty = false
  onlyRole : ∀ l ∈ auth.userRoles, l.UserID = claims.UserID → l.RoleID = r
  hasRole : ∃ l ∈ auth.userRoles, l.UserID = claims.UserID ∧ l.RoleID = r
  roleExists : ∃ row ∈ auth.roles, row.role.ID = r
  tenantOk : (findUser auth.users (fun u => decide (u.ID = claims.UserID))).TenantID = 0 ∨
    ∃ row ∈ auth.roles, row.role.ID = r ∧ row.TenantID = claims.TenantID
  linksOnlyButton : ∀ l ∈ db.roleMenus, InRoleClosure auth.allRoles [r] l.RoleID → l.MenuID = b1
  linked : ∃ l ∈ db.roleMenus, l.RoleID = r ∧ l.MenuID = b1
  button : ∀ m ∈ db.menus, m.ID = b1 → m.MenuType = MenuTypeBtn ∧ m.Permission = "user:add"
  buttonExists : ∃ m ∈ db.menus, m.ID = b1
  acyclic : RoleChainsAcyclic auth.allRoles [r]

/-! ## `SetMenuApis` -/

/-- `SysMenuController.SetMenuApis` for a request that passed `Validate`
(every query is taken to succeed, so the transaction commits).  The result is
the message handed to `FailAndAbort`, which is not among the sources and is
taken to end the handler (`none` when `SuccessWithMessage` is reached), and the
store after the call.  `casbinFails` stands for
`CasbinService.UpdateRoleApiPermissionsByMenuID`, which is not among the
sources either: whether it returns an error on the committed store. -/
def SetMenuApis (casbinFails : Store → Nat → Bool) (db : Store) (menuID : Nat)
    (apiIDs : List Nat) : Outcome :=
  if (findMenu db.menus (fun m => decide (m.ID = menuID))).IsEmpty then
    ⟨some "菜单不存在", db⟩
  else if 0 < apiIDs.length ∧
      apiIDs.length ≠ (db.apis.filter (fun a => decide (a.ID ∈ apiIDs))).length then
    ⟨some "存在不存在的API ID", db⟩
  else
    let committed : Store :=
      { db with
        menuApis :=
          db.menuApis.filter (fun l => !decide (l.MenuID = menuID)) ++
            (if 0 < apiIDs.length then
              apiIDs.map (fun apiID => ({ MenuID := menuID, ApiID := apiID } : SysMenuApi))
            else []) }
    if casbinFails committed menuID then ⟨some "更新角色API权限失败", committed⟩
    else ⟨none, committed⟩

/-- Scenario store for `SetMenuApis`: menu 1, linked to Api 4, and the Apis 4
and 5. -/
def scenarioStoreApis : Store :=
  { menus := [{ ID := 1 }]
    menuApis := [{ MenuID := 1, ApiID := 4 }]
    apis := [{ ID := 4 }, { ID := 5 }] }

/-! ## Import: `ProcessMenuImport` and `CreateMenuApis` -/

/-- A menu of an import document, as `ProcessMenuImport` and `CreateMenuApis`
hold it: the row fields, the field `CreatedBy` that the import overwrites, and
the nested `Apis` and `Children`. -/
inductive ImportMenu where
  | mk (menu : SysMenu) (CreatedBy : Nat) (Apis : List SysApi) (Children : List ImportMenu)

namespace ImportMenu

/-- The row fields of a document menu. -/
def menu : ImportMenu → SysMenu
  | mk m _ _ _ => m

/-- Field `CreatedBy`. -/
def CreatedBy : ImportMenu → Nat
  | mk _ c _ _ => c

/-- Field `Apis`. -/
def Apis : ImportMenu → List SysApi
  | mk _ _ a _ => a

/-- Field `Children`. -/
def Children : ImportMenu → List ImportMenu
  | mk _ _ _ c => c

end ImportMenu

/-- The state of the import transaction `tx`: the store, the ids that the
database assigns to the next row created in `sys_menu` and in `sys_api`, and
the Go map `idMap`, which both passes share. -/
structure ImportTx where
  store : Store
  nextMenuID : Nat
  nextApiID : Nat
  idMap : List (Nat × Nat) := []
  deriving DecidableEq, Repr

/-- The statements `Create(menu)` and `idMap[oldID] = newMenuID` of the loop
body of `ProcessMenuImport`: a row with the fields of the menu, `ID` cleared
and hence assigned by the database, and `ParentID = parentID` is added to
`sys_menu`, and the id assigned is filed under the old `ID`. -/
def createMenuRow (tx : ImportTx) (menu : SysMenu) (parentID : Nat) : ImportTx :=
  { tx with
    store :=
      { tx.store with
        menus := tx.store.menus ++ [{ menu with ID := tx.nextMenuID, ParentID := parentID }] }
    nextMenuID := tx.nextMenuID + 1
    idMap := mapSet tx.idMap menu.ID tx.nextMenuID }

mutual
/-- `SysMenuService.ProcessMenuImport` (every `Create` is taken to succeed):
the loop over `menuList`.  The result is the transaction state after the call
and the document as the call leaves it in memory. -/
def ProcessMenuImport (tx : ImportTx) (currentUserID : Nat) :
    List ImportMenu → Nat → ImportTx × List ImportMenu
  | [], _ => (tx, [])
  | node :: rest, parentID =>
    let done := processMenuNode tx currentUserID node parentID
    let more := ProcessMenuImport done.1 currentUserID rest parentID
    (more.1, done.2 :: more.2)
/-- The loop body of `ProcessMenuImport` for one menu: the row is created and
its id filed in `idMap`, the children are processed under the new id
(`newMenuID`, the id the database assigned), and `ID` and `ParentID` of the
document menu are put back (`CreatedBy` is not). -/
def processMenuNode (tx : ImportTx) (currentUserID : Nat) :
    ImportMenu → Nat → ImportTx × ImportMenu
  | ImportMenu.mk menu _ apis children, parentID =>
    let newMenuID := tx.nextMenuID
    let below :=
      if 0 < children.length then
        ProcessMenuImport (createMenuRow tx menu parentID) currentUserID children newMenuID
      else (createMenuRow tx menu parentID, children)
    (below.1, ImportMenu.mk menu currentUserID apis below.2)
end

/-- Modelled from the spec: `SysApi.FindByPathAndMethod`, `models.NewSysApi` and
`SysApi.IsEmpty` are not among the sources; the Api row matching path and
method is looked up, the zero value (`ID == 0`, which is what `IsEmpty` tests)
standing for none. -/
def findApiByPathAndMethod (apis : List SysApi) (path method : String) : SysApi :=
  (apis.find? (fun a => decide (a.Path = path ∧ a.Method = method))).getD { ID := 0 }

/-- The body of the loop over `menu.Apis` in `CreateMenuApis`: the Api is looked
up by path and method and created when there is none, then the link of the new
menu id to it is created unless it is there (`FirstOrCreate`). -/
def createMenuApi (newMenuID : Nat) (tx : ImportTx) (api : SysApi) : ImportTx :=
  let existingAPI := findApiByPathAndMethod tx.store.apis api.Path api.Method
  let withApi : ImportTx × Nat :=
    if existingAPI.ID = 0 then
      ({ tx with
          store := { tx.store with apis := tx.store.apis ++ [{ api with ID := tx.nextApiID }] }
          nextApiID := tx.nextApiID + 1 },
        tx.nextApiID)
    else (tx, existingAPI.ID)
  let menuApi : SysMenuApi := { MenuID := newMenuID, ApiID := withApi.2 }
  if menuApi ∈ withApi.1.store.menuApis then withApi.1
  else
    { withApi.1 with
      store := { withApi.1.store with menuApis := withApi.1.store.menuApis ++ [menuApi] } }

mutual
/-- `SysMenuService.CreateMenuApis` (every query is taken to succeed): the loop
over `menuList`.  It restores what it changes in the document, so only the
transaction state is returned. -/
def CreateMenuApis (tx : ImportTx) : List ImportMenu → ImportTx
  | [] => tx
  | node :: rest => CreateMenuApis (createMenuNodeApis tx node) rest
/-- The loop body of `CreateMenuApis` for one menu: `newMenuID := idMap[menu.ID]`
(0 when the key is absent), the Apis of the menu, then its children. -/
def createMenuNodeApis (tx : ImportTx) : ImportMenu → ImportTx
  | ImportMenu.mk menu _ apis children =>
    let newMenuID := (mapGet tx.idMap menu.ID).getD 0
    let linked := if 0 < apis.length then apis.foldl (createMenuApi newMenuID) tx else tx
    if 0 < children.length then CreateMenuApis linked children else linked
end

mutual
/-- Number of menus of a document forest. -/
def sizeList : List ImportMenu → Nat
  | [] => 0
  | node :: rest => sizeNode node + sizeList rest
/-- Number of menus of a document tree. -/
def sizeNode : ImportMenu → Nat
  | ImportMenu.mk _ _ _ children => 1 + sizeList children
end

mutual
/-- The numbering that the import is to realise, following the words of the
claim: the menus of the forest in pre-order (a menu before its children), each
with a new id, consecutive from `next`, and with the new id of the menu that
encloses it (`parent` at the top level). -/
def numberList (next parent : Nat) : List ImportMenu → List (Nat × Nat × ImportMenu)
  | [] => []
  | node :: rest =>
    numberNode next parent node ++ numberList (next + sizeNode node) parent rest
/-- The numbering of one document tree. -/
def numberNode (next parent : Nat) : ImportMenu → List (Nat × Nat × ImportMenu)
  | ImportMenu.mk menu createdBy apis children =>
    (next, parent, ImportMenu.mk menu createdBy apis children) ::
      numberList (next + 1) next children
end

/-- The row that the import is to create for a numbered document menu: its
fields under the new id and the new parent id. -/
def rowOf (t : Nat × Nat × ImportMenu) : SysMenu :=
  { t.2.2.menu with ID := t.1, ParentID := t.2.1 }

mutual
/-- The menus of a document forest in pre-order, with `ID` and `ParentID` as
the document holds them. -/
def docMenus : List ImportMenu → List SysMenu
  | [] => []
  | node :: rest => docMenusNode node ++ docMenus rest
/-- The menus of a document tree in pre-order. -/
def docMenusNode : ImportMenu → List SysMenu
  | ImportMenu.mk menu _ _ children => menu :: docMenus children
end

mutual
/-- The document as a pass of `ProcessMenuImport` under the user `uid` leaves
it in memory: `CreatedBy` is `uid` in every menu and nothing else differs. -/
def restampList (uid : Nat) : List ImportMenu → List ImportMenu
  | [] => []
  | node :: rest => restampNode uid node :: restampList uid rest
/-- The document tree as a pass of `ProcessMenuImport` leaves it. -/
def restampNode (uid : Nat) : ImportMenu → ImportMenu
  | ImportMenu.mk menu _ apis children => ImportMenu.mk menu uid apis (restampList uid children)
end

/-- Scenario document: two top-level menus that carry the same id 1; the first
has an Api, the second has none. -/
def scenarioDocClash : List ImportMenu :=
  [ImportMenu.mk { ID := 1, Name := "a" } 0 [{ ID := 0, Path := "/a", Method := "GET" }] [],
    ImportMenu.mk { ID := 1, Name := "b" } 0 [] []]

/-- Scenario document: menu 1 with an Api over menu 2 with an Api of its own. -/
def scenarioDoc : List ImportMenu :=
  [ImportMenu.mk { ID := 1, Name := "a" } 0 [{ ID := 0, Path := "/a", Method := "GET" }]
    [ImportMenu.mk { ID := 2, ParentID := 1, MenuType := 2, Name := "b" } 0
      [{ ID := 0, Path := "/b", Method := "GET" }] []]]

/-- Scenario transaction: an empty store whose next menu id is 10 and next Api
id is 20. -/
def scenarioTx : ImportTx :=
  { store := {}, nextMenuID := 10, nextApiID := 20 }

/-! ## Theorems -/

theorem roleLess_strictWeak : StrictWeak roleLess := by
  constructor
  · intro a
    simp only [roleLess]
    split_ifs <;> simp_all
  · intro a b c
    simp only [roleLess]
    split_ifs <;> simp_all <;> omega
  · intro a b c
    simp only [roleLess]
    split_ifs <;> simp_all <;> omega

/-- Unfolding of `TreeSort` without the membership bookkeeping. -/
theorem TreeSort_eq (s : SliceSorter) (list : List SysRole) :
    TreeSort s list =
      if list.length = 0 then list
      else (s.sort roleLess list).map (fun item =>
        if 0 < item.Children.length then
          SysRole.mk item.ID item.SortKey item.ParentID (TreeSort s item.Children)
        else item) := by
  rw [TreeSort]
  split
  · rfl
  · exact List.attach_map_coe _ (fun item =>
      if 0 < item.Children.length then
        SysRole.mk item.ID item.SortKey item.ParentID (TreeSort s item.Children)
      else item)

theorem mem_groupsOfList (g : List SysRole) (l : List SysRole) :
    g ∈ groupsOfList l ↔ ∃ n ∈ l, g ∈ groupsOfNode n := by
  induction l with
  | nil => simp [groupsOfList]
  | cons n rest ih => simp [groupsOfList, ih]

theorem groupOrdered_of_sorted (l : List SysRole)
    (h : l.Pairwise (fun a b => roleLess b a = false)) : GroupOrdered l := by
  refine ⟨?_, ?_, ?_⟩
  · refine h.imp ?_
    intro a b hab hb ha
    simp [roleLess, ha, hb] at hab
  · refine (h.filter _).imp_of_mem ?_
    intro a b ha hb hab
    have ha0 : a.SortKey ≠ 0 := by simpa using (List.mem_filter.mp ha).2
    have hb0 : b.SortKey ≠ 0 := by simpa using (List.mem_filter.mp hb).2
    simp [roleLess, ha0, hb0] at hab
    exact hab
  · refine (h.filter _).imp_of_mem ?_
    intro a b ha hb hab
    have ha0 : a.SortKey = 0 := by simpa using (List.mem_filter.mp ha).2
    have hb0 : b.SortKey = 0 := by simpa using (List.mem_filter.mp hb).2
    simp [roleLess, ha0, hb0] at hab
    exact hab

/-- The rule of a sibling group reads only `ID` and `Sort`. -/
theorem groupOrdered_map (f : SysRole → SysRole) (hid : ∀ n, (f n).ID = n.ID)
    (hk : ∀ n, (f n).SortKey = n.SortKey) (l : List SysRole) (h : GroupOrdered l) :
    GroupOrdered (l.map f) := by
  obtain ⟨h1, h2, h3⟩ := h
  refine ⟨?_, ?_, ?_⟩
  · rw [List.pairwise_map]
    simpa [hk] using h1
  · rw [List.filter_map, List.pairwise_map]
    simpa [Function.comp_def, hk] using h2
  · rw [List.filter_map, List.pairwise_map]
    simpa [Function.comp_def, hk, hid] using h3

/-- C1. `TreeSort` orders every sibling group of its result (the top-level list
and the `Children` of every node at every depth): nodes with `Sort != 0` come
before nodes with `Sort == 0`, the former ascend by `Sort`, the latter by `ID`.
It holds for every implementation of `sort.Slice` that meets its contract. -/
theorem TreeSort_orders_every_group (s : SliceSorter) (list : List SysRole) :
    ∀ g ∈ siblingGroups (TreeSort s list), GroupOrdered g := by
  obtain ⟨n, hsz⟩ : ∃ n, sizeOf list = n := ⟨_, rfl⟩
  induction n using Nat.strong_induction_on generalizing list with
  | _ n ih =>
    subst hsz
    intro g hg
    rw [TreeSort_eq] at hg
    split at hg
    · rename_i hlen
      have : list = [] := List.length_eq_zero.mp hlen
      subst this
      simp [siblingGroups, groupsOfList] at hg
      subst hg
      simp [GroupOrdered]
    · simp only [siblingGroups, List.mem_cons, mem_groupsOfList, List.mem_map] at hg
      rcases hg with rfl | ⟨n, ⟨item, hitem, rfl⟩, hgn⟩
      · apply groupOrdered_map
        · intro n; split <;> simp [SysRole.ID]
        · intro n; split <;> simp [SysRole.SortKey]
        · exact groupOrdered_of_sorted _ (s.sorted roleLess list roleLess_strictWeak)
      · have hmem : item ∈ list := (s.perm roleLess list).mem_iff.mp hitem
        have h1 := List.sizeOf_lt_of_mem hmem
        cases item with
        | mk i k p c =>
          simp only [SysRole.Children, SysRole.ID, SysRole.SortKey, SysRole.ParentID] at hgn
          have h2 : sizeOf c < sizeOf list := by
            simp only [SysRole.mk.sizeOf_spec] at h1; omega
          split at hgn
          · simp only [groupsOfNode, List.mem_cons] at hgn
            exact ih _ h2 c rfl g (by simpa [siblingGroups] using hgn)
          · rename_i hc
            have : c = [] := by
              cases c with
              | nil => rfl
              | cons x xs => simp at hc
            subst this
            simp [groupsOfNode, groupsOfList] at hgn
            subst hgn
            simp [GroupOrdered]

/-- Instance of C1: four siblings, two of them unset, sorted by insertion sort. -/
theorem TreeSort_orders_every_group_witness :
    TreeSort insertionSorter
        [SysRole.mk 4 0 0 [], SysRole.mk 2 5 0 [], SysRole.mk 1 0 0 [], SysRole.mk 3 2 0 []]
      = [SysRole.mk 3 2 0 [], SysRole.mk 2 5 0 [], SysRole.mk 1 0 0 [], SysRole.mk 4 0 0 []] ∧
    [SysRole.mk 3 2 0 [], SysRole.mk 2 5 0 [], SysRole.mk 1 0 0 [], SysRole.mk 4 0 0 []]
      ∈ siblingGroups (TreeSort insertionSorter
        [SysRole.mk 4 0 0 [], SysRole.mk 2 5 0 [], SysRole.mk 1 0 0 [], SysRole.mk 3 2 0 []]) ∧
    GroupOrdered
      [SysRole.mk 3 2 0 [], SysRole.mk 2 5 0 [], SysRole.mk 1 0 0 [], SysRole.mk 4 0 0 []] := by
  have heval : TreeSort insertionSorter
      [SysRole.mk 4 0 0 [], SysRole.mk 2 5 0 [], SysRole.mk 1 0 0 [], SysRole.mk 3 2 0 []]
      = [SysRole.mk 3 2 0 [], SysRole.mk 2 5 0 [], SysRole.mk 1 0 0 [], SysRole.mk 4 0 0 []] := by
    rw [TreeSort_eq]
    simp only [List.length_cons, List.length_nil, Nat.add_one_ne_zero, if_false]
    have hs : insertionSorter.sort roleLess
        [SysRole.mk 4 0 0 [], SysRole.mk 2 5 0 [], SysRole.mk 1 0 0 [], SysRole.mk 3 2 0 []]
        = [SysRole.mk 3 2 0 [], SysRole.mk 2 5 0 [], SysRole.mk 1 0 0 [], SysRole.mk 4 0 0 []] := by
      simp [insertionSorter, insertionSort, orderedInsert, roleLess, SysRole.SortKey,
        SysRole.ID]
    rw [hs]
    simp [SysRole.Children]
  have hmem : [SysRole.mk 3 2 0 [], SysRole.mk 2 5 0 [], SysRole.mk 1 0 0 [], SysRole.mk 4 0 0 []]
      ∈ siblingGroups (TreeSort insertionSorter
        [SysRole.mk 4 0 0 [], SysRole.mk 2 5 0 [], SysRole.mk 1 0 0 [], SysRole.mk 3 2 0 []]) := by
    rw [heval]
    exact List.mem_cons_self _ _
  exact ⟨heval, hmem, TreeSort_orders_every_group insertionSorter _ _ hmem⟩

/-! ### Go maps -/

theorem mapGet_mapSet {V : Type} (m : List (Nat × V)) (k : Nat) (v : V) (k2 : Nat) :
    mapGet (mapSet m k v) k2 = if k = k2 then some v else mapGet m k2 := by
  induction m with
  | nil => simp [mapSet, mapGet]
  | cons e rest ih =>
    obtain ⟨k1, v1⟩ := e
    simp only [mapSet]
    by_cases h1 : k1 = k
    · subst h1
      simp only [if_true, mapGet]
      split <;> rfl
    · simp only [h1, if_false, mapGet, ih]
      by_cases h2 : k1 = k2
      · subst h2
        simp [Ne.symm h1]
      · simp [h2]

theorem mapKeys_mapSet {V : Type} (m : List (Nat × V)) (k : Nat) (v : V) :
    mapKeys (mapSet m k v) = if k ∈ mapKeys m then mapKeys m else mapKeys m ++ [k] := by
  induction m with
  | nil => simp [mapSet, mapKeys]
  | cons e rest ih =>
    obtain ⟨k1, v1⟩ := e
    simp only [mapKeys] at ih ⊢
    simp only [mapSet]
    by_cases h1 : k1 = k
    · subst h1
      simp
    · have h1s : ¬ k = k1 := fun h => h1 h.symm
      simp only [h1, if_false, List.map_cons, ih, List.mem_cons, h1s, false_or]
      split <;> simp

theorem mapGet_isSome_iff {V : Type} (m : List (Nat × V)) (k : Nat) :
    (mapGet m k).isSome = true ↔ k ∈ mapKeys m := by
  induction m with
  | nil => simp [mapGet, mapKeys]
  | cons e rest ih =>
    obtain ⟨k1, v1⟩ := e
    simp only [mapKeys] at ih ⊢
    simp only [mapGet]
    by_cases h1 : k1 = k
    · simp [h1]
    · have h1s : ¬ k = k1 := fun h => h1 h.symm
      simp [h1, h1s, ih]

/-- Facts about a map filled by a loop `m[key x] = val x` over a list. -/
theorem mapFill_spec {X V : Type} (kf : X → Nat) (vf : X → V) (l : List X)
    (init : List (Nat × V)) (hinit : (mapKeys init).Nodup) :
    (mapKeys (l.foldl (fun m x => mapSet m (kf x) (vf x)) init)).Nodup ∧
    (mapKeys (l.foldl (fun m x => mapSet m (kf x) (vf x)) init)).length
      ≤ (mapKeys init).length + l.length ∧
    (∀ k, k ∈ mapKeys (l.foldl (fun m x => mapSet m (kf x) (vf x)) init) ↔
      k ∈ mapKeys init ∨ ∃ x ∈ l, kf x = k) ∧
    (∀ k v, mapGet (l.foldl (fun m x => mapSet m (kf x) (vf x)) init) k = some v →
      mapGet init k = some v ∨ ∃ x ∈ l, kf x = k ∧ vf x = v) := by
  induction l generalizing init with
  | nil => simp [hinit]
  | cons x rest ih =>
    simp only [List.foldl_cons]
    have hkeys := mapKeys_mapSet init (kf x) (vf x)
    have hnd : (mapKeys (mapSet init (kf x) (vf x))).Nodup := by
      rw [hkeys]
      split
      · exact hinit
      · rename_i hnot
        exact List.Nodup.append hinit (List.nodup_singleton _) (by simpa using hnot)
    have hlen : (mapKeys (mapSet init (kf x) (vf x))).length ≤ (mapKeys init).length + 1 := by
      rw [hkeys]
      split <;> simp
    have hmem : ∀ k, k ∈ mapKeys (mapSet init (kf x) (vf x)) ↔ k ∈ mapKeys init ∨ kf x = k := by
      intro k
      rw [hkeys]
      split
      · rename_i hin
        constructor
        · exact Or.inl
        · rintro (h | h)
          · exact h
          · exact h ▸ hin
      · simp [eq_comm]
    obtain ⟨i1, i2, i3, i4⟩ := ih (mapSet init (kf x) (vf x)) hnd
    refine ⟨i1, ?_, ?_, ?_⟩
    · simp only [List.length_cons]; omega
    · intro k
      rw [i3 k, hmem k]
      simp only [List.mem_cons, exists_eq_or_imp]
      tauto
    · intro k v hget
      rcases i4 k v hget with h | ⟨y, hy, hk, hv⟩
      · rw [mapGet_mapSet] at h
        split at h
        · rename_i hk
          right
          exact ⟨x, List.mem_cons_self _ _, hk, by simpa using h⟩
        · exact Or.inl h
      · right
        exact ⟨y, List.mem_cons_of_mem _ hy, hk, hv⟩

/-! ### Walks along parent pointers -/

/-- A walk along an acyclic relation that stays inside a finite key set is no
longer than the key set. -/
theorem acyclic_walk_length_le {R : Nat → Nat → Prop} (keys : List Nat)
    (hacyc : ∀ a, ¬ Relation.TransGen R a a) (walk : List Nat)
    (hchain : walk.Chain' R) (hsub : ∀ x ∈ walk, x ∈ keys) :
    walk.length ≤ keys.length := by
  have hchainT : walk.Chain' (Relation.TransGen R) :=
    hchain.imp (fun _ _ h => Relation.TransGen.single h)
  have hpair : walk.Pairwise (Relation.TransGen R) := List.chain'_iff_pairwise.mp hchainT
  have hnodup : walk.Nodup := by
    refine hpair.imp ?_
    intro a b h hab
    subst hab
    exact hacyc a h
  exact (List.subperm_of_subset hnodup hsub).length_le

/-! ### `checkCircularReference` -/

theorem buildMenuMap_keys_length (allMenus : List SysMenu) :
    (mapKeys (buildMenuMap allMenus)).length ≤ allMenus.length := by
  have h := (mapFill_spec SysMenu.ID id allMenus [] (by simp [mapKeys])).2.1
  simpa [buildMenuMap, mapKeys] using h

theorem buildMenuMap_get (allMenus : List SysMenu) (a : Nat) (menu : SysMenu)
    (h : mapGet (buildMenuMap allMenus) a = some menu) : menu ∈ allMenus ∧ menu.ID = a := by
  have h4 := (mapFill_spec SysMenu.ID id allMenus [] (by simp [mapKeys])).2.2.2 a menu
  rcases h4 (by simpa [buildMenuMap] using h) with h0 | ⟨x, hx, hk, hv⟩
  · simp [mapGet] at h0
  · simp only [id] at hv
    subst hv
    exact ⟨hx, hk⟩

/-- When `checkParent` has not returned after `fuel + 1` invocations it has
walked `fuel + 1` menus of the table, none of them the node being checked. -/
theorem checkParent_none_walk (allMenus : List SysMenu) (cur : Nat) :
    ∀ fuel x, checkParent (buildMenuMap allMenus) cur (fuel + 1) x = none →
      ∃ walk : List Nat, walk.length = fuel + 1 ∧ walk.head? = some x ∧ x ≠ 0 ∧
        walk.Chain' (fun a b => a ≠ cur ∧ MenuStep allMenus a b) ∧
        ∀ y ∈ walk, y ∈ mapKeys (buildMenuMap allMenus) := by
  intro fuel
  induction fuel with
  | zero =>
    intro x h
    simp only [checkParent] at h
    split at h
    · cases h
    · split at h
      · cases h
      · rename_i hx0 hxc
        split at h
        · cases h
        · rename_i menu hget
          refine ⟨[x], rfl, rfl, hx0, List.chain'_singleton _, ?_⟩
          intro y hy
          rw [List.mem_singleton] at hy
          subst hy
          exact (mapGet_isSome_iff _ _).mp (by simp [hget])
  | succ fuel ih =>
    intro x h
    rw [checkParent] at h
    split at h
    · cases h
    · split at h
      · cases h
      · rename_i hx0 hxc
        split at h
        · cases h
        · rename_i menu hget
          obtain ⟨walk, hlen, hhead, hp0, hchain, hsub⟩ := ih menu.ParentID h
          refine ⟨x :: walk, by simp [hlen], rfl, hx0, ?_, ?_⟩
          · rw [List.chain'_cons']
            refine ⟨?_, hchain⟩
            intro y hy
            rw [hhead] at hy
            cases hy
            exact ⟨hxc, hx0, hp0, menu, hget, rfl⟩
          · intro y hy
            rcases List.mem_cons.mp hy with rfl | hy
            · exact (mapGet_isSome_iff _ _).mp (by simp [hget])
            · exact hsub y hy

/-- Without a cycle that avoids the node being checked, `checkParent` returns
within `N + 1` invocations, `N` the number of menus. -/
theorem checkParent_terminates (allMenus : List SysMenu) (cur : Nat)
    (hac : MenuAcyclicAvoiding allMenus cur) (x : Nat) :
    ∃ b, checkParent (buildMenuMap allMenus) cur (allMenus.length + 1) x = some b := by
  cases h : checkParent (buildMenuMap allMenus) cur (allMenus.length + 1) x with
  | some b => exact ⟨b, rfl⟩
  | none =>
    exfalso
    obtain ⟨walk, hlen, _, _, hchain, hsub⟩ := checkParent_none_walk allMenus cur _ x h
    have h1 := acyclic_walk_length_le (mapKeys (buildMenuMap allMenus)) hac walk hchain hsub
    have h2 := buildMenuMap_keys_length allMenus
    omega

/-- What `checkParent` answers when it returns: whether the node being checked
is reached from `x` by upward steps. -/
theorem checkParent_spec (allMenus : List SysMenu) (cur : Nat) :
    ∀ fuel x b, checkParent (buildMenuMap allMenus) cur fuel x = some b → x ≠ 0 →
      (b = true ↔ Relation.ReflTransGen (MenuStep allMenus) x cur) := by
  intro fuel
  induction fuel with
  | zero => intro x b h; simp [checkParent] at h
  | succ fuel ih =>
    intro x b h hx0
    rw [checkParent] at h
    simp only [hx0, if_false] at h
    by_cases hxc : x = cur
    · simp only [hxc, if_true, Option.some.injEq] at h
      subst hxc
      simp [← h, Relation.ReflTransGen.refl]
    · simp only [hxc, if_false] at h
      have hhead : Relation.ReflTransGen (MenuStep allMenus) x cur ↔
          ∃ c, MenuStep allMenus x c ∧ Relation.ReflTransGen (MenuStep allMenus) c cur := by
        constructor
        · intro hr
          rcases Relation.ReflTransGen.cases_head hr with heq | hc
          · exact absurd heq hxc
          · exact hc
        · rintro ⟨c, hs, hr⟩
          exact Relation.ReflTransGen.head hs hr
      rw [hhead]
      split at h
      · rename_i hget
        simp only [Option.some.injEq] at h
        subst h
        simp only [Bool.false_eq_true, false_iff, not_exists, not_and]
        rintro c ⟨_, _, menu, hm, _⟩
        rw [hget] at hm
        cases hm
      · rename_i menu hget
        by_cases hp0 : menu.ParentID = 0
        · have hb : b = false := by
            cases fuel with
            | zero => simp [checkParent] at h
            | succ f =>
              rw [checkParent] at h
              simpa [hp0, eq_comm] using h
          subst hb
          simp only [Bool.false_eq_true, false_iff, not_exists, not_and]
          rintro c ⟨_, hc0, menu2, hm, hpar⟩
          rw [hget] at hm
          cases hm
          exact absurd (hpar ▸ hp0) hc0
        · rw [ih menu.ParentID b h hp0]
          constructor
          · intro hr
            exact ⟨menu.ParentID, ⟨hx0, hp0, menu, hget, rfl⟩, hr⟩
          · rintro ⟨c, ⟨_, _, menu2, hm, hpar⟩, hr⟩
            rw [hget] at hm
            cases hm
            exact hpar ▸ hr

/-- A rank that drops along every parent pointer leaving a menu other than
`cur` rules out cycles that avoid `cur`. -/
theorem menuAcyclicAvoiding_of_rank (allMenus : List SysMenu) (cur : Nat) (rank : Nat → Nat)
    (h : ∀ menu ∈ allMenus, menu.ID ≠ cur → menu.ParentID ≠ 0 →
      rank menu.ParentID < rank menu.ID) :
    MenuAcyclicAvoiding allMenus cur := by
  have hstep : ∀ a b, Relation.TransGen (fun x y => x ≠ cur ∧ MenuStep allMenus x y) a b →
      rank b < rank a := by
    intro a b hab
    induction hab with
    | single hs =>
      obtain ⟨hne, _, hb0, menu, hget, hpar⟩ := hs
      obtain ⟨hmem, hid⟩ := buildMenuMap_get allMenus _ menu hget
      have := h menu hmem (hid ▸ hne) (hpar ▸ hb0)
      rw [hpar, hid] at this
      exact this
    | tail _ hs ih =>
      obtain ⟨hne, _, hb0, menu, hget, hpar⟩ := hs
      obtain ⟨hmem, hid⟩ := buildMenuMap_get allMenus _ menu hget
      have := h menu hmem (hid ▸ hne) (hpar ▸ hb0)
      rw [hpar, hid] at this
      omega
  intro a ha
  exact absurd (hstep a a ha) (lt_irrefl _)

theorem menuAcyclicAvoiding_of_acyclic (allMenus : List SysMenu) (cur : Nat)
    (h : MenuAcyclic allMenus) : MenuAcyclicAvoiding allMenus cur := by
  intro a ha
  exact h a (ha.mono (fun _ _ hs => hs.2))

/-- A rank that drops along every parent pointer rules out cycles. -/
theorem menuAcyclic_of_rank (allMenus : List SysMenu) (rank : Nat → Nat)
    (h : ∀ menu ∈ allMenus, menu.ParentID ≠ 0 → rank menu.ParentID < rank menu.ID) :
    MenuAcyclic allMenus := by
  have hstep : ∀ a b, Relation.TransGen (MenuStep allMenus) a b → rank b < rank a := by
    intro a b hab
    induction hab with
    | single hs =>
      obtain ⟨_, hb0, menu, hget, hpar⟩ := hs
      obtain ⟨hmem, hid⟩ := buildMenuMap_get allMenus _ menu hget
      have := h menu hmem (hpar ▸ hb0)
      rw [hpar, hid] at this
      exact this
    | tail _ hs ih =>
      obtain ⟨_, hb0, menu, hget, hpar⟩ := hs
      obtain ⟨hmem, hid⟩ := buildMenuMap_get allMenus _ menu hget
      have := h menu hmem (hpar ▸ hb0)
      rw [hpar, hid] at this
      omega
  intro a ha
  exact absurd (hstep a a ha) (lt_irrefl _)

/-- The value 0 is not the id of a menu but the `ParentID` of a root: with
`parentID == 0` the first guard returns `nil` before any comparison, and
`Update` calls `checkCircularReference` only under `req.ParentID > 0`. -/
theorem checkCircularReference_zero_self_accepted :
    checkCircularReference 1 [{ ID := 1 }] 0 0 = some (Except.ok ()) ∧
    ¬ ∃ fuel e, checkCircularReference fuel [{ ID := 1 }] 0 0 = some (Except.error e) := by
  refine ⟨by simp [checkCircularReference], ?_⟩
  rintro ⟨fuel, e, h⟩
  simp [checkCircularReference] at h

/-- C6. For every node id `n` and every menu table,
`checkCircularReference(n, n)` reports a cycle: it returns the
circular-reference error at the first invocation of `checkParent`, whatever the
table holds.  A node id is the primary key of a row, which is never 0; 0 is the
`ParentID` of a root, for which `Update` does not call the function. -/
theorem checkCircularReference_self_rejected (allMenus : List SysMenu) (n : Nat)
    (hn : n ≠ 0) (fuel : Nat) :
    checkCircularReference (fuel + 1) allMenus n n
      = some (Except.error "不能设置为父级菜单：会导致循环引用") := by
  simp [checkCircularReference, checkParent, hn]

/-- Instance of C6 at node 4. -/
theorem checkCircularReference_self_rejected_witness :
    (4 : Nat) ≠ 0 ∧
    checkCircularReference (0 + 1) [{ ID := 4 }, { ID := 5, ParentID := 4 }] 4 4
      = some (Except.error "不能设置为父级菜单：会导致循环引用") :=
  ⟨by decide, checkCircularReference_self_rejected _ 4 (by decide) 0⟩

/-- C7. On a menu table with acyclic parent pointers and for a non-zero
candidate parent `p`, `checkCircularReference(n, p)` returns, and returns the
error exactly when `n = p` or `n` is reached from `p` by following `ParentID`
pointers (each taken from a menu present in the table, stopping at 0). -/
theorem checkCircularReference_iff_in_chain (allMenus : List SysMenu) (n p : Nat)
    (hp : p ≠ 0) (hac : MenuAcyclic allMenus) :
    ∃ r, checkCircularReference (allMenus.length + 1) allMenus n p = some r ∧
      ((∃ e, r = Except.error e) ↔
        (n = p ∨ Relation.TransGen (MenuStep allMenus) p n)) := by
  obtain ⟨b, hb⟩ := checkParent_terminates allMenus n
    (menuAcyclicAvoiding_of_acyclic allMenus n hac) p
  have hspec := checkParent_spec allMenus n _ p b hb hp
  have hiff : (n = p ∨ Relation.TransGen (MenuStep allMenus) p n) ↔
      Relation.ReflTransGen (MenuStep allMenus) p n := by
    rw [Relation.reflTransGen_iff_eq_or_transGen]
  rw [hiff, ← hspec]
  cases b with
  | true =>
    exact ⟨Except.error "不能设置为父级菜单：会导致循环引用",
      by simp [checkCircularReference, hp, hb], by simp⟩
  | false =>
    exact ⟨Except.ok (), by simp [checkCircularReference, hp, hb], by simp⟩

/-- Instance of C7: node 1 is checked against candidate parent 3 on the chain
`3 → 2 → 1`. -/
theorem checkCircularReference_iff_in_chain_witness :
    (3 : Nat) ≠ 0 ∧
    MenuAcyclic [{ ID := 1 }, { ID := 2, ParentID := 1 }, { ID := 3, ParentID := 2 }] ∧
    ∃ r, checkCircularReference
        ([{ ID := 1 }, { ID := 2, ParentID := 1 }, { ID := 3, ParentID := 2 }] :
          List SysMenu).length.succ
        [{ ID := 1 }, { ID := 2, ParentID := 1 }, { ID := 3, ParentID := 2 }] 1 3 = some r ∧
      ((∃ e, r = Except.error e) ↔
        ((1 : Nat) = 3 ∨ Relation.TransGen
          (MenuStep [{ ID := 1 }, { ID := 2, ParentID := 1 }, { ID := 3, ParentID := 2 }]) 3 1)) :=
  ⟨by decide, menuAcyclic_of_rank _ id (by decide),
    checkCircularReference_iff_in_chain _ 1 3 (by decide)
      (menuAcyclic_of_rank _ id (by decide))⟩

/-- C8 (counterexample). On the table `1 → 2 → 1`, whose cycle does not pass
through node 3, `checkCircularReference(3, 1)` never returns: there is no bound
on the walk and no overrun error. -/
theorem checkCircularReference_diverges_on_foreign_cycle :
    ¬ ∃ fuel r, checkCircularReference fuel
        [{ ID := 1, ParentID := 2 }, { ID := 2, ParentID := 1 }] 3 1 = some r := by
  have hm : buildMenuMap [{ ID := 1, ParentID := 2 }, { ID := 2, ParentID := 1 }]
      = [(1, { ID := 1, ParentID := 2 }), (2, { ID := 2, ParentID := 1 })] := rfl
  have hloop : ∀ fuel x, x = 1 ∨ x = 2 →
      checkParent [(1, { ID := 1, ParentID := 2 }), (2, { ID := 2, ParentID := 1 })] 3
        fuel x = none := by
    intro fuel
    induction fuel with
    | zero => intro x _; rfl
    | succ fuel ih =>
      intro x hx
      rcases hx with rfl | rfl
      · simp [checkParent, mapGet, ih 2 (Or.inr rfl)]
      · simp [checkParent, mapGet, ih 1 (Or.inl rfl)]
  rintro ⟨fuel, r, h⟩
  simp [checkCircularReference, hm, hloop fuel 1 (Or.inl rfl)] at h

/-- C8 (amended). On a menu table in which every parent-pointer cycle, if there
is one, passes through the node being checked, the walk of
`checkCircularReference` returns within `N + 1` invocations of `checkParent`
(`N` the number of menus), so after visiting at most `N` menus. -/
theorem checkCircularReference_terminates (allMenus : List SysMenu) (n p : Nat)
    (hac : MenuAcyclicAvoiding allMenus n) :
    ∃ r, checkCircularReference (allMenus.length + 1) allMenus n p = some r := by
  obtain ⟨b, hb⟩ := checkParent_terminates allMenus n hac p
  by_cases hp : p = 0
  · exact ⟨Except.ok (), by simp [checkCircularReference, hp]⟩
  · cases b with
    | true =>
      exact ⟨Except.error "不能设置为父级菜单：会导致循环引用",
        by simp [checkCircularReference, hp, hb]⟩
    | false => exact ⟨Except.ok (), by simp [checkCircularReference, hp, hb]⟩

/-- Instance of C8 (amended): the cycle `1 → 2 → 1` passes through the checked
node 2. -/
theorem checkCircularReference_terminates_witness :
    MenuAcyclicAvoiding [{ ID := 1, ParentID := 2 }, { ID := 2, ParentID := 1 }] 2 ∧
    ∃ r, checkCircularReference
        ([{ ID := 1, ParentID := 2 }, { ID := 2, ParentID := 1 }] : List SysMenu).length.succ
        [{ ID := 1, ParentID := 2 }, { ID := 2, ParentID := 1 }] 2 1 = some r :=
  ⟨menuAcyclicAvoiding_of_rank _ 2 (fun x => if x = 1 then 1 else 0) (by decide),
    checkCircularReference_terminates _ 2 1
      (menuAcyclicAvoiding_of_rank _ 2 (fun x => if x = 1 then 1 else 0) (by decide))⟩

/-! ### `GetAllAncestorRoleIDs` -/

theorem mapKeys_mapSet_nodup {V : Type} (m : List (Nat × V)) (k : Nat) (v : V)
    (h : (mapKeys m).Nodup) : (mapKeys (mapSet m k v)).Nodup := by
  rw [mapKeys_mapSet]
  split
  · exact h
  · rename_i hnot
    exact List.Nodup.append h (List.nodup_singleton _) (by simpa using hnot)

theorem mem_mapKeys_mapSet {V : Type} (m : List (Nat × V)) (k : Nat) (v : V) (x : Nat) :
    x ∈ mapKeys (mapSet m k v) ↔ x ∈ mapKeys m ∨ x = k := by
  rw [mapKeys_mapSet]
  split
  · rename_i hin
    constructor
    · exact Or.inl
    · rintro (h | h)
      · exact h
      · exact h ▸ hin
  · simp

theorem buildRoleMap_keys_length (allRoles : List SysRole) :
    (mapKeys (buildRoleMap allRoles)).length ≤ allRoles.length := by
  have h := (mapFill_spec SysRole.ID id allRoles [] (by simp [mapKeys])).2.1
  simpa [buildRoleMap, mapKeys] using h

theorem buildRoleMap_get (allRoles : List SysRole) (a : Nat) (role : SysRole)
    (h : mapGet (buildRoleMap allRoles) a = some role) : role ∈ allRoles ∧ role.ID = a := by
  have h4 := (mapFill_spec SysRole.ID id allRoles [] (by simp [mapKeys])).2.2.2 a role
  rcases h4 (by simpa [buildRoleMap] using h) with h0 | ⟨x, hx, hk, hv⟩
  · simp [mapGet] at h0
  · simp only [id] at hv
    subst hv
    exact ⟨hx, hk⟩

/-- The first step of an upward role walk is forced by the table. -/
theorem transGen_roleStep_head (allRoles : List SysRole) (a x : Nat) (role : SysRole)
    (hget : mapGet (buildRoleMap allRoles) a = some role) (hp : role.ParentID ≠ 0) :
    Relation.TransGen (RoleStep allRoles) a x ↔
      (x = role.ParentID ∨ Relation.TransGen (RoleStep allRoles) role.ParentID x) := by
  constructor
  · intro h
    rcases Relation.TransGen.head'_iff.mp h with ⟨c, ⟨_, role2, hg2, hpar⟩, hr⟩
    rw [hget] at hg2
    cases hg2
    subst hpar
    rcases Relation.reflTransGen_iff_eq_or_transGen.mp hr with h1 | h1
    · exact Or.inl h1
    · exact Or.inr h1
  · have hs : RoleStep allRoles a role.ParentID := ⟨hp, role, hget, rfl⟩
    rintro (h | h)
    · exact h ▸ Relation.TransGen.single hs
    · exact Relation.TransGen.head hs h

theorem transGen_roleStep_stop (allRoles : List SysRole) (a x : Nat)
    (hstop : ∀ role, mapGet (buildRoleMap allRoles) a = some role → role.ParentID = 0) :
    ¬ Relation.TransGen (RoleStep allRoles) a x := by
  intro h
  rcases Relation.TransGen.head'_iff.mp h with ⟨c, ⟨hc0, role2, hg2, hpar⟩, _⟩
  exact hc0 (hpar ▸ hstop role2 hg2)

/-- What one walk adds to the id set: the ids reached from its start. -/
theorem ancestorLoop_spec (allRoles : List SysRole) :
    ∀ fuel cur acc res, ancestorLoop (buildRoleMap allRoles) fuel cur acc = some res →
      (mapKeys acc).Nodup →
      (mapKeys res).Nodup ∧
      ∀ x, x ∈ mapKeys res ↔
        (x ∈ mapKeys acc ∨ Relation.TransGen (RoleStep allRoles) cur x) := by
  intro fuel
  induction fuel with
  | zero => intro cur acc res h; simp [ancestorLoop] at h
  | succ fuel ih =>
    intro cur acc res h hnd
    rw [ancestorLoop] at h
    split at h
    · rename_i hget
      cases h
      refine ⟨hnd, fun x => ?_⟩
      have := transGen_roleStep_stop allRoles cur x (by intro role hr; rw [hget] at hr; cases hr)
      tauto
    · rename_i role hget
      split at h
      · rename_i hp
        cases h
        refine ⟨hnd, fun x => ?_⟩
        have := transGen_roleStep_stop allRoles cur x
          (by intro role2 hr; rw [hget] at hr; cases hr; exact hp)
        tauto
      · rename_i hp
        obtain ⟨h1, h2⟩ := ih _ _ _ h (mapKeys_mapSet_nodup acc role.ParentID true hnd)
        refine ⟨h1, fun x => ?_⟩
        rw [h2 x, mem_mapKeys_mapSet, transGen_roleStep_head allRoles cur x role hget hp]
        tauto

/-- Whether a walk returns does not depend on the id set it is given. -/
theorem ancestorLoop_isSome_acc (m : List (Nat × SysRole)) :
    ∀ fuel cur acc acc2,
      (ancestorLoop m fuel cur acc).isSome = (ancestorLoop m fuel cur acc2).isSome := by
  intro fuel
  induction fuel with
  | zero => intro cur acc acc2; rfl
  | succ fuel ih =>
    intro cur acc acc2
    rw [ancestorLoop, ancestorLoop]
    split
    · rfl
    · split
      · rfl
      · exact ih _ _ _

theorem ancestorLoop_mono (m : List (Nat × SysRole)) :
    ∀ fuel cur acc res, ancestorLoop m fuel cur acc = some res →
      ancestorLoop m (fuel + 1) cur acc = some res := by
  intro fuel
  induction fuel with
  | zero => intro cur acc res h; simp [ancestorLoop] at h
  | succ fuel ih =>
    intro cur acc res h
    rw [ancestorLoop] at h
    rw [ancestorLoop]
    split
    · rename_i hget
      simpa [hget] using h
    · rename_i role hget
      simp only [hget] at h
      split
      · rename_i hp
        simpa [hp] using h
      · rename_i hp
        simp only [hp, if_false] at h
        exact ih _ _ _ h

/-- A walk that returns from `cur` also returns, within the same fuel, from
every id on the chain above `cur`. -/
theorem ancestorLoop_chain_terminates (allRoles : List SysRole) :
    ∀ fuel cur acc res, ancestorLoop (buildRoleMap allRoles) fuel cur acc = some res →
      ∀ x, Relation.TransGen (RoleStep allRoles) cur x →
        ∀ acc2, (ancestorLoop (buildRoleMap allRoles) fuel x acc2).isSome = true := by
  intro fuel
  induction fuel with
  | zero => intro cur acc res h; simp [ancestorLoop] at h
  | succ fuel ih =>
    intro cur acc res h x hx acc2
    rw [ancestorLoop] at h
    split at h
    · rename_i hget
      exact absurd hx (transGen_roleStep_stop allRoles cur x
        (by intro role hr; rw [hget] at hr; cases hr))
    · rename_i role hget
      split at h
      · rename_i hp
        exact absurd hx (transGen_roleStep_stop allRoles cur x
          (by intro role2 hr; rw [hget] at hr; cases hr; exact hp))
      · rename_i hp
        have hsome : ∀ y acc3, (ancestorLoop (buildRoleMap allRoles) fuel y acc3).isSome = true →
            (ancestorLoop (buildRoleMap allRoles) (fuel + 1) y acc3).isSome = true := by
          intro y acc3 hy
          obtain ⟨r, hr⟩ := Option.isSome_iff_exists.mp hy
          rw [ancestorLoop_mono _ _ _ _ _ hr]
          rfl
        rcases (transGen_roleStep_head allRoles cur x role hget hp).mp hx with h1 | h1
        · subst h1
          apply hsome
          rw [ancestorLoop_isSome_acc _ _ _ acc2 (mapSet acc role.ParentID true), h]
          rfl
        · exact hsome _ _ (ih _ _ _ h x h1 acc2)

/-- When a walk started above `origin` has not returned after `fuel + 1`
iterations it has visited `fuel + 1` roles of the table, all on the chain of
`origin`. -/
theorem ancestorLoop_none_walk (allRoles : List SysRole) (origin : Nat) :
    ∀ fuel x acc, Relation.ReflTransGen (RoleStep allRoles) origin x →
      ancestorLoop (buildRoleMap allRoles) (fuel + 1) x acc = none →
      ∃ walk : List Nat, walk.length = fuel + 1 ∧ walk.head? = some x ∧
        walk.Chain' (fun a b =>
          Relation.ReflTransGen (RoleStep allRoles) origin a ∧ RoleStep allRoles a b) ∧
        ∀ y ∈ walk, y ∈ mapKeys (buildRoleMap allRoles) := by
  intro fuel
  induction fuel with
  | zero =>
    intro x acc _ h
    rw [ancestorLoop] at h
    split at h
    · cases h
    · rename_i role hget
      refine ⟨[x], rfl, rfl, List.chain'_singleton _, ?_⟩
      intro y hy
      rw [List.mem_singleton] at hy
      subst hy
      exact (mapGet_isSome_iff _ _).mp (by simp [hget])
  | succ fuel ih =>
    intro x acc hox h
    rw [ancestorLoop] at h
    split at h
    · cases h
    · rename_i role hget
      split at h
      · cases h
      · rename_i hp
        have hs : RoleStep allRoles x role.ParentID := ⟨hp, role, hget, rfl⟩
        obtain ⟨walk, hlen, hhead, hchain, hsub⟩ :=
          ih role.ParentID _ (Relation.ReflTransGen.tail hox hs) h
        refine ⟨x :: walk, by simp [hlen], rfl, ?_, ?_⟩
        · rw [List.chain'_cons']
          refine ⟨?_, hchain⟩
          intro y hy
          rw [hhead] at hy
          cases hy
          exact ⟨hox, hs⟩
        · intro y hy
          rcases List.mem_cons.mp hy with rfl | hy
          · exact (mapGet_isSome_iff _ _).mp (by simp [hget])
          · exact hsub y hy

/-- A walk whose chain runs into no cycle returns within `N + 1` iterations,
`N` the number of roles. -/
theorem ancestorLoop_terminates (allRoles : List SysRole) (origin : Nat)
    (hac : ∀ a, Relation.ReflTransGen (RoleStep allRoles) origin a →
      ¬ Relation.TransGen (RoleStep allRoles) a a)
    (acc : List (Nat × Bool)) :
    ∃ res, ancestorLoop (buildRoleMap allRoles) (allRoles.length + 1) origin acc = some res := by
  cases h : ancestorLoop (buildRoleMap allRoles) (allRoles.length + 1) origin acc with
  | some res => exact ⟨res, rfl⟩
  | none =>
    exfalso
    obtain ⟨walk, hlen, _, hchain, hsub⟩ :=
      ancestorLoop_none_walk allRoles origin _ origin acc Relation.ReflTransGen.refl h
    have hreach : ∀ a b, Relation.TransGen (fun a b =>
        Relation.ReflTransGen (RoleStep allRoles) origin a ∧ RoleStep allRoles a b) a b →
        Relation.ReflTransGen (RoleStep allRoles) origin a := by
      intro a b hab
      induction hab with
      | single hs => exact hs.1
      | tail _ _ ih => exact ih
    have hacyc : ∀ a, ¬ Relation.TransGen (fun a b =>
        Relation.ReflTransGen (RoleStep allRoles) origin a ∧ RoleStep allRoles a b) a a := by
      intro a ha
      exact hac a (hreach a a ha) (ha.mono (fun _ _ hs => hs.2))
    have h1 := acyclic_walk_length_le (mapKeys (buildRoleMap allRoles)) hacyc walk hchain hsub
    have h2 := buildRoleMap_keys_length allRoles
    omega

theorem ancestorsForEach_spec (allRoles : List SysRole) (fuel : Nat) :
    ∀ roleIDs acc res, ancestorsForEach (buildRoleMap allRoles) fuel roleIDs acc = some res →
      (mapKeys acc).Nodup →
      (mapKeys res).Nodup ∧
      ∀ x, x ∈ mapKeys res ↔
        (x ∈ mapKeys acc ∨ ∃ r ∈ roleIDs, Relation.TransGen (RoleStep allRoles) r x) := by
  intro roleIDs
  induction roleIDs with
  | nil =>
    intro acc res h hnd
    simp only [ancestorsForEach, Option.some.injEq] at h
    subst h
    exact ⟨hnd, by simp⟩
  | cons r rest ih =>
    intro acc res h hnd
    rw [ancestorsForEach] at h
    split at h
    · cases h
    · rename_i next hnext
      obtain ⟨h1, h2⟩ := ancestorLoop_spec allRoles fuel r acc next hnext hnd
      obtain ⟨h3, h4⟩ := ih next res h h1
      refine ⟨h3, fun x => ?_⟩
      rw [h4 x, h2 x]
      simp only [List.mem_cons, exists_eq_or_imp]
      tauto

theorem ancestorsForEach_terminates (m : List (Nat × SysRole)) (fuel : Nat) :
    ∀ roleIDs, (∀ r ∈ roleIDs, ∀ acc, (ancestorLoop m fuel r acc).isSome = true) →
      ∀ acc, ∃ res, ancestorsForEach m fuel roleIDs acc = some res := by
  intro roleIDs
  induction roleIDs with
  | nil => intro _ acc; exact ⟨acc, rfl⟩
  | cons r rest ih =>
    intro h acc
    obtain ⟨next, hnext⟩ := Option.isSome_iff_exists.mp (h r (List.mem_cons_self _ _) acc)
    obtain ⟨res, hres⟩ := ih (fun r2 hr2 => h r2 (List.mem_cons_of_mem _ hr2)) next
    exact ⟨res, by rw [ancestorsForEach, hnext]; exact hres⟩

theorem ancestorsForEach_head (m : List (Nat × SysRole)) (fuel : Nat) (r : Nat)
    (rest : List Nat) (acc res : List (Nat × Bool))
    (h : ancestorsForEach m fuel (r :: rest) acc = some res) :
    ∃ next, ancestorLoop m fuel r acc = some next := by
  rw [ancestorsForEach] at h
  split at h
  · cases h
  · rename_i next hnext
    exact ⟨next, hnext⟩

theorem initialRoleIDs_spec (roleIDs : List Nat) :
    (mapKeys (roleIDs.foldl (fun m id => mapSet m id true) [])).Nodup ∧
    ∀ x, x ∈ mapKeys (roleIDs.foldl (fun m id => mapSet m id true) []) ↔ x ∈ roleIDs := by
  have h := mapFill_spec (fun id : Nat => id) (fun _ => true) roleIDs [] (by simp [mapKeys])
  refine ⟨h.1, fun x => ?_⟩
  rw [h.2.2.1 x]
  simp [mapKeys]

/-- What `GetAllAncestorRoleIDs` returns when it returns: no duplicates, and
exactly the input ids and the ids reached from them. -/
theorem GetAllAncestorRoleIDs_spec (ord : MapOrder) (fuel : Nat) (allRoles : List SysRole)
    (roleIDs res : List Nat)
    (h : GetAllAncestorRoleIDs ord fuel allRoles roleIDs = some res) :
    res.Nodup ∧
    ∀ x, x ∈ res ↔
      (x ∈ roleIDs ∨ ∃ r ∈ roleIDs, Relation.TransGen (RoleStep allRoles) r x) := by
  rw [GetAllAncestorRoleIDs] at h
  split at h
  · cases h
  · rename_i all hall
    simp only [Option.some.injEq] at h
    subst h
    obtain ⟨i1, i2⟩ := initialRoleIDs_spec roleIDs
    obtain ⟨h1, h2⟩ := ancestorsForEach_spec allRoles fuel roleIDs _ all hall i1
    refine ⟨(ord.perm _).nodup_iff.mpr h1, fun x => ?_⟩
    rw [(ord.perm _).mem_iff, h2 x, i2 x]

theorem GetAllAncestorRoleIDs_terminates (ord : MapOrder) (allRoles : List SysRole)
    (roleIDs : List Nat) (hac : RoleChainsAcyclic allRoles roleIDs) :
    ∃ res, GetAllAncestorRoleIDs ord (allRoles.length + 1) allRoles roleIDs = some res := by
  obtain ⟨all, hall⟩ := ancestorsForEach_terminates (buildRoleMap allRoles)
    (allRoles.length + 1) roleIDs
    (fun r hr acc => by
      obtain ⟨res, hres⟩ := ancestorLoop_terminates allRoles r (hac r hr) acc
      rw [hres]; rfl)
    (roleIDs.foldl (fun m id => mapSet m id true) [])
  exact ⟨ord.enum (mapKeys all), by rw [GetAllAncestorRoleIDs, hall]⟩

/-- A rank that drops along every parent pointer rules out cycles. -/
theorem roleAcyclic_of_rank (allRoles : List SysRole) (rank : Nat → Nat)
    (h : ∀ role ∈ allRoles, role.ParentID ≠ 0 → rank role.ParentID < rank role.ID) :
    RoleAcyclic allRoles := by
  have hstep : ∀ a b, Relation.TransGen (RoleStep allRoles) a b → rank b < rank a := by
    intro a b hab
    induction hab with
    | single hs =>
      obtain ⟨hb0, role, hget, hpar⟩ := hs
      obtain ⟨hmem, hid⟩ := buildRoleMap_get allRoles _ role hget
      have := h role hmem (hpar ▸ hb0)
      rw [hpar, hid] at this
      exact this
    | tail _ hs ih =>
      obtain ⟨hb0, role, hget, hpar⟩ := hs
      obtain ⟨hmem, hid⟩ := buildRoleMap_get allRoles _ role hget
      have := h role hmem (hpar ▸ hb0)
      rw [hpar, hid] at this
      omega
  intro a ha
  exact absurd (hstep a a ha) (lt_irrefl _)

theorem roleChainsAcyclic_of_acyclic (allRoles : List SysRole) (roleIDs : List Nat)
    (h : RoleAcyclic allRoles) : RoleChainsAcyclic allRoles roleIDs :=
  fun _ _ a _ => h a

/-- C3. On a role table with acyclic parent pointers `GetAllAncestorRoleIDs`
returns, without duplicates, exactly the input ids together with every id
reached from an input id by following non-zero `ParentID` pointers upward; so
every input id is in the result.  For roles `R1` (parent 0), `R2` (parent
`R1`), `R3` (parent `R2`) with distinct non-zero ids the result for `[R3]` is
the set `{R1, R2, R3}`. -/
theorem GetAllAncestorRoleIDs_closure (ord : MapOrder) (allRoles : List SysRole)
    (roleIDs : List Nat) (hac : RoleAcyclic allRoles) :
    (∃ res, GetAllAncestorRoleIDs ord (allRoles.length + 1) allRoles roleIDs = some res ∧
      res.Nodup ∧
      (∀ x, x ∈ res ↔
        (x ∈ roleIDs ∨ ∃ r ∈ roleIDs, Relation.TransGen (RoleStep allRoles) r x)) ∧
      (∀ r ∈ roleIDs, r ∈ res)) ∧
    (∀ (r1 r2 r3 : Nat) (k1 k2 k3 : Int), r1 ≠ 0 → r2 ≠ 0 → r1 ≠ r2 → r1 ≠ r3 → r2 ≠ r3 →
      ∃ res, GetAllAncestorRoleIDs ord 4
          [SysRole.mk r1 k1 0 [], SysRole.mk r2 k2 r1 [], SysRole.mk r3 k3 r2 []] [r3]
          = some res ∧
        res.Nodup ∧ ∀ x, x ∈ res ↔ (x = r1 ∨ x = r2 ∨ x = r3)) := by
  constructor
  · obtain ⟨res, hres⟩ := GetAllAncestorRoleIDs_terminates ord allRoles roleIDs
      (roleChainsAcyclic_of_acyclic allRoles roleIDs hac)
    obtain ⟨h1, h2⟩ := GetAllAncestorRoleIDs_spec ord _ allRoles roleIDs res hres
    exact ⟨res, hres, h1, h2, fun r hr => (h2 r).mpr (Or.inl hr)⟩
  · intro r1 r2 r3 k1 k2 k3 h1 h2 h12 h13 h23
    have h21 : r2 ≠ r1 := fun h => h12 h.symm
    have h31 : r3 ≠ r1 := fun h => h13 h.symm
    have h32 : r3 ≠ r2 := fun h => h23 h.symm
    refine ⟨ord.enum [r3, r2, r1], ?_, ?_, ?_⟩
    · simp [GetAllAncestorRoleIDs, ancestorsForEach, ancestorLoop, buildRoleMap, mapSet,
        mapGet, mapKeys, SysRole.ID, SysRole.ParentID, h1, h2, h12, h13, h23, h21, h31, h32]
    · rw [(ord.perm _).nodup_iff]
      simp [h21, h31, h32]
    · intro x
      rw [(ord.perm _).mem_iff]
      simp only [List.mem_cons, List.mem_singleton, List.not_mem_nil, or_false]
      tauto

/-- Instance of C3 on the chain `3 → 2 → 1`. -/
theorem GetAllAncestorRoleIDs_closure_witness :
    RoleAcyclic [SysRole.mk 1 0 0 [], SysRole.mk 2 0 1 [], SysRole.mk 3 0 2 []] ∧
    GetAllAncestorRoleIDs insertionOrder 4
      [SysRole.mk 1 0 0 [], SysRole.mk 2 0 1 [], SysRole.mk 3 0 2 []] [3] = some [3, 2, 1] ∧
    ∃ res, GetAllAncestorRoleIDs insertionOrder
        ([SysRole.mk 1 0 0 [], SysRole.mk 2 0 1 [], SysRole.mk 3 0 2 []].length + 1)
        [SysRole.mk 1 0 0 [], SysRole.mk 2 0 1 [], SysRole.mk 3 0 2 []] [3] = some res ∧
      res.Nodup ∧
      (∀ x, x ∈ res ↔ (x ∈ [3] ∨ ∃ r ∈ [3], Relation.TransGen
        (RoleStep [SysRole.mk 1 0 0 [], SysRole.mk 2 0 1 [], SysRole.mk 3 0 2 []]) r x)) ∧
      (∀ r ∈ [3], r ∈ res) :=
  ⟨roleAcyclic_of_rank _ id (by decide), by decide,
    (GetAllAncestorRoleIDs_closure insertionOrder _ [3]
      (roleAcyclic_of_rank _ id (by decide))).1⟩

/-- Whenever `GetAllAncestorRoleIDs([r])` returns a list `A`, `A` contains `r`,
and `GetAllAncestorRoleIDs` applied to `r` together with all of `A` returns
within the same fuel a list with the same members. -/
theorem GetAllAncestorRoleIDs_reclosed (ord : MapOrder) (allRoles : List SysRole) (r : Nat)
    (fuel : Nat) (A : List Nat)
    (hA : GetAllAncestorRoleIDs ord fuel allRoles [r] = some A) :
    r ∈ A ∧ ∃ B, GetAllAncestorRoleIDs ord fuel allRoles (r :: A) = some B ∧
      ∀ x, x ∈ B ↔ x ∈ A := by
  obtain ⟨_, hmem⟩ := GetAllAncestorRoleIDs_spec ord fuel allRoles [r] A hA
  have hmemA : ∀ x, x ∈ A ↔ (x = r ∨ Relation.TransGen (RoleStep allRoles) r x) := by
    intro x
    rw [hmem x]
    simp
  refine ⟨(hmemA r).mpr (Or.inl rfl), ?_⟩
  -- the walk from `r` returns within `fuel`
  have hwalk : ∃ next, ancestorLoop (buildRoleMap allRoles) fuel r
      ([r].foldl (fun m id => mapSet m id true) []) = some next := by
    rw [GetAllAncestorRoleIDs] at hA
    split at hA
    · cases hA
    · rename_i all hall
      exact ancestorsForEach_head _ _ _ _ _ _ hall
  obtain ⟨next, hnext⟩ := hwalk
  have hterm : ∀ y ∈ r :: A, ∀ acc,
      (ancestorLoop (buildRoleMap allRoles) fuel y acc).isSome = true := by
    intro y hy acc
    have hy2 : y = r ∨ Relation.TransGen (RoleStep allRoles) r y := by
      rcases List.mem_cons.mp hy with h | h
      · exact Or.inl h
      · exact (hmemA y).mp h
    rcases hy2 with rfl | hy2
    · rw [ancestorLoop_isSome_acc _ _ _ acc ([y].foldl (fun m id => mapSet m id true) []),
        hnext]
      rfl
    · exact ancestorLoop_chain_terminates allRoles fuel r _ next hnext y hy2 acc
  obtain ⟨all, hall⟩ := ancestorsForEach_terminates (buildRoleMap allRoles) fuel (r :: A)
    hterm ((r :: A).foldl (fun m id => mapSet m id true) [])
  have hB : GetAllAncestorRoleIDs ord fuel allRoles (r :: A)
      = some (ord.enum (mapKeys all)) := by
    rw [GetAllAncestorRoleIDs, hall]
  refine ⟨_, hB, fun x => ?_⟩
  obtain ⟨_, hmemB⟩ := GetAllAncestorRoleIDs_spec ord fuel allRoles (r :: A) _ hB
  rw [hmemB x]
  constructor
  · rintro (hx | ⟨y, hy, hyx⟩)
    · rcases List.mem_cons.mp hx with h | h
      · exact (hmemA x).mpr (Or.inl h)
      · exact h
    · rcases List.mem_cons.mp hy with h | h
      · subst h
        exact (hmemA x).mpr (Or.inr hyx)
      · rcases (hmemA y).mp h with h2 | h2
        · subst h2
          exact (hmemA x).mpr (Or.inr hyx)
        · exact (hmemA x).mpr (Or.inr (h2.trans hyx))
  · intro hx
    exact Or.inl (List.mem_cons_of_mem _ hx)

/-- On the two-role cycle `1 → 2 → 1` no walk that starts at role 1 or 2
reaches its `break`, so `GetAllAncestorRoleIDs` returns for no fuel. -/
theorem GetAllAncestorRoleIDs_none_on_two_cycle (ord : MapOrder) (fuel x : Nat)
    (hx : x = 1 ∨ x = 2) (rest : List Nat) :
    GetAllAncestorRoleIDs ord fuel [SysRole.mk 1 0 2 [], SysRole.mk 2 0 1 []] (x :: rest)
      = none := by
  have hm : buildRoleMap [SysRole.mk 1 0 2 [], SysRole.mk 2 0 1 []]
      = [(1, SysRole.mk 1 0 2 []), (2, SysRole.mk 2 0 1 [])] := rfl
  have hloop : ∀ fuel x acc, x = 1 ∨ x = 2 →
      ancestorLoop [(1, SysRole.mk 1 0 2 []), (2, SysRole.mk 2 0 1 [])] fuel x acc = none := by
    intro fuel
    induction fuel with
    | zero => intro x acc _; rfl
    | succ fuel ih =>
      intro x acc hx
      rcases hx with rfl | rfl
      · simp [ancestorLoop, mapGet, SysRole.ParentID, ih 2 _ (Or.inr rfl)]
      · simp [ancestorLoop, mapGet, SysRole.ParentID, ih 1 _ (Or.inl rfl)]
  simp only [GetAllAncestorRoleIDs, ancestorsForEach, hm, hloop fuel x _ hx]

/-- C4 (as stated). On the role graph `1 → 2 → 1` the closure of role 2 is not
defined: neither `GetAllAncestorRoleIDs([2])` nor the call on 2 together with
further ids returns, whatever the fuel, so there are no two results to
compare. -/
theorem GetAllAncestorRoleIDs_closure_undefined_on_cycle :
    (¬ ∃ fuel A, GetAllAncestorRoleIDs insertionOrder fuel
        [SysRole.mk 1 0 2 [], SysRole.mk 2 0 1 []] [2] = some A) ∧
    ¬ ∃ fuel A B, GetAllAncestorRoleIDs insertionOrder fuel
        [SysRole.mk 1 0 2 [], SysRole.mk 2 0 1 []] (2 :: A) = some B := by
  constructor
  · rintro ⟨fuel, A, h⟩
    rw [GetAllAncestorRoleIDs_none_on_two_cycle insertionOrder fuel 2 (Or.inr rfl) []] at h
    cases h
  · rintro ⟨fuel, A, B, h⟩
    rw [GetAllAncestorRoleIDs_none_on_two_cycle insertionOrder fuel 2 (Or.inr rfl) A] at h
    cases h

/-- C4 (amended). For every role graph and every role id `r` whose ancestor
chain runs into no parent-pointer cycle (so for every `r` of an acyclic graph),
the ancestor closure is closed under itself: `GetAllAncestorRoleIDs([r])`
returns a list `A` that contains `r`, and `GetAllAncestorRoleIDs` applied to
`r` together with all ids of `A` returns a list with the same members. -/
theorem GetAllAncestorRoleIDs_closed (ord : MapOrder) (allRoles : List SysRole) (r : Nat)
    (hac : RoleChainsAcyclic allRoles [r]) :
    ∃ A, GetAllAncestorRoleIDs ord (allRoles.length + 1) allRoles [r] = some A ∧
      r ∈ A ∧
      ∃ B, GetAllAncestorRoleIDs ord (allRoles.length + 1) allRoles (r :: A) = some B ∧
        ∀ x, x ∈ B ↔ x ∈ A := by
  obtain ⟨A, hA⟩ := GetAllAncestorRoleIDs_terminates ord allRoles [r] hac
  obtain ⟨h1, h2⟩ := GetAllAncestorRoleIDs_reclosed ord allRoles r _ A hA
  exact ⟨A, hA, h1, h2⟩

/-- Instance of C4 (amended) on the chain `3 → 2 → 1`. -/
theorem GetAllAncestorRoleIDs_closed_witness :
    RoleChainsAcyclic [SysRole.mk 1 0 0 [], SysRole.mk 2 0 1 [], SysRole.mk 3 0 2 []] [3] ∧
    GetAllAncestorRoleIDs insertionOrder 4
      [SysRole.mk 1 0 0 [], SysRole.mk 2 0 1 [], SysRole.mk 3 0 2 []] [3] = some [3, 2, 1] ∧
    GetAllAncestorRoleIDs insertionOrder 4
      [SysRole.mk 1 0 0 [], SysRole.mk 2 0 1 [], SysRole.mk 3 0 2 []] [3, 3, 2, 1]
      = some [3, 2, 1] ∧
    ∃ A, GetAllAncestorRoleIDs insertionOrder
        ([SysRole.mk 1 0 0 [], SysRole.mk 2 0 1 [], SysRole.mk 3 0 2 []].length + 1)
        [SysRole.mk 1 0 0 [], SysRole.mk 2 0 1 [], SysRole.mk 3 0 2 []] [3] = some A ∧
      3 ∈ A ∧
      ∃ B, GetAllAncestorRoleIDs insertionOrder
          ([SysRole.mk 1 0 0 [], SysRole.mk 2 0 1 [], SysRole.mk 3 0 2 []].length + 1)
          [SysRole.mk 1 0 0 [], SysRole.mk 2 0 1 [], SysRole.mk 3 0 2 []] (3 :: A) = some B ∧
        ∀ x, x ∈ B ↔ x ∈ A :=
  ⟨roleChainsAcyclic_of_acyclic _ _ (roleAcyclic_of_rank _ id (by decide)), by decide, by decide,
    GetAllAncestorRoleIDs_closed insertionOrder _ 3
      (roleChainsAcyclic_of_acyclic _ _ (roleAcyclic_of_rank _ id (by decide)))⟩

/-- C5 (counterexample). On the cyclic role table `1 → 2 → 1` the walk of
`GetAllAncestorRoleIDs([1])` never reaches its `break`: no amount of fuel makes
it return. -/
theorem GetAllAncestorRoleIDs_diverges_on_cycle :
    ¬ ∃ fuel res, GetAllAncestorRoleIDs insertionOrder fuel
        [SysRole.mk 1 0 2 [], SysRole.mk 2 0 1 []] [1] = some res := by
  have hm : buildRoleMap [SysRole.mk 1 0 2 [], SysRole.mk 2 0 1 []]
      = [(1, SysRole.mk 1 0 2 []), (2, SysRole.mk 2 0 1 [])] := rfl
  have hloop : ∀ fuel x acc, x = 1 ∨ x = 2 →
      ancestorLoop [(1, SysRole.mk 1 0 2 []), (2, SysRole.mk 2 0 1 [])] fuel x acc = none := by
    intro fuel
    induction fuel with
    | zero => intro x acc _; rfl
    | succ fuel ih =>
      intro x acc hx
      rcases hx with rfl | rfl
      · simp [ancestorLoop, mapGet, SysRole.ParentID, ih 2 _ (Or.inr rfl)]
      · simp [ancestorLoop, mapGet, SysRole.ParentID, ih 1 _ (Or.inl rfl)]
  rintro ⟨fuel, res, h⟩
  simp [GetAllAncestorRoleIDs, ancestorsForEach, hm, hloop fuel 1 _ (Or.inl rfl)] at h

/-- C5 (amended). On a role table in which no ancestor chain starting at an
input id runs into a parent-pointer cycle (so on every acyclic table), every
walk of `GetAllAncestorRoleIDs` returns within `N + 1` loop iterations, `N`
the number of roles (at most `N` roles are visited per input id), and the
function returns. -/
theorem GetAllAncestorRoleIDs_walk_bounded (ord : MapOrder) (allRoles : List SysRole)
    (roleIDs : List Nat) (hac : RoleChainsAcyclic allRoles roleIDs) :
    (∀ r ∈ roleIDs, ∀ acc, ∃ res,
      ancestorLoop (buildRoleMap allRoles) (allRoles.length + 1) r acc = some res) ∧
    ∃ res, GetAllAncestorRoleIDs ord (allRoles.length + 1) allRoles roleIDs = some res :=
  ⟨fun r hr acc => ancestorLoop_terminates allRoles r (hac r hr) acc,
    GetAllAncestorRoleIDs_terminates ord allRoles roleIDs hac⟩

/-- Instance of C5 (amended): the table holds the cycle `1 → 2 → 1`, which the
chain of the input id 3 does not enter. -/
theorem GetAllAncestorRoleIDs_walk_bounded_witness :
    RoleChainsAcyclic [SysRole.mk 1 0 2 [], SysRole.mk 2 0 1 [], SysRole.mk 3 0 0 []] [3] ∧
    (∀ r ∈ [3], ∀ acc, ∃ res,
      ancestorLoop (buildRoleMap [SysRole.mk 1 0 2 [], SysRole.mk 2 0 1 [], SysRole.mk 3 0 0 []])
        ([SysRole.mk 1 0 2 [], SysRole.mk 2 0 1 [], SysRole.mk 3 0 0 []].length + 1) r acc
        = some res) ∧
    ∃ res, GetAllAncestorRoleIDs insertionOrder
      ([SysRole.mk 1 0 2 [], SysRole.mk 2 0 1 [], SysRole.mk 3 0 0 []].length + 1)
      [SysRole.mk 1 0 2 [], SysRole.mk 2 0 1 [], SysRole.mk 3 0 0 []] [3] = some res := by
  have hstop : ∀ x, ¬ Relation.TransGen
      (RoleStep [SysRole.mk 1 0 2 [], SysRole.mk 2 0 1 [], SysRole.mk 3 0 0 []]) 3 x := by
    intro x
    apply transGen_roleStep_stop
    intro role hget
    have hg : mapGet (buildRoleMap
        [SysRole.mk 1 0 2 [], SysRole.mk 2 0 1 [], SysRole.mk 3 0 0 []]) 3
        = some (SysRole.mk 3 0 0 []) := rfl
    rw [hg] at hget
    cases hget
    rfl
  have hac : RoleChainsAcyclic
      [SysRole.mk 1 0 2 [], SysRole.mk 2 0 1 [], SysRole.mk 3 0 0 []] [3] := by
    intro r hr a hra
    rw [List.mem_singleton] at hr
    subst hr
    rcases Relation.reflTransGen_iff_eq_or_transGen.mp hra with h | h
    · subst h
      exact hstop _
    · exact absurd h (hstop a)
  exact ⟨hac, GetAllAncestorRoleIDs_walk_bounded insertionOrder _ [3] hac⟩

/-! ### `GetAllDescendantIDs` -/

theorem idSetOk_nil : IdSetOk [] := by
  refine ⟨by simp [mapKeys], ?_⟩
  intro x hx
  simp [mapKeys] at hx

theorem idSetOk_mapSet (all : List (Nat × Bool)) (x : Nat) (h : IdSetOk all) :
    IdSetOk (mapSet all x true) := by
  refine ⟨mapKeys_mapSet_nodup all x true h.1, ?_⟩
  intro y hy
  rw [mapGet_mapSet]
  split
  · rfl
  · rename_i hxy
    rcases (mem_mapKeys_mapSet all x true y).mp hy with h1 | h1
    · exact h.2 y h1
    · exact absurd h1.symm hxy

theorem visited_iff (all : List (Nat × Bool)) (h : IdSetOk all) (x : Nat) :
    (mapGet all x).getD false = true ↔ x ∈ mapKeys all := by
  constructor
  · intro hx
    apply (mapGet_isSome_iff all x).mp
    cases hg : mapGet all x with
    | none => simp [hg] at hx
    | some v => rfl
  · intro hx
    simp [h.2 x hx]

/-- The children recorded for `a` are the ids of the menus whose parent is
`a`. -/
theorem mem_children_iff (allMenus : List SysMenu) (a c : Nat) :
    c ∈ (mapGet (buildChildrenMap allMenus) a).getD [] ↔ ChildStep allMenus a c := by
  have hgen : ∀ (l : List SysMenu) (init : List (Nat × List Nat)),
      c ∈ (mapGet (l.foldl (fun m menu =>
          mapSet m menu.ParentID ((mapGet m menu.ParentID).getD [] ++ [menu.ID])) init) a).getD []
      ↔ (c ∈ (mapGet init a).getD [] ∨ ∃ menu ∈ l, menu.ParentID = a ∧ menu.ID = c) := by
    intro l
    induction l with
    | nil => intro init; simp
    | cons m rest ih =>
      intro init
      rw [List.foldl_cons, ih, mapGet_mapSet]
      by_cases hpa : m.ParentID = a
      · subst hpa
        simp only [if_true, Option.getD_some, List.mem_append, List.mem_singleton,
          List.mem_cons, exists_eq_or_imp, true_and]
        tauto
      · simp only [hpa, if_false, List.mem_cons, exists_eq_or_imp, false_and, false_or]
  have := hgen allMenus []
  simpa [buildChildrenMap, mapGet, ChildStep] using this

/-- A loop over a body that collects from one id collects from all the ids
of the loop. -/
theorem forEachID_collected (allMenus : List SysMenu)
    (f : Nat → List (Nat × Bool) → Option (List (Nat × Bool)))
    (hf : ∀ x all res, f x all = some res → IdSetOk all → Collected allMenus [x] all res) :
    ∀ cs acc res, forEachID f cs acc = some res → IdSetOk acc →
      Collected allMenus cs acc res := by
  intro cs
  induction cs with
  | nil =>
    intro acc res h hok
    simp only [forEachID, Option.some.injEq] at h
    subst h
    exact ⟨hok, fun y hy => hy, by simp, fun y hy hny => absurd hy hny⟩
  | cons c rest ih =>
    intro acc res h hok
    rw [forEachID] at h
    split at h
    · cases h
    · rename_i mid hmid
      obtain ⟨m1, m2, m3, m4⟩ := hf c acc mid hmid hok
      obtain ⟨r1, r2, r3, r4⟩ := ih mid res h m1
      refine ⟨r1, fun y hy => r2 y (m2 y hy), ?_, ?_⟩
      · intro s hs
        rcases List.mem_cons.mp hs with rfl | hs
        · exact r2 _ (m3 _ (List.mem_singleton_self _))
        · exact r3 s hs
      · intro y hy hny
        by_cases hym : y ∈ mapKeys mid
        · obtain ⟨⟨s, hs, hreach⟩, hkids⟩ := m4 y hym hny
          rw [List.mem_singleton] at hs
          subst hs
          exact ⟨⟨s, List.mem_cons_self _ _, hreach⟩, fun k hk => r2 k (hkids k hk)⟩
        · obtain ⟨⟨s, hs, hreach⟩, hkids⟩ := r4 y hy hym
          exact ⟨⟨s, List.mem_cons_of_mem _ hs, hreach⟩, hkids⟩

/-- Partial correctness of `collectDescendants`. -/
theorem collectDescendants_collected (allMenus : List SysMenu) :
    ∀ fuel x all res,
      collectDescendants (buildChildrenMap allMenus) fuel x all = some res → IdSetOk all →
      Collected allMenus [x] all res := by
  intro fuel
  induction fuel with
  | zero => intro x all res h; simp [collectDescendants] at h
  | succ fuel ih =>
    intro x all res h hok
    rw [collectDescendants] at h
    split at h
    · rename_i hvis
      simp only [Option.some.injEq] at h
      subst h
      refine ⟨hok, fun y hy => hy, ?_, fun y hy hny => absurd hy hny⟩
      intro s hs
      rw [List.mem_singleton] at hs
      subst hs
      exact (visited_iff all hok s).mp hvis
    · rename_i hvis
      have hxn : x ∉ mapKeys all := fun hx => hvis ((visited_iff all hok x).mpr hx)
      obtain ⟨r1, r2, r3, r4⟩ := forEachID_collected allMenus _ ih _ _ res h
        (idSetOk_mapSet all x hok)
      have hxin : x ∈ mapKeys res := r2 x ((mem_mapKeys_mapSet all x true x).mpr (Or.inr rfl))
      refine ⟨r1, fun y hy => r2 y ((mem_mapKeys_mapSet all x true y).mpr (Or.inl hy)), ?_, ?_⟩
      · intro s hs
        rw [List.mem_singleton] at hs
        subst hs
        exact hxin
      · intro y hy hny
        by_cases hyx : y = x
        · subst hyx
          refine ⟨⟨y, List.mem_singleton_self _, Relation.ReflTransGen.refl⟩, ?_⟩
          intro c hc
          exact r3 c ((mem_children_iff allMenus y c).mpr hc)
        · have hny0 : y ∉ mapKeys (mapSet all x true) := by
            intro hin
            rcases (mem_mapKeys_mapSet all x true y).mp hin with h1 | h1
            · exact hny h1
            · exact hyx h1
          obtain ⟨⟨s, hs, hreach⟩, hkids⟩ := r4 y hy hny0
          refine ⟨⟨x, List.mem_singleton_self _, ?_⟩, hkids⟩
          exact Relation.ReflTransGen.head ((mem_children_iff allMenus x s).mp hs) hreach

theorem unvisitedCount_mono (cands : List Nat) (all res : List (Nat × Bool))
    (h : ∀ y ∈ mapKeys all, y ∈ mapKeys res) :
    unvisitedCount cands res ≤ unvisitedCount cands all := by
  unfold unvisitedCount
  apply List.Sublist.length_le
  apply List.monotone_filter_right
  intro u hu
  simp only [Bool.not_eq_true', decide_eq_false_iff_not] at hu ⊢
  exact fun hin => hu (h u hin)

theorem unvisitedCount_mapSet_lt (cands : List Nat) (all : List (Nat × Bool)) (x : Nat)
    (hx : x ∈ cands) (hxn : x ∉ mapKeys all) :
    unvisitedCount cands (mapSet all x true) < unvisitedCount cands all := by
  unfold unvisitedCount
  have heq : cands.filter (fun u => !decide (u ∈ mapKeys (mapSet all x true)))
      = (cands.filter (fun u => !decide (u ∈ mapKeys all))).filter
          (fun u => !decide (u = x)) := by
    rw [List.filter_filter]
    apply List.filter_congr
    intro u _
    simp only [mem_mapKeys_mapSet]
    by_cases hA : u ∈ mapKeys all <;> by_cases hB : u = x <;> simp [hA, hB]
  rw [heq, List.length_filter_lt_length_iff_exists]
  exact ⟨x, List.mem_filter.mpr ⟨hx, by simpa using hxn⟩, by simp⟩

/-- A loop returns when its body returns on every id set whose unvisited
count fits the fuel. -/
theorem forEachID_terminates (f : Nat → List (Nat × Bool) → Option (List (Nat × Bool)))
    (cands : List Nat) (fuel : Nat)
    (hf : ∀ x all, x ∈ cands → IdSetOk all → unvisitedCount cands all + 1 ≤ fuel →
      ∃ res, f x all = some res ∧ IdSetOk res ∧ ∀ y ∈ mapKeys all, y ∈ mapKeys res) :
    ∀ cs acc, (∀ c ∈ cs, c ∈ cands) → IdSetOk acc → unvisitedCount cands acc + 1 ≤ fuel →
      ∃ res, forEachID f cs acc = some res := by
  intro cs
  induction cs with
  | nil => intro acc _ _ _; exact ⟨acc, rfl⟩
  | cons c rest ih =>
    intro acc hcs hok hfuel
    obtain ⟨mid, hmid, hokmid, hsub⟩ := hf c acc (hcs c (List.mem_cons_self _ _)) hok hfuel
    have hle := unvisitedCount_mono cands acc mid hsub
    obtain ⟨res, hres⟩ := ih mid (fun k hk => hcs k (List.mem_cons_of_mem _ hk)) hokmid
      (by omega)
    exact ⟨res, by rw [forEachID, hmid]; exact hres⟩

/-- The recursion of `collectDescendants` is no deeper than the number of
candidate ids not yet visited, plus one. -/
theorem collectDescendants_terminates (allMenus : List SysMenu) (cands : List Nat)
    (hc : ∀ a c, ChildStep allMenus a c → c ∈ cands) :
    ∀ fuel x all, x ∈ cands → IdSetOk all → unvisitedCount cands all + 1 ≤ fuel →
      ∃ res, collectDescendants (buildChildrenMap allMenus) fuel x all = some res := by
  intro fuel
  induction fuel with
  | zero => intro x all _ _ h; omega
  | succ fuel ih =>
    intro x all hx hok hfuel
    rw [collectDescendants]
    split
    · exact ⟨all, rfl⟩
    · rename_i hvis
      have hxn : x ∉ mapKeys all := fun hin => hvis ((visited_iff all hok x).mpr hin)
      have hlt := unvisitedCount_mapSet_lt cands all x hx hxn
      apply forEachID_terminates _ cands fuel
      · intro y acc hy hokacc hfacc
        obtain ⟨res, hres⟩ := ih y acc hy hokacc hfacc
        obtain ⟨c1, c2, _, _⟩ := collectDescendants_collected allMenus fuel y acc res hres hokacc
        exact ⟨res, hres, c1, c2⟩
      · intro c hcm
        exact hc x c ((mem_children_iff allMenus x c).mp hcm)
      · exact idSetOk_mapSet all x hok
      · omega

/-- `GetAllDescendantIDs` returns once the fuel covers the menus and the
requested ids, and returns, without duplicates, exactly the expanded set. -/
theorem GetAllDescendantIDs_returns (ord : MapOrder) (allMenus : List SysMenu)
    (menuIDs : List Nat) (fuel : Nat) (hfuel : allMenus.length + menuIDs.length + 1 ≤ fuel) :
    ∃ res, GetAllDescendantIDs ord fuel allMenus menuIDs = some res ∧ res.Nodup ∧
      ∀ x, x ∈ res ↔ InExpandedSet allMenus menuIDs x := by
  rw [GetAllDescendantIDs]
  split
  · rename_i hlen
    have : menuIDs = [] := List.length_eq_zero.mp hlen
    subst this
    exact ⟨[], rfl, List.nodup_nil, by simp [InExpandedSet]⟩
  · have hcands : ∀ a c, ChildStep allMenus a c → c ∈ menuIDs ++ allMenus.map SysMenu.ID := by
      rintro a c ⟨menu, hmem, _, hid⟩
      exact List.mem_append_right _ (List.mem_map.mpr ⟨menu, hmem, hid⟩)
    have hcount : unvisitedCount (menuIDs ++ allMenus.map SysMenu.ID) [] + 1 ≤ fuel := by
      have h1 : unvisitedCount (menuIDs ++ allMenus.map SysMenu.ID) []
          ≤ (menuIDs ++ allMenus.map SysMenu.ID).length := List.length_filter_le _ _
      simp only [List.length_append, List.length_map] at h1
      omega
    obtain ⟨all, hall⟩ := forEachID_terminates
      (collectDescendants (buildChildrenMap allMenus) fuel)
      (menuIDs ++ allMenus.map SysMenu.ID) fuel
      (fun x acc hx hok hf => by
        obtain ⟨res, hres⟩ := collectDescendants_terminates allMenus _ hcands fuel x acc hx hok hf
        obtain ⟨c1, c2, _, _⟩ := collectDescendants_collected allMenus fuel x acc res hres hok
        exact ⟨res, hres, c1, c2⟩)
      menuIDs [] (fun c hcm => List.mem_append_left _ hcm) idSetOk_nil hcount
    obtain ⟨r1, _, r3, r4⟩ := forEachID_collected allMenus _
      (collectDescendants_collected allMenus fuel) menuIDs [] all hall idSetOk_nil
    refine ⟨ord.enum (mapKeys all), by rw [hall], (ord.perm _).nodup_iff.mpr r1.1, ?_⟩
    intro x
    rw [(ord.perm _).mem_iff]
    constructor
    · intro hx
      exact (r4 x hx (by simp [mapKeys])).1
    · rintro ⟨r, hr, hreach⟩
      induction hreach with
      | refl => exact r3 r hr
      | tail _ hstep ih => exact (r4 _ ih (by simp [mapKeys])).2 _ hstep

/-! ### `BatchDelete` -/

theorem idSet_ofList (l : List Nat) :
    IdSetOk (l.foldl (fun m id => mapSet m id true) []) ∧
    ∀ x, x ∈ mapKeys (l.foldl (fun m id => mapSet m id true) []) ↔ x ∈ l := by
  have hgen : ∀ (l : List Nat) (init : List (Nat × Bool)), IdSetOk init →
      IdSetOk (l.foldl (fun m id => mapSet m id true) init) ∧
      ∀ x, x ∈ mapKeys (l.foldl (fun m id => mapSet m id true) init) ↔
        (x ∈ mapKeys init ∨ x ∈ l) := by
    intro l
    induction l with
    | nil => intro init h; exact ⟨h, by simp⟩
    | cons a rest ih =>
      intro init h
      obtain ⟨h1, h2⟩ := ih (mapSet init a true) (idSetOk_mapSet init a h)
      refine ⟨h1, fun x => ?_⟩
      rw [List.foldl_cons, h2 x, mem_mapKeys_mapSet, List.mem_cons]
      tauto
  obtain ⟨h1, h2⟩ := hgen l [] idSetOk_nil
  exact ⟨h1, fun x => by rw [h2 x]; simp [mapKeys]⟩

/-- The Api ids that `BatchDelete` deletes: linked from inside the set and not
from outside it. -/
theorem mem_apiIdsToDelete (menuApis : List SysMenuApi) (allMenuIDs : List Nat) (a : Nat) :
    a ∈ apiIdsToDelete menuApis allMenuIDs ↔
      ((∃ l ∈ menuApis, l.ApiID = a ∧ l.MenuID ∈ allMenuIDs) ∧
        ¬ ∃ l ∈ menuApis, l.ApiID = a ∧ l.MenuID ∉ allMenuIDs) := by
  have hrel : ∀ b, b ∈ ((menuApis.filter (fun l => decide (l.MenuID ∈ allMenuIDs))).map
      (fun l => l.ApiID)).dedup ↔ ∃ l ∈ menuApis, l.ApiID = b ∧ l.MenuID ∈ allMenuIDs := by
    intro b
    simp only [List.mem_dedup, List.mem_map, List.mem_filter, decide_eq_true_eq]
    constructor
    · rintro ⟨l, ⟨h1, h2⟩, h3⟩
      exact ⟨l, h1, h3, h2⟩
    · rintro ⟨l, h1, h3, h2⟩
      exact ⟨l, ⟨h1, h2⟩, h3⟩
  unfold apiIdsToDelete
  simp only []
  split
  · rw [List.mem_filter, hrel a]
    apply and_congr_right
    intro hin
    obtain ⟨hok, hkeys⟩ := idSet_ofList
      ((menuApis.filter (fun l : SysMenuApi =>
          decide (l.ApiID ∈ ((menuApis.filter
            (fun l : SysMenuApi => decide (l.MenuID ∈ allMenuIDs))).map
            (fun l : SysMenuApi => l.ApiID)).dedup) && !decide (l.MenuID ∈ allMenuIDs))).map
        (fun l : SysMenuApi => l.ApiID)).dedup
    rw [Bool.not_eq_true', Bool.eq_false_iff, Ne, visited_iff _ hok, hkeys]
    apply not_congr
    simp only [List.mem_dedup, List.mem_map, List.mem_filter, Bool.and_eq_true,
      decide_eq_true_eq, Bool.not_eq_true', decide_eq_false_iff_not]
    constructor
    · rintro ⟨l, ⟨h1, _, h2⟩, h3⟩
      exact ⟨l, h1, h3, h2⟩
    · rintro ⟨l, h1, h3, h2⟩
      obtain ⟨l0, hl0, hid, hm0⟩ := hin
      exact ⟨l, ⟨h1, ⟨l0, ⟨hl0, hm0⟩, hid.trans h3.symm⟩, h2⟩, h3⟩
  · rename_i hlen
    have hnil : ((menuApis.filter (fun l => decide (l.MenuID ∈ allMenuIDs))).map
        (fun l => l.ApiID)).dedup = [] := by
      apply List.length_eq_zero.mp
      omega
    constructor
    · intro h
      simp at h
    · rintro ⟨hin, _⟩
      have := (hrel a).mpr hin
      rw [hnil] at this
      simp at this

/-- C9. For a non-empty id list, if some RoleMenuLink references a requested id
or a descendant of one, `BatchDelete` returns the role-link error and the store
after the call is the store before it: no menu, RoleMenuLink, MenuApiLink or
Api row is removed. -/
theorem BatchDelete_rejected_when_role_linked (ord : MapOrder) (db : Store)
    (menuIDs : List Nat) (fuel : Nat) (hne : menuIDs ≠ [])
    (hfuel : db.menus.length + menuIDs.length + 1 ≤ fuel)
    (hlink : ∃ l ∈ db.roleMenus, InExpandedSet db.menus menuIDs l.MenuID) :
    BatchDelete ord fuel db menuIDs
      = some ⟨some "存在角色关联这些菜单，无法删除", db⟩ := by
  obtain ⟨res, hres, _, hmem⟩ := GetAllDescendantIDs_returns ord db.menus menuIDs fuel hfuel
  obtain ⟨l, hl, hexp⟩ := hlink
  have hin : l.MenuID ∈ res := (hmem _).mpr hexp
  have hlen0 : ¬ menuIDs.length = 0 := fun h => hne (List.length_eq_zero.mp h)
  have hres0 : ¬ res.length = 0 := by
    intro h
    rw [List.length_eq_zero.mp h] at hin
    simp at hin
  have hcount : 0 < (db.roleMenus.filter (fun l => decide (l.MenuID ∈ res))).length :=
    List.length_pos_of_mem (List.mem_filter.mpr ⟨hl, by simpa using hin⟩)
  rw [BatchDelete, if_neg hlen0, hres]
  simp only [if_neg hres0, if_pos hcount]

/-- Instance of C9: deleting `D1` while a role is linked to its descendant
`B1`. -/
theorem BatchDelete_rejected_when_role_linked_witness :
    ([1] : List Nat) ≠ [] ∧
    (∃ l ∈ scenarioStoreLinked.roleMenus,
      InExpandedSet scenarioStoreLinked.menus [1] l.MenuID) ∧
    BatchDelete insertionOrder 7 scenarioStoreLinked [1]
      = some ⟨some "存在角色关联这些菜单，无法删除", scenarioStoreLinked⟩ := by
  have hlink : ∃ l ∈ scenarioStoreLinked.roleMenus,
      InExpandedSet scenarioStoreLinked.menus [1] l.MenuID := by
    refine ⟨⟨7, 3⟩, List.mem_singleton_self _, 1, List.mem_singleton_self _, ?_⟩
    refine Relation.ReflTransGen.tail (b := 2) (Relation.ReflTransGen.single ?_) ?_
    · exact ⟨{ ID := 2, ParentID := 1, MenuType := 2 }, by decide, rfl, rfl⟩
    · exact ⟨{ ID := 3, ParentID := 2, MenuType := 3, Permission := "user:add" },
        by decide, rfl, rfl⟩
  exact ⟨by decide, hlink,
    BatchDelete_rejected_when_role_linked insertionOrder scenarioStoreLinked [1] 7
      (by decide) (by decide) hlink⟩

/-- C10. For a non-empty id list whose expanded set (requested ids and all
descendants) no RoleMenuLink references, `BatchDelete` succeeds and the store
it leaves is the old one without the menus of the expanded set, without the
MenuApiLinks of those menus, and without exactly the Apis that had a
MenuApiLink from a menu of the expanded set and none from a menu outside it;
every other row is kept, in place. -/
theorem BatchDelete_removes_expanded_set (ord : MapOrder) (db : Store)
    (menuIDs : List Nat) (fuel : Nat) (hne : menuIDs ≠ [])
    (hfuel : db.menus.length + menuIDs.length + 1 ≤ fuel)
    (hfree : ∀ l ∈ db.roleMenus, ¬ InExpandedSet db.menus menuIDs l.MenuID) :
    ∃ (ids gone : List Nat) (after : Store),
      BatchDelete ord fuel db menuIDs = some ⟨none, after⟩ ∧
      (∀ x, x ∈ ids ↔ InExpandedSet db.menus menuIDs x) ∧
      (∀ a, a ∈ gone ↔
        ((∃ l ∈ db.menuApis, l.ApiID = a ∧ InExpandedSet db.menus menuIDs l.MenuID) ∧
          ¬ ∃ l ∈ db.menuApis, l.ApiID = a ∧ ¬ InExpandedSet db.menus menuIDs l.MenuID)) ∧
      after.menus = db.menus.filter (fun m => !decide (m.ID ∈ ids)) ∧
      after.menuApis = db.menuApis.filter (fun l => !decide (l.MenuID ∈ ids)) ∧
      after.apis = db.apis.filter (fun a => !decide (a.ID ∈ gone)) ∧
      after.roleMenus = db.roleMenus := by
  obtain ⟨res, hres, _, hmem⟩ := GetAllDescendantIDs_returns ord db.menus menuIDs fuel hfuel
  have hlen0 : ¬ menuIDs.length = 0 := fun h => hne (List.length_eq_zero.mp h)
  have hres0 : ¬ res.length = 0 := by
    intro h
    cases menuIDs with
    | nil => exact hne rfl
    | cons r rest =>
      have : r ∈ res :=
        (hmem r).mpr ⟨r, List.mem_cons_self _ _, Relation.ReflTransGen.refl⟩
      rw [List.length_eq_zero.mp h] at this
      simp at this
  have hnone : db.roleMenus.filter (fun l => decide (l.MenuID ∈ res)) = [] := by
    rw [List.filter_eq_nil_iff]
    intro l hl
    simpa using fun hin => hfree l hl ((hmem _).mp hin)
  have hcount : ¬ 0 < (db.roleMenus.filter (fun l => decide (l.MenuID ∈ res))).length := by
    rw [hnone]
    simp
  have hkeep : db.roleMenus.filter (fun l => !decide (l.MenuID ∈ res)) = db.roleMenus := by
    rw [List.filter_eq_self]
    intro l hl
    simpa using fun hin => hfree l hl ((hmem _).mp hin)
  have hapis : (if 0 < (apiIdsToDelete db.menuApis res).length then
        db.apis.filter (fun a => !decide (a.ID ∈ apiIdsToDelete db.menuApis res))
      else db.apis)
      = db.apis.filter (fun a => !decide (a.ID ∈ apiIdsToDelete db.menuApis res)) := by
    split
    · rfl
    · rename_i hl
      have hnil : apiIdsToDelete db.menuApis res = [] := by
        apply List.length_eq_zero.mp
        omega
      rw [hnil]
      simp
  refine ⟨res, apiIdsToDelete db.menuApis res,
    { menus := db.menus.filter (fun m => !decide (m.ID ∈ res))
      roleMenus := db.roleMenus
      menuApis := db.menuApis.filter (fun l => !decide (l.MenuID ∈ res))
      apis := db.apis.filter (fun a => !decide (a.ID ∈ apiIdsToDelete db.menuApis res)) },
    ?_, hmem, ?_, rfl, rfl, rfl, rfl⟩
  · rw [BatchDelete, if_neg hlen0, hres]
    simp only [if_neg hres0, if_neg hcount, hapis, hkeep]
  · intro a
    rw [mem_apiIdsToDelete]
    simp only [hmem]

/-- Instance of C10: deleting `D1` removes `D1`, `M1`, `B1`, their links and
Api 10; Api 11, also linked from the surviving `B2`, stays. -/
theorem BatchDelete_removes_expanded_set_witness :
    ([1] : List Nat) ≠ [] ∧
    (∀ l ∈ scenarioStoreFree.roleMenus, ¬ InExpandedSet scenarioStoreFree.menus [1] l.MenuID) ∧
    BatchDelete insertionOrder 7 scenarioStoreFree [1]
      = some ⟨none,
          { menus := [{ ID := 4, MenuType := 2 }, { ID := 5, ParentID := 4, MenuType := 3 }]
            roleMenus := [{ RoleID := 7, MenuID := 5 }]
            menuApis := [{ MenuID := 5, ApiID := 11 }]
            apis := [{ ID := 11 }, { ID := 12 }] }⟩ ∧
    ∃ (ids gone : List Nat) (after : Store),
      BatchDelete insertionOrder 7 scenarioStoreFree [1] = some ⟨none, after⟩ ∧
      (∀ x, x ∈ ids ↔ InExpandedSet scenarioStoreFree.menus [1] x) ∧
      (∀ a, a ∈ gone ↔
        ((∃ l ∈ scenarioStoreFree.menuApis,
            l.ApiID = a ∧ InExpandedSet scenarioStoreFree.menus [1] l.MenuID) ∧
          ¬ ∃ l ∈ scenarioStoreFree.menuApis,
            l.ApiID = a ∧ ¬ InExpandedSet scenarioStoreFree.menus [1] l.MenuID)) ∧
      after.menus = scenarioStoreFree.menus.filter (fun m => !decide (m.ID ∈ ids)) ∧
      after.menuApis = scenarioStoreFree.menuApis.filter (fun l => !decide (l.MenuID ∈ ids)) ∧
      after.apis = scenarioStoreFree.apis.filter (fun a => !decide (a.ID ∈ gone)) ∧
      after.roleMenus = scenarioStoreFree.roleMenus := by
  have hfree : ∀ l ∈ scenarioStoreFree.roleMenus,
      ¬ InExpandedSet scenarioStoreFree.menus [1] l.MenuID := by
    intro l hl hexp
    have hl2 : l = ⟨7, 5⟩ := by simpa [scenarioStoreFree] using hl
    subst hl2
    obtain ⟨res, hres, _, hmem⟩ := GetAllDescendantIDs_returns insertionOrder
      scenarioStoreFree.menus [1] 7 (by decide)
    have hval : GetAllDescendantIDs insertionOrder 7 scenarioStoreFree.menus [1]
        = some [1, 2, 3] := by decide
    rw [hval] at hres
    cases hres
    have := (hmem 5).mpr hexp
    simp at this
  exact ⟨by decide, hfree, by decide,
    BatchDelete_removes_expanded_set insertionOrder scenarioStoreFree [1] 7
      (by decide) (by decide) hfree⟩

/-! ### `BuildTree`: flattening and sorting -/

theorem flattenList_eq_flatMap (l : List SysRole) :
    flattenList l = l.flatMap flattenNode := by
  induction l with
  | nil => simp [flattenList]
  | cons n rest ih => simp [flattenList, ih]

/-- Sorting a forest rearranges its nodes and changes no stored field. -/
theorem TreeSort_flatten_perm (s : SliceSorter) (list : List SysRole) :
    ((flattenList (TreeSort s list)).map roleFields).Perm
      ((flattenList list).map roleFields) := by
  obtain ⟨n, hsz⟩ : ∃ n, sizeOf list = n := ⟨_, rfl⟩
  induction n using Nat.strong_induction_on generalizing list with
  | _ n ih =>
    subst hsz
    rw [TreeSort_eq]
    split
    · exact List.Perm.refl _
    · rw [flattenList_eq_flatMap, flattenList_eq_flatMap, List.flatMap_map, List.map_flatMap,
        List.map_flatMap]
      refine List.Perm.trans (List.Perm.flatMap_left _ ?_)
        (List.Perm.flatMap_right _ (s.perm roleLess list))
      intro item hitem
      have hmem : item ∈ list := (s.perm roleLess list).mem_iff.mp hitem
      have h1 := List.sizeOf_lt_of_mem hmem
      cases item with
      | mk i k p c =>
        simp only [SysRole.Children, SysRole.ID, SysRole.SortKey, SysRole.ParentID]
        split
        · have h2 : sizeOf c < sizeOf list := by
            simp only [SysRole.mk.sizeOf_spec] at h1; omega
          simp only [flattenNode, List.map_cons]
          exact List.Perm.cons _ (ih _ h2 c rfl)
        · exact List.Perm.refl _

/-! ### `BuildTree`: the registered nodes -/

theorem mem_iff_mapGet {V : Type} (m : List (Nat × V)) (hnd : (mapKeys m).Nodup)
    (k : Nat) (v : V) : (k, v) ∈ m ↔ mapGet m k = some v := by
  induction m with
  | nil => simp [mapGet]
  | cons e rest ih =>
    obtain ⟨k1, v1⟩ := e
    simp only [mapKeys, List.map_cons, List.nodup_cons] at hnd
    simp only [mapGet, List.mem_cons, Prod.mk.injEq]
    by_cases h1 : k1 = k
    · subst h1
      simp only [if_true, Option.some.injEq, true_and]
      constructor
      · rintro (h | h)
        · exact h.symm
        · exact absurd (List.mem_map.mpr ⟨(k1, v), h, rfl⟩) hnd.1
      · intro h
        exact Or.inl h.symm
    · have h1s : ¬ k = k1 := fun h => h1 h.symm
      simp only [h1, h1s, if_false, false_and, false_or]
      exact ih hnd.2

theorem registerNodes_eq (list : List SysRole) :
    registerNodes list =
      (list.filter (fun n => !decide (n.ID = n.ParentID))).foldl
        (fun m n => mapSet m n.ID ⟨n.ID, n.SortKey, n.ParentID, []⟩) [] := by
  have hgen : ∀ (l : List SysRole) (init : List (Nat × RoleCell)),
      l.foldl (fun nodeMap node =>
          if node.ID = node.ParentID then nodeMap
          else mapSet nodeMap node.ID ⟨node.ID, node.SortKey, node.ParentID, []⟩) init
      = (l.filter (fun n => !decide (n.ID = n.ParentID))).foldl
          (fun m n => mapSet m n.ID ⟨n.ID, n.SortKey, n.ParentID, []⟩) init := by
    intro l
    induction l with
    | nil => intro init; rfl
    | cons a rest ih =>
      intro init
      rw [List.foldl_cons, List.filter_cons]
      by_cases h : a.ID = a.ParentID
      · simp only [h, if_true, decide_True, Bool.not_true, Bool.false_eq_true, if_false]
        exact ih init
      · simp only [h, if_false, decide_False, Bool.not_false, if_true, List.foldl_cons]
        exact ih _
  exact hgen list []

theorem registerNodes_nodup (list : List SysRole) : (mapKeys (registerNodes list)).Nodup := by
  rw [registerNodes_eq]
  exact (mapFill_spec SysRole.ID (fun n => (⟨n.ID, n.SortKey, n.ParentID, []⟩ : RoleCell))
    _ [] (by simp [mapKeys])).1

/-- Every registered cell is the image of a node of the list that is not
self-referencing, filed under its `ID`, with no children yet. -/
theorem registerNodes_get (list : List SysRole) (k : Nat) (cell : RoleCell)
    (h : mapGet (registerNodes list) k = some cell) :
    ∃ n ∈ list, n.ID ≠ n.ParentID ∧ n.ID = k ∧
      cell = ⟨n.ID, n.SortKey, n.ParentID, []⟩ := by
  rw [registerNodes_eq] at h
  rcases (mapFill_spec SysRole.ID (fun n => (⟨n.ID, n.SortKey, n.ParentID, []⟩ : RoleCell))
    _ [] (by simp [mapKeys])).2.2.2 k cell h with h0 | ⟨n, hn, hk, hv⟩
  · simp [mapGet] at h0
  · obtain ⟨hmem, hp⟩ := List.mem_filter.mp hn
    exact ⟨n, hmem, by simpa using hp, hk, hv.symm⟩

/-- With pairwise distinct ids every node that is not self-referencing is
registered as itself. -/
theorem registerNodes_get_of_mem (list : List SysRole) (hnd : (list.map SysRole.ID).Nodup)
    (n : SysRole) (hn : n ∈ list) (hself : n.ID ≠ n.ParentID) :
    mapGet (registerNodes list) n.ID = some ⟨n.ID, n.SortKey, n.ParentID, []⟩ := by
  have hkey : n.ID ∈ mapKeys (registerNodes list) := by
    rw [registerNodes_eq]
    apply ((mapFill_spec SysRole.ID
      (fun n => (⟨n.ID, n.SortKey, n.ParentID, []⟩ : RoleCell)) _ []
      (by simp [mapKeys])).2.2.1 n.ID).mpr
    exact Or.inr ⟨n, List.mem_filter.mpr ⟨hn, by simpa using hself⟩, rfl⟩
  obtain ⟨cell, hcell⟩ := Option.isSome_iff_exists.mp ((mapGet_isSome_iff _ _).mpr hkey)
  obtain ⟨n2, hn2, _, hid, hc⟩ := registerNodes_get list _ cell hcell
  have : n2 = n := List.inj_on_of_nodup_map hnd hn2 hn hid
  subst this
  rw [hcell, hc]

/-! ### `BuildTree`: the linked heap -/

/-- What the second loop leaves: the roots in iteration order, and under every
key the registered cell with its children appended in iteration order. -/
theorem linkNode_foldl_spec :
    ∀ (entries : List (Nat × RoleCell)) (h0 : List (Nat × RoleCell)) (r0 : List Nat),
      (entries.foldl linkNode (h0, r0)).2 = r0 ++ rootsOf entries ∧
      ∀ k, mapGet (entries.foldl linkNode (h0, r0)).1 k =
        (mapGet h0 k).map
          (fun cell => { cell with Children := cell.Children ++ kidsOf entries k }) := by
  intro entries
  induction entries with
  | nil =>
    intro h0 r0
    refine ⟨by simp [rootsOf], fun k => ?_⟩
    cases h : mapGet h0 k <;> simp [kidsOf, h]
  | cons e rest ih =>
    intro h0 r0
    rw [List.foldl_cons]
    by_cases hp : e.2.ParentID = 0
    · have hstep : linkNode (h0, r0) e = (h0, r0 ++ [e.1]) := by simp [linkNode, hp]
      rw [hstep]
      obtain ⟨i1, i2⟩ := ih h0 (r0 ++ [e.1])
      refine ⟨?_, fun k => ?_⟩
      · rw [i1]
        simp [rootsOf, List.filter_cons, hp]
      · rw [i2 k]
        simp [kidsOf, List.filter_cons, hp]
    · cases hq : mapGet h0 e.2.ParentID with
      | none =>
        have hstep : linkNode (h0, r0) e = (h0, r0) := by simp [linkNode, hp, hq]
        rw [hstep]
        obtain ⟨i1, i2⟩ := ih h0 r0
        refine ⟨?_, fun k => ?_⟩
        · rw [i1]
          simp [rootsOf, List.filter_cons, hp]
        · rw [i2 k]
          by_cases hk : e.2.ParentID = k
          · rw [← hk, hq]
            rfl
          · simp [kidsOf, List.filter_cons, hp, hk]
      | some parent =>
        have hstep : linkNode (h0, r0) e =
            (mapSet h0 e.2.ParentID { parent with Children := parent.Children ++ [e.1] }, r0) := by
          simp [linkNode, hp, hq]
        rw [hstep]
        obtain ⟨i1, i2⟩ := ih
          (mapSet h0 e.2.ParentID { parent with Children := parent.Children ++ [e.1] }) r0
        refine ⟨?_, fun k => ?_⟩
        · rw [i1]
          simp [rootsOf, List.filter_cons, hp]
        · rw [i2 k, mapGet_mapSet]
          by_cases hk : e.2.ParentID = k
          · rw [← hk, hq]
            simp [kidsOf, List.filter_cons, hp]
          · simp [kidsOf, List.filter_cons, hp, hk]

theorem atDepth_zero_iff (nodeMap : List (Nat × RoleCell)) (k : Nat) :
    AtDepth nodeMap 0 k ↔ ∃ cell, mapGet nodeMap k = some cell ∧ cell.ParentID = 0 := by
  constructor
  · intro h
    cases h with
    | root _ cell hget hp => exact ⟨cell, hget, hp⟩
  · rintro ⟨cell, hget, hp⟩
    exact AtDepth.root k cell hget hp

theorem mem_rootsOf (nodeMap entries : List (Nat × RoleCell))
    (hnd : (mapKeys nodeMap).Nodup) (hperm : entries.Perm nodeMap) (r : Nat) :
    r ∈ rootsOf entries ↔ AtDepth nodeMap 0 r := by
  rw [atDepth_zero_iff]
  simp only [rootsOf, List.mem_map, List.mem_filter, decide_eq_true_eq]
  constructor
  · rintro ⟨⟨k, cell⟩, ⟨hmem, hp⟩, rfl⟩
    exact ⟨cell, (mem_iff_mapGet nodeMap hnd k cell).mp (hperm.mem_iff.mp hmem), hp⟩
  · rintro ⟨cell, hget, hp⟩
    exact ⟨(r, cell), ⟨hperm.mem_iff.mpr ((mem_iff_mapGet nodeMap hnd r cell).mpr hget), hp⟩, rfl⟩

theorem mem_kidsOf (nodeMap entries : List (Nat × RoleCell))
    (hnd : (mapKeys nodeMap).Nodup) (hperm : entries.Perm nodeMap) (k c : Nat) :
    c ∈ kidsOf entries k ↔ RoleChild nodeMap k c := by
  simp only [kidsOf, RoleChild, List.mem_map, List.mem_filter, Bool.and_eq_true,
    Bool.not_eq_true', decide_eq_false_iff_not, decide_eq_true_eq]
  constructor
  · rintro ⟨⟨k1, cell⟩, ⟨hmem, hp0, hpk⟩, rfl⟩
    exact ⟨fun h0 => hp0 (hpk.trans h0),
      cell, (mem_iff_mapGet nodeMap hnd k1 cell).mp (hperm.mem_iff.mp hmem), hpk⟩
  · rintro ⟨hk0, cell, hget, hpk⟩
    exact ⟨(c, cell), ⟨hperm.mem_iff.mpr ((mem_iff_mapGet nodeMap hnd c cell).mpr hget),
      fun h0 => hk0 (hpk.symm.trans h0), hpk⟩, rfl⟩

theorem entries_keys_nodup (nodeMap entries : List (Nat × RoleCell))
    (hnd : (mapKeys nodeMap).Nodup) (hperm : entries.Perm nodeMap) :
    (entries.map Prod.fst).Nodup :=
  (hperm.map Prod.fst).nodup_iff.mpr hnd

theorem rootsOf_nodup (nodeMap entries : List (Nat × RoleCell))
    (hnd : (mapKeys nodeMap).Nodup) (hperm : entries.Perm nodeMap) :
    (rootsOf entries).Nodup :=
  (entries_keys_nodup nodeMap entries hnd hperm).sublist
    ((List.filter_sublist _).map Prod.fst)

theorem kidsOf_nodup (nodeMap entries : List (Nat × RoleCell))
    (hnd : (mapKeys nodeMap).Nodup) (hperm : entries.Perm nodeMap) (k : Nat) :
    (kidsOf entries k).Nodup :=
  (entries_keys_nodup nodeMap entries hnd hperm).sublist
    ((List.filter_sublist _).map Prod.fst)

/-! ### `BuildTree`: depth of registered nodes -/

theorem atDepth_unique (nodeMap : List (Nat × RoleCell)) :
    ∀ d k, AtDepth nodeMap d k → ∀ d2, AtDepth nodeMap d2 k → d = d2 := by
  intro d k h
  induction h with
  | root k cell hget hp =>
    intro d2 h2
    cases h2 with
    | root _ _ _ _ => rfl
    | child _ _ cell2 hget2 hp2 _ =>
      rw [hget] at hget2
      cases hget2
      exact absurd hp hp2
  | child k d cell hget hp _ ih =>
    intro d2 h2
    cases h2 with
    | root _ cell2 hget2 hp2 =>
      rw [hget] at hget2
      cases hget2
      exact absurd hp2 hp
    | child _ d3 cell2 hget2 _ h3 =>
      rw [hget] at hget2
      cases hget2
      rw [ih d3 h3]

/-- Below a node of depth `d` lie only nodes of depth at least `d`. -/
theorem atDepth_of_desc (nodeMap : List (Nat × RoleCell)) (d p x : Nat)
    (hp : AtDepth nodeMap d p) (h : Relation.ReflTransGen (RoleChild nodeMap) p x) :
    ∃ j, AtDepth nodeMap (d + j) x := by
  induction h with
  | refl => exact ⟨0, hp⟩
  | tail _ hstep ih =>
    obtain ⟨j, hj⟩ := ih
    obtain ⟨h0, cell, hget, hpar⟩ := hstep
    exact ⟨j + 1, AtDepth.child _ _ cell hget (hpar ▸ h0) (hpar ▸ hj)⟩

/-- A strict descendant of a node of depth `d` is deeper than `d`. -/
theorem atDepth_of_child_desc (nodeMap : List (Nat × RoleCell)) (d p c x : Nat)
    (hp : AtDepth nodeMap d p) (hc : RoleChild nodeMap p c)
    (h : Relation.ReflTransGen (RoleChild nodeMap) c x) :
    ∃ j, AtDepth nodeMap (d + 1 + j) x := by
  obtain ⟨h0, cell, hget, hpar⟩ := hc
  exact atDepth_of_desc nodeMap (d + 1) c x
    (AtDepth.child _ _ cell hget (hpar ▸ h0) (hpar ▸ hp)) h

/-- A node has at most one ancestor-or-self at each depth. -/
theorem ancestor_unique (nodeMap : List (Nat × RoleCell)) (d p x : Nat)
    (hp : AtDepth nodeMap d p) (h : Relation.ReflTransGen (RoleChild nodeMap) p x) :
    ∀ p2, AtDepth nodeMap d p2 → Relation.ReflTransGen (RoleChild nodeMap) p2 x → p = p2 := by
  induction h with
  | refl =>
    intro p2 hp2 h2
    rcases Relation.ReflTransGen.cases_tail h2 with heq | ⟨y, hy, hstep⟩
    · exact heq
    · obtain ⟨j, hj⟩ := atDepth_of_desc nodeMap d p2 y hp2 hy
      obtain ⟨h0, cell, hget, hpar⟩ := hstep
      have hx := AtDepth.child _ _ cell hget (hpar ▸ h0) (hpar ▸ hj)
      have := atDepth_unique nodeMap _ _ hp _ hx
      omega
  | tail hpy hstep ih =>
    rename_i y x
    intro p2 hp2 h2
    obtain ⟨jy, hjy⟩ := atDepth_of_desc nodeMap d p y hp hpy
    obtain ⟨h0, cell, hget, hpar⟩ := hstep
    have hx := AtDepth.child _ _ cell hget (hpar ▸ h0) (hpar ▸ hjy)
    rcases Relation.ReflTransGen.cases_tail h2 with heq | ⟨y2, hy2, hstep2⟩
    · subst heq
      have := atDepth_unique nodeMap _ _ hp2 _ hx
      omega
    · obtain ⟨_, cell2, hget2, hpar2⟩ := hstep2
      rw [hget] at hget2
      cases hget2
      rw [hpar] at hpar2
      subst hpar2
      exact ih p2 hp2 hy2

theorem atDepth_get (nodeMap : List (Nat × RoleCell)) (d k : Nat)
    (h : AtDepth nodeMap d k) : ∃ cell, mapGet nodeMap k = some cell := by
  cases h with
  | root _ cell hget _ => exact ⟨cell, hget⟩
  | child _ _ cell hget _ _ => exact ⟨cell, hget⟩

/-- The depth of a registered node is below the number of registered nodes. -/
theorem atDepth_lt (nodeMap : List (Nat × RoleCell)) (d k : Nat)
    (h : AtDepth nodeMap d k) : d < nodeMap.length := by
  have hchain : ∃ chain : List Nat, chain.length = d + 1 ∧ chain.Nodup ∧
      ∀ x ∈ chain, x ∈ mapKeys nodeMap ∧ ∃ d2, d2 ≤ d ∧ AtDepth nodeMap d2 x := by
    induction h with
    | root k cell hget hp =>
      refine ⟨[k], rfl, List.nodup_singleton _, ?_⟩
      intro x hx
      rw [List.mem_singleton] at hx
      subst hx
      exact ⟨(mapGet_isSome_iff _ _).mp (by simp [hget]), 0, le_refl _,
        AtDepth.root _ cell hget hp⟩
    | child k d cell hget hp hpar ih =>
      obtain ⟨chain, hlen, hnodup, hall⟩ := ih
      have hk : AtDepth nodeMap (d + 1) k := AtDepth.child k d cell hget hp hpar
      refine ⟨k :: chain, by simp [hlen], List.nodup_cons.mpr ⟨?_, hnodup⟩, ?_⟩
      · intro hin
        obtain ⟨_, d2, hle, hd2⟩ := hall k hin
        have := atDepth_unique nodeMap _ _ hk _ hd2
        omega
      · intro x hx
        rcases List.mem_cons.mp hx with rfl | hx
        · exact ⟨(mapGet_isSome_iff _ _).mp (by simp [hget]), d + 1, le_refl _, hk⟩
        · obtain ⟨h1, d2, hle, hd2⟩ := hall x hx
          exact ⟨h1, d2, by omega, hd2⟩
  obtain ⟨chain, hlen, hnodup, hall⟩ := hchain
  have hle := (List.subperm_of_subset hnodup (fun x hx => (hall x hx).1)).length_le
  simp only [mapKeys, List.length_map] at hle
  omega

/-- The forest read from the linked heap below pointers of depth `d`, with fuel
that reaches past the deepest node: every id occurs once, the ids are those at
or below the pointers, and every node carries the fields registered for its id. -/
theorem readForest_flatten (nodeMap entries heap : List (Nat × RoleCell))
    (hnd : (mapKeys nodeMap).Nodup) (hperm : entries.Perm nodeMap)
    (hcell : ∀ k cell, mapGet nodeMap k = some cell → cell.ID = k ∧ cell.Children = [])
    (hheap : ∀ k, mapGet heap k =
      (mapGet nodeMap k).map
        (fun cell => { cell with Children := cell.Children ++ kidsOf entries k })) :
    ∀ fuel d ptrs, ptrs.Nodup → (∀ p ∈ ptrs, AtDepth nodeMap d p) →
      nodeMap.length + 1 ≤ fuel + d →
      ((flattenList (readForest heap fuel ptrs)).map SysRole.ID).Nodup ∧
      (∀ x, x ∈ (flattenList (readForest heap fuel ptrs)).map SysRole.ID ↔
        ∃ p ∈ ptrs, Relation.ReflTransGen (RoleChild nodeMap) p x) ∧
      (∀ t ∈ flattenList (readForest heap fuel ptrs), ∃ cell,
        mapGet nodeMap t.ID = some cell ∧
          roleFields t = (cell.ID, cell.ParentID, cell.SortKey)) := by
  intro fuel
  induction fuel with
  | zero =>
    intro d ptrs _ hdepth hfuel
    cases ptrs with
    | nil => simp [readForest, flattenList]
    | cons p rest =>
      have := atDepth_lt nodeMap d p (hdepth p (List.mem_cons_self _ _))
      omega
  | succ fuel ih =>
    intro d ptrs
    induction ptrs with
    | nil => intro _ _ _; simp [readForest, flattenList]
    | cons p rest ihrest =>
      intro hnodup hdepth hfuel
      have hpd : AtDepth nodeMap d p := hdepth p (List.mem_cons_self _ _)
      obtain ⟨cell, hget⟩ := atDepth_get nodeMap d p hpd
      obtain ⟨hid, hkids0⟩ := hcell p cell hget
      obtain ⟨hpnot, hrestnd⟩ := List.nodup_cons.mp hnodup
      have hread : readForest heap (fuel + 1) (p :: rest) =
          SysRole.mk cell.ID cell.SortKey cell.ParentID
            (readForest heap fuel (kidsOf entries p)) :: readForest heap (fuel + 1) rest := by
        simp [readForest, List.filterMap_cons, hheap p, hget, hkids0]
      obtain ⟨a1, a2, a3⟩ := ih (d + 1) (kidsOf entries p)
        (kidsOf_nodup nodeMap entries hnd hperm p)
        (by
          intro c hc
          obtain ⟨h0, cell2, hget2, hpar2⟩ := (mem_kidsOf nodeMap entries hnd hperm p c).mp hc
          exact AtDepth.child _ _ cell2 hget2 (hpar2 ▸ h0) (hpar2 ▸ hpd))
        (by omega)
      obtain ⟨b1, b2, b3⟩ := ihrest hrestnd
        (fun q hq => hdepth q (List.mem_cons_of_mem _ hq)) hfuel
      -- ids below `p` are reached from `p`
      have hA : ∀ x, x ∈ (flattenList (readForest heap fuel (kidsOf entries p))).map SysRole.ID →
          ∃ c, RoleChild nodeMap p c ∧ Relation.ReflTransGen (RoleChild nodeMap) c x := by
        intro x hx
        obtain ⟨c, hc, hr⟩ := (a2 x).mp hx
        exact ⟨c, (mem_kidsOf nodeMap entries hnd hperm p c).mp hc, hr⟩
      have hAp : ∀ x, x ∈ (flattenList (readForest heap fuel (kidsOf entries p))).map SysRole.ID →
          Relation.ReflTransGen (RoleChild nodeMap) p x := by
        intro x hx
        obtain ⟨c, hc, hr⟩ := hA x hx
        exact Relation.ReflTransGen.head hc hr
      have hB : ∀ x, x ∈ (flattenList (readForest heap (fuel + 1) rest)).map SysRole.ID →
          ¬ Relation.ReflTransGen (RoleChild nodeMap) p x := by
        intro x hx hpx
        obtain ⟨q, hq, hr⟩ := (b2 x).mp hx
        have := ancestor_unique nodeMap d p x hpd hpx q
          (hdepth q (List.mem_cons_of_mem _ hq)) hr
        exact hpnot (this ▸ hq)
      rw [hread]
      simp only [flattenList, flattenNode, List.map_append, List.map_cons, List.cons_append,
        SysRole.ID, hid]
      refine ⟨?_, ?_, ?_⟩
      · rw [List.nodup_cons, List.nodup_append]
        refine ⟨?_, a1, b1, ?_⟩
        · intro hin
          rcases List.mem_append.mp hin with h | h
          · obtain ⟨c, hc, hr⟩ := hA p h
            obtain ⟨j, hj⟩ := atDepth_of_child_desc nodeMap d p c p hpd hc hr
            have := atDepth_unique nodeMap _ _ hpd _ hj
            omega
          · exact hB p h Relation.ReflTransGen.refl
        · intro x hxa hxb
          exact hB x hxb (hAp x hxa)
      · intro x
        simp only [List.mem_cons, List.mem_append, exists_eq_or_imp]
        rw [a2 x, b2 x]
        constructor
        · rintro (h | ⟨c, hc, hr⟩ | h)
          · exact Or.inl (h ▸ Relation.ReflTransGen.refl)
          · exact Or.inl (Relation.ReflTransGen.head
              ((mem_kidsOf nodeMap entries hnd hperm p c).mp hc) hr)
          · exact Or.inr h
        · rintro (h | h)
          · rcases Relation.ReflTransGen.cases_head h with heq | ⟨c, hc, hr⟩
            · exact Or.inl heq.symm
            · exact Or.inr (Or.inl ⟨c, (mem_kidsOf nodeMap entries hnd hperm p c).mpr hc, hr⟩)
          · exact Or.inr (Or.inr h)
      · intro t ht
        rcases List.mem_cons.mp ht with rfl | ht
        · exact ⟨cell, by simpa [SysRole.ID, hid] using hget, by simp [roleFields, SysRole.ID,
            SysRole.ParentID, SysRole.SortKey, hid]⟩
        · rcases List.mem_append.mp ht with h | h
          · exact a3 t h
          · exact b3 t h

/-! ### `BuildTree`: the flattened forest -/

theorem atDepth_of_rooted (list : List SysRole) (hnd : (list.map SysRole.ID).Nodup)
    (k : Nat) (h : Rooted list k) : ∃ d, AtDepth (registerNodes list) d k := by
  induction h with
  | root n hn hself hp =>
    exact ⟨0, AtDepth.root _ _ (registerNodes_get_of_mem list hnd n hn hself) hp⟩
  | child n hn hself hp _ ih =>
    obtain ⟨d, hd⟩ := ih
    exact ⟨d + 1, AtDepth.child _ _ _ (registerNodes_get_of_mem list hnd n hn hself) hp hd⟩

theorem rooted_of_atDepth (list : List SysRole) (d k : Nat)
    (h : AtDepth (registerNodes list) d k) : Rooted list k := by
  induction h with
  | root k cell hget hp =>
    obtain ⟨n, hn, hself, hid, hc⟩ := registerNodes_get list k cell hget
    subst hc
    exact hid ▸ Rooted.root n hn hself hp
  | child k d cell hget hp _ ih =>
    obtain ⟨n, hn, hself, hid, hc⟩ := registerNodes_get list k cell hget
    subst hc
    exact hid ▸ Rooted.child n hn hself hp ih

theorem atDepth_iff_below_root (nodeMap : List (Nat × RoleCell)) (x : Nat) :
    (∃ r, AtDepth nodeMap 0 r ∧ Relation.ReflTransGen (RoleChild nodeMap) r x) ↔
      ∃ d, AtDepth nodeMap d x := by
  constructor
  · rintro ⟨r, hr, hreach⟩
    obtain ⟨j, hj⟩ := atDepth_of_desc nodeMap 0 r x hr hreach
    exact ⟨0 + j, hj⟩
  · rintro ⟨d, hd⟩
    induction hd with
    | root k cell hget hp =>
      exact ⟨k, AtDepth.root k cell hget hp, Relation.ReflTransGen.refl⟩
    | child k d cell hget hp _ ih =>
      obtain ⟨r, hr, hreach⟩ := ih
      exact ⟨r, hr, Relation.ReflTransGen.tail hreach ⟨hp, cell, hget, rfl⟩⟩

/-- The forest that `BuildTree` hands to `TreeSort`: every id occurs once, the
ids are those with a depth, and every node carries the fields of a node of the
list that is not self-referencing. -/
theorem BuildTree_unsorted_flatten (ord : MapOrder) (list : List SysRole) :
    ((flattenList (readForest
        ((ord.enum (registerNodes list)).foldl linkNode (registerNodes list, [])).1
        ((registerNodes list).length + 1)
        ((ord.enum (registerNodes list)).foldl linkNode (registerNodes list, [])).2)).map
      SysRole.ID).Nodup ∧
    (∀ x, x ∈ (flattenList (readForest
        ((ord.enum (registerNodes list)).foldl linkNode (registerNodes list, [])).1
        ((registerNodes list).length + 1)
        ((ord.enum (registerNodes list)).foldl linkNode (registerNodes list, [])).2)).map
      SysRole.ID ↔ ∃ d, AtDepth (registerNodes list) d x) ∧
    (∀ t ∈ flattenList (readForest
        ((ord.enum (registerNodes list)).foldl linkNode (registerNodes list, [])).1
        ((registerNodes list).length + 1)
        ((ord.enum (registerNodes list)).foldl linkNode (registerNodes list, [])).2),
      ∃ n ∈ list, n.ID ≠ n.ParentID ∧
        mapGet (registerNodes list) t.ID = some ⟨n.ID, n.SortKey, n.ParentID, []⟩ ∧
        roleFields t = roleFields n) := by
  have hnd := registerNodes_nodup list
  have hperm := ord.perm (registerNodes list)
  obtain ⟨hroots, hheap⟩ := linkNode_foldl_spec (ord.enum (registerNodes list))
    (registerNodes list) []
  have hcell : ∀ k cell, mapGet (registerNodes list) k = some cell →
      cell.ID = k ∧ cell.Children = [] := by
    intro k cell hget
    obtain ⟨n, _, _, hid, hc⟩ := registerNodes_get list k cell hget
    subst hc
    exact ⟨hid, rfl⟩
  rw [hroots, List.nil_append]
  obtain ⟨f1, f2, f3⟩ := readForest_flatten (registerNodes list) (ord.enum (registerNodes list))
    _ hnd hperm hcell hheap ((registerNodes list).length + 1) 0
    (rootsOf (ord.enum (registerNodes list)))
    (rootsOf_nodup _ _ hnd hperm)
    (fun p hp => (mem_rootsOf _ _ hnd hperm p).mp hp) (by omega)
  refine ⟨f1, fun x => ?_, fun t ht => ?_⟩
  · rw [f2 x, ← atDepth_iff_below_root]
    constructor
    · rintro ⟨p, hp, hr⟩
      exact ⟨p, (mem_rootsOf _ _ hnd hperm p).mp hp, hr⟩
    · rintro ⟨p, hp, hr⟩
      exact ⟨p, (mem_rootsOf _ _ hnd hperm p).mpr hp, hr⟩
  · obtain ⟨cell, hget, hfields⟩ := f3 t ht
    obtain ⟨n, hn, hself, _, hc⟩ := registerNodes_get list _ cell hget
    subst hc
    exact ⟨n, hn, hself, hget, by simpa [roleFields] using hfields⟩

/-- C2 (counterexample). For the list `1 → 2 → 1` both nodes are neither
self-referencing nor orphans, yet neither is a root, so the forest returned by
`BuildTree` is empty. -/
theorem BuildTree_drops_parent_cycle :
    (claimedSurvivors [SysRole.mk 1 0 2 [], SysRole.mk 2 0 1 []]).map roleFields
      = [(1, 2, 0), (2, 1, 0)] ∧
    (flattenList (BuildTree insertionSorter insertionOrder
      [SysRole.mk 1 0 2 [], SysRole.mk 2 0 1 []])).map roleFields = [] ∧
    ¬ ((flattenList (BuildTree insertionSorter insertionOrder
        [SysRole.mk 1 0 2 [], SysRole.mk 2 0 1 []])).map roleFields).Perm
      ((claimedSurvivors [SysRole.mk 1 0 2 [], SysRole.mk 2 0 1 []]).map roleFields) := by
  have hsurv : (claimedSurvivors [SysRole.mk 1 0 2 [], SysRole.mk 2 0 1 []]).map roleFields
      = [(1, 2, 0), (2, 1, 0)] := by decide
  have hread : readForest
      ((insertionOrder.enum (registerNodes [SysRole.mk 1 0 2 [], SysRole.mk 2 0 1 []])).foldl
        linkNode (registerNodes [SysRole.mk 1 0 2 [], SysRole.mk 2 0 1 []], [])).1
      ((registerNodes [SysRole.mk 1 0 2 [], SysRole.mk 2 0 1 []]).length + 1)
      ((insertionOrder.enum (registerNodes [SysRole.mk 1 0 2 [], SysRole.mk 2 0 1 []])).foldl
        linkNode (registerNodes [SysRole.mk 1 0 2 [], SysRole.mk 2 0 1 []], [])).2 = [] := rfl
  have hbuild : BuildTree insertionSorter insertionOrder
      [SysRole.mk 1 0 2 [], SysRole.mk 2 0 1 []] = [] := by
    unfold BuildTree
    simp only []
    rw [hread, TreeSort_eq]
    rfl
  refine ⟨hsurv, by rw [hbuild]; rfl, ?_⟩
  rw [hbuild, hsurv]
  intro h
  have := h.length_eq
  simp [flattenList] at this

/-- C2 (amended). For a flat role list with pairwise distinct ids, flattening
the forest returned by `BuildTree` yields every id at most once, and yields
exactly the nodes of the list that are rooted: those whose chain of `ParentID`
pointers leads through nodes of the list that are not self-referencing to a
node with `ParentID == 0`. -/
theorem BuildTree_flatten_rooted (s : SliceSorter) (ord : MapOrder) (list : List SysRole)
    (hnd : (list.map SysRole.ID).Nodup) :
    (((flattenList (BuildTree s ord list)).map roleFields).map Prod.fst).Nodup ∧
    ∀ k, k ∈ (flattenList (BuildTree s ord list)).map roleFields ↔
      ∃ n ∈ list, roleFields n = k ∧ Rooted list n.ID := by
  obtain ⟨u1, u2, u3⟩ := BuildTree_unsorted_flatten ord list
  have hperm : ((flattenList (BuildTree s ord list)).map roleFields).Perm
      ((flattenList (readForest
        ((ord.enum (registerNodes list)).foldl linkNode (registerNodes list, [])).1
        ((registerNodes list).length + 1)
        ((ord.enum (registerNodes list)).foldl linkNode (registerNodes list, [])).2)).map
      roleFields) := by
    unfold BuildTree
    exact TreeSort_flatten_perm s _
  have hfst : ∀ l : List SysRole, (l.map roleFields).map Prod.fst = l.map SysRole.ID := by
    intro l
    rw [List.map_map]
    rfl
  refine ⟨?_, fun k => ?_⟩
  · rw [(hperm.map Prod.fst).nodup_iff, hfst]
    exact u1
  · rw [hperm.mem_iff, List.mem_map]
    constructor
    · rintro ⟨t, ht, rfl⟩
      obtain ⟨n, hn, _, hget, hfields⟩ := u3 t ht
      refine ⟨n, hn, hfields.symm, ?_⟩
      have hid : t.ID = n.ID := congrArg Prod.fst hfields
      obtain ⟨d, hd⟩ := (u2 t.ID).mp (List.mem_map.mpr ⟨t, ht, rfl⟩)
      exact hid ▸ rooted_of_atDepth list d _ hd
    · rintro ⟨n, hn, rfl, hrooted⟩
      obtain ⟨d, hd⟩ := atDepth_of_rooted list hnd n.ID hrooted
      obtain ⟨t, ht, hid⟩ := List.mem_map.mp ((u2 n.ID).mpr ⟨d, hd⟩)
      obtain ⟨n2, hn2, _, hget, hfields⟩ := u3 t ht
      have hid2 : t.ID = n2.ID := congrArg Prod.fst hfields
      have : n2 = n := List.inj_on_of_nodup_map hnd hn2 hn (hid2.symm.trans hid)
      subst this
      exact ⟨t, ht, hfields⟩

/-- Instance of C2 (amended) on `scenarioRoles`: the orphan 5, the
self-referencing 7 and their children 6 and 8 are dropped, the rest is kept. -/
theorem BuildTree_flatten_rooted_witness :
    (scenarioRoles.map SysRole.ID).Nodup ∧
    (flattenList (BuildTree insertionSorter insertionOrder scenarioRoles)).map roleFields
      = [(1, 0, 0), (3, 1, 2), (4, 3, 0), (2, 1, 5)] ∧
    (((flattenList (BuildTree insertionSorter insertionOrder scenarioRoles)).map
      roleFields).map Prod.fst).Nodup ∧
    ∀ k, k ∈ (flattenList (BuildTree insertionSorter insertionOrder scenarioRoles)).map
        roleFields ↔
      ∃ n ∈ scenarioRoles, roleFields n = k ∧ Rooted scenarioRoles n.ID := by
  have h4 : TreeSort insertionSorter [SysRole.mk 4 0 3 []] = [SysRole.mk 4 0 3 []] := by
    rw [TreeSort_eq]
    simp [insertionSorter, insertionSort, orderedInsert, SysRole.Children]
  have h23 : TreeSort insertionSorter
      [SysRole.mk 2 5 1 [], SysRole.mk 3 2 1 [SysRole.mk 4 0 3 []]]
      = [SysRole.mk 3 2 1 [SysRole.mk 4 0 3 []], SysRole.mk 2 5 1 []] := by
    rw [TreeSort_eq]
    simp only [List.length_cons, List.length_nil, Nat.add_one_ne_zero, if_false]
    have hs : insertionSorter.sort roleLess
        [SysRole.mk 2 5 1 [], SysRole.mk 3 2 1 [SysRole.mk 4 0 3 []]]
        = [SysRole.mk 3 2 1 [SysRole.mk 4 0 3 []], SysRole.mk 2 5 1 []] := by
      simp [insertionSorter, insertionSort, orderedInsert, roleLess, SysRole.SortKey]
    rw [hs]
    simp [SysRole.Children, SysRole.ID, SysRole.SortKey, SysRole.ParentID, h4]
  have h1 : TreeSort insertionSorter
      [SysRole.mk 1 0 0 [SysRole.mk 2 5 1 [], SysRole.mk 3 2 1 [SysRole.mk 4 0 3 []]]]
      = [SysRole.mk 1 0 0 [SysRole.mk 3 2 1 [SysRole.mk 4 0 3 []], SysRole.mk 2 5 1 []]] := by
    rw [TreeSort_eq]
    simp only [List.length_cons, List.length_nil, Nat.add_one_ne_zero, if_false]
    have hs : insertionSorter.sort roleLess
        [SysRole.mk 1 0 0 [SysRole.mk 2 5 1 [], SysRole.mk 3 2 1 [SysRole.mk 4 0 3 []]]]
        = [SysRole.mk 1 0 0 [SysRole.mk 2 5 1 [], SysRole.mk 3 2 1 [SysRole.mk 4 0 3 []]]] := by
      simp [insertionSorter, insertionSort, orderedInsert]
    rw [hs]
    simp [SysRole.Children, SysRole.ID, SysRole.SortKey, SysRole.ParentID, h23]
  have hread : readForest
      ((insertionOrder.enum (registerNodes scenarioRoles)).foldl
        linkNode (registerNodes scenarioRoles, [])).1
      ((registerNodes scenarioRoles).length + 1)
      ((insertionOrder.enum (registerNodes scenarioRoles)).foldl
        linkNode (registerNodes scenarioRoles, [])).2
      = [SysRole.mk 1 0 0 [SysRole.mk 2 5 1 [], SysRole.mk 3 2 1 [SysRole.mk 4 0 3 []]]] := rfl
  have heval : (flattenList (BuildTree insertionSorter insertionOrder scenarioRoles)).map
      roleFields = [(1, 0, 0), (3, 1, 2), (4, 3, 0), (2, 1, 5)] := by
    unfold BuildTree
    simp only []
    rw [hread, h1]
    rfl
  exact ⟨by decide, heval,
    BuildTree_flatten_rooted insertionSorter insertionOrder scenarioRoles (by decide)⟩

/-! ### `GetAllDescendantIDs`: the expanded set -/

/-- C11. On every menu table, with or without cycles among the parent
pointers, and for every request, `GetAllDescendantIDs` returns as soon as the
recursion depth allowed covers the menus and the requested ids (any `extra`
depth changes nothing); the list it returns has no duplicates and holds exactly
the requested ids and every id reached from one of them by taking children
repeatedly.  For an empty request it returns the empty list whatever the
depth. -/
theorem GetAllDescendantIDs_expanded_set (ord : MapOrder) (allMenus : List SysMenu)
    (menuIDs : List Nat) (extra : Nat) :
    (∃ res,
      GetAllDescendantIDs ord (allMenus.length + menuIDs.length + 1 + extra) allMenus menuIDs
        = some res ∧
      res.Nodup ∧ ∀ x, x ∈ res ↔ InExpandedSet allMenus menuIDs x) ∧
    GetAllDescendantIDs ord extra allMenus [] = some [] :=
  ⟨GetAllDescendantIDs_returns ord allMenus menuIDs _ (Nat.le_add_right _ _), rfl⟩

/-! ### Stability of `TreeSort` -/

/-- Two nodes that `roleLess` does not order against a node with a non-zero
`Sort` are the nodes with that `Sort`. -/
theorem roleLess_equiv_iff (x b : SysRole) (hx : x.SortKey ≠ 0) :
    (!roleLess x b && !roleLess b x) = decide (b.SortKey = x.SortKey) := by
  by_cases hb : b.SortKey = 0
  · have : ¬ b.SortKey = x.SortKey := fun h => hx (h ▸ hb)
    have h0 : ¬ (0 : Int) = x.SortKey := fun h => hx h.symm
    simp [roleLess, hx, hb, h0]
  · simp only [roleLess, hx, hb, false_and, and_false, if_false]
    by_cases h : b.SortKey = x.SortKey
    · simp [h]
    · simp only [h, decide_False]
      rcases lt_or_gt_of_ne h with h1 | h1
      · simp [h1]
      · simp [h1]


theorem withSortKey_map (f : SysRole → SysRole) (hf : ∀ n, roleFields (f n) = roleFields n)
    (k : Int) (l : List SysRole) : withSortKey k (l.map f) = withSortKey k l := by
  have hk : ∀ n, (f n).SortKey = n.SortKey := fun n => congrArg (fun t => t.2.2) (hf n)
  induction l with
  | nil => rfl
  | cons a l ih =>
    simp only [withSortKey, List.map_cons, List.filter_cons, hk] at ih ⊢
    split
    · simp only [List.map_cons, hf, ih]
    · exact ih

/-- The node that `TreeSort` puts in place of `item` has the stored fields of
`item`. -/
theorem roleFields_sortedItem (s : SliceSorter) (item : SysRole) :
    roleFields (if 0 < item.Children.length then
        SysRole.mk item.ID item.SortKey item.ParentID (TreeSort s item.Children)
      else item) = roleFields item := by
  split <;> rfl

/-- The inner loop of `insertionSort_func` moves no element past one that
`lt` does not order against it. -/
theorem sinkLeft_filter {β : Type} (lt : β → β → Bool) (hw : StrictWeak lt)
    (c x : β) (sortedPrefix : List β) :
    (sinkLeft lt x sortedPrefix).filter (fun b => !lt c b && !lt b c)
      = (x :: sortedPrefix).filter (fun b => !lt c b && !lt b c) := by
  induction sortedPrefix with
  | nil => rfl
  | cons y ys ih =>
    simp only [sinkLeft]
    split
    · rename_i hxy
      rw [List.filter_cons, ih]
      by_cases hy : (!lt c y && !lt y c) = true
      · have hy2 := hy
        simp only [Bool.and_eq_true, Bool.not_eq_true'] at hy2
        obtain ⟨hy1, _⟩ := hy2
        have hx : (!lt c x && !lt x c) = false := by
          cases hxc : lt x c with
          | true => simp
          | false =>
            have := hw.negTrans x c y hxc hy1
            rw [hxy] at this
            cases this
        simp [List.filter_cons, hy, hx]
      · simp [List.filter_cons, hy]
    · rfl

/-- `insertionSort_func` is stable: the elements that `lt` does not order
against `c` leave it in the order in which they entered. -/
theorem insertionSort_func_filter {β : Type} (lt : β → β → Bool) (hw : StrictWeak lt)
    (c : β) (l : List β) :
    (insertionSort_func lt l).filter (fun b => !lt c b && !lt b c)
      = l.filter (fun b => !lt c b && !lt b c) := by
  have hfold : ∀ (l acc : List β),
      (l.foldl (fun sortedPrefix x => sinkLeft lt x sortedPrefix) acc).filter
          (fun b => !lt c b && !lt b c)
        = (l.reverse ++ acc).filter (fun b => !lt c b && !lt b c) := by
    intro l
    induction l with
    | nil => intro acc; rfl
    | cons x rest ih =>
      intro acc
      rw [List.foldl_cons, ih, List.filter_append, sinkLeft_filter lt hw, ← List.filter_append,
        List.reverse_cons, List.append_assoc, List.singleton_append]
  rw [insertionSort_func, List.filter_reverse, hfold l [], List.append_nil, List.filter_reverse,
    List.reverse_reverse]

/-- On a sibling group of at most 12 nodes `sort.Slice` keeps the nodes of an
equal non-zero `Sort` in their input order. -/
theorem withSortKey_goSorter (other : SliceSorter) (k : Int) (hk : k ≠ 0)
    (l : List SysRole) (hlen : l.length ≤ 12) :
    withSortKey k ((goSorter other).sort roleLess l) = withSortKey k l := by
  have hsort : (goSorter other).sort roleLess l = insertionSort_func roleLess l := by
    show (if l.length ≤ 12 then insertionSort_func roleLess l else _) = _
    rw [if_pos hlen]
  have h := insertionSort_func_filter roleLess roleLess_strictWeak (SysRole.mk 0 k 0 []) l
  have hfun : (fun b => !roleLess (SysRole.mk 0 k 0 []) b && !roleLess b (SysRole.mk 0 k 0 []))
      = (fun n => decide (n.SortKey = k)) := by
    funext b
    exact roleLess_equiv_iff (SysRole.mk 0 k 0 []) b hk
  rw [hfun] at h
  simp only [withSortKey, hsort, h]

/-- C18 (as stated). Thirteen siblings, the first twelve of `Sort` 5, the last
of `Sort` 1: `sort.Slice` takes the quicksort path, whose partition first swaps
the pivot (node 7) to the front and then the last node with node 2.  `TreeSort`
returns the nodes of `Sort` 5 as 7, 3, 4, 5, 6, 1, 8, ..., 12, 2, not in their
input order 1, 2, ..., 12. -/
theorem TreeSort_reorders_equal_siblings :
    (scenarioThirteen.map roleFields).map Prod.fst = [1, 2, 3, 4, 5, 6, 7, 8, 9, 10, 11, 12, 13] ∧
    sortPositions roleLess scenarioThirteen
      = some [12, 6, 2, 3, 4, 5, 0, 7, 8, 9, 10, 11, 1] ∧
    (∀ other : SliceSorter,
      TreeSort (goSorter other) scenarioThirteen
        = [SysRole.mk 13 1 0 [], SysRole.mk 7 5 0 [], SysRole.mk 3 5 0 [], SysRole.mk 4 5 0 [],
          SysRole.mk 5 5 0 [], SysRole.mk 6 5 0 [], SysRole.mk 1 5 0 [], SysRole.mk 8 5 0 [],
          SysRole.mk 9 5 0 [], SysRole.mk 10 5 0 [], SysRole.mk 11 5 0 [],
          SysRole.mk 12 5 0 [], SysRole.mk 2 5 0 []]) ∧
    ∀ other : SliceSorter,
      withSortKey 5 (TreeSort (goSorter other) scenarioThirteen)
        ≠ withSortKey 5 scenarioThirteen := by
  have heval : ∀ other : SliceSorter,
      TreeSort (goSorter other) scenarioThirteen
        = [SysRole.mk 13 1 0 [], SysRole.mk 7 5 0 [], SysRole.mk 3 5 0 [], SysRole.mk 4 5 0 [],
          SysRole.mk 5 5 0 [], SysRole.mk 6 5 0 [], SysRole.mk 1 5 0 [], SysRole.mk 8 5 0 [],
          SysRole.mk 9 5 0 [], SysRole.mk 10 5 0 [], SysRole.mk 11 5 0 [],
          SysRole.mk 12 5 0 [], SysRole.mk 2 5 0 []] := by
    intro other
    have hs : (goSorter other).sort roleLess scenarioThirteen
        = [SysRole.mk 13 1 0 [], SysRole.mk 7 5 0 [], SysRole.mk 3 5 0 [], SysRole.mk 4 5 0 [],
          SysRole.mk 5 5 0 [], SysRole.mk 6 5 0 [], SysRole.mk 1 5 0 [], SysRole.mk 8 5 0 [],
          SysRole.mk 9 5 0 [], SysRole.mk 10 5 0 [], SysRole.mk 11 5 0 [],
          SysRole.mk 12 5 0 [], SysRole.mk 2 5 0 []] := rfl
    rw [TreeSort_eq, hs]
    rfl
  refine ⟨by decide, by decide, heval, fun other h => ?_⟩
  rw [heval other] at h
  revert h
  decide

/-- C18 (amended). Every sibling group of the result of `TreeSort` is a
rearrangement of a sibling group of the input, and when that group has at most
12 nodes, the size up to which `sort.Slice` sorts by insertion, the nodes of
every non-zero `Sort` value stand in their input order. -/
theorem TreeSort_stable_up_to_twelve (other : SliceSorter) (list : List SysRole) :
    ∀ g ∈ siblingGroups (TreeSort (goSorter other) list), ∃ g0 ∈ siblingGroups list,
      (g.map roleFields).Perm (g0.map roleFields) ∧
      (g0.length ≤ 12 → ∀ k : Int, k ≠ 0 → withSortKey k g = withSortKey k g0) := by
  obtain ⟨n, hsz⟩ : ∃ n, sizeOf list = n := ⟨_, rfl⟩
  induction n using Nat.strong_induction_on generalizing list with
  | _ n ih =>
    subst hsz
    intro g hg
    rw [TreeSort_eq] at hg
    split at hg
    · rename_i hlen
      have : list = [] := List.length_eq_zero.mp hlen
      subst this
      simp [siblingGroups, groupsOfList] at hg
      subst hg
      exact ⟨[], by simp [siblingGroups], List.Perm.refl _, fun _ _ _ => rfl⟩
    · simp only [siblingGroups, List.mem_cons, mem_groupsOfList, List.mem_map] at hg
      rcases hg with rfl | ⟨n, ⟨item, hitem, rfl⟩, hgn⟩
      · refine ⟨list, List.mem_cons_self _ _, ?_, ?_⟩
        · rw [List.map_map]
          have hfun : (roleFields ∘ fun item : SysRole =>
              if 0 < item.Children.length then
                SysRole.mk item.ID item.SortKey item.ParentID
                  (TreeSort (goSorter other) item.Children)
              else item) = roleFields := by
            funext item
            exact roleFields_sortedItem (goSorter other) item
          rw [hfun]
          exact ((goSorter other).perm roleLess list).map _
        · intro hlen k hk
          rw [withSortKey_map _ (roleFields_sortedItem (goSorter other)),
            withSortKey_goSorter other k hk list hlen]
      · have hmem : item ∈ list := ((goSorter other).perm roleLess list).mem_iff.mp hitem
        have h1 := List.sizeOf_lt_of_mem hmem
        have hsub : ∀ g0, g0 ∈ groupsOfNode item → g0 ∈ siblingGroups list := fun g0 h0 =>
          List.mem_cons_of_mem _ ((mem_groupsOfList g0 list).mpr ⟨item, hmem, h0⟩)
        cases item with
        | mk i k p c =>
          simp only [SysRole.Children, SysRole.ID, SysRole.SortKey, SysRole.ParentID] at hgn
          have h2 : sizeOf c < sizeOf list := by
            simp only [SysRole.mk.sizeOf_spec] at h1; omega
          split at hgn
          · simp only [groupsOfNode, List.mem_cons] at hgn
            obtain ⟨g0, hg0, hp, hst⟩ :=
              ih _ h2 c rfl g (by simpa [siblingGroups] using hgn)
            exact ⟨g0, hsub g0 (by simpa [groupsOfNode, siblingGroups] using hg0), hp, hst⟩
          · exact ⟨g, hsub g hgn, List.Perm.refl _, fun _ _ _ => rfl⟩

/-- Instance of C18 (amended): three siblings, 1 and 2 of equal `Sort` 5; they
stay in their input order. -/
theorem TreeSort_stable_up_to_twelve_witness :
    TreeSort (goSorter insertionSorter)
        [SysRole.mk 1 5 0 [], SysRole.mk 3 2 0 [], SysRole.mk 2 5 0 []]
      = [SysRole.mk 3 2 0 [], SysRole.mk 1 5 0 [], SysRole.mk 2 5 0 []] ∧
    [SysRole.mk 3 2 0 [], SysRole.mk 1 5 0 [], SysRole.mk 2 5 0 []]
      ∈ siblingGroups (TreeSort (goSorter insertionSorter)
        [SysRole.mk 1 5 0 [], SysRole.mk 3 2 0 [], SysRole.mk 2 5 0 []]) ∧
    ∃ g0 ∈ siblingGroups [SysRole.mk 1 5 0 [], SysRole.mk 3 2 0 [], SysRole.mk 2 5 0 []],
      (([SysRole.mk 3 2 0 [], SysRole.mk 1 5 0 [], SysRole.mk 2 5 0 []]).map roleFields).Perm
        (g0.map roleFields) ∧
      (g0.length ≤ 12 → ∀ k : Int, k ≠ 0 →
        withSortKey k [SysRole.mk 3 2 0 [], SysRole.mk 1 5 0 [], SysRole.mk 2 5 0 []]
          = withSortKey k g0) := by
  have heval : TreeSort (goSorter insertionSorter)
      [SysRole.mk 1 5 0 [], SysRole.mk 3 2 0 [], SysRole.mk 2 5 0 []]
      = [SysRole.mk 3 2 0 [], SysRole.mk 1 5 0 [], SysRole.mk 2 5 0 []] := by
    have hs : (goSorter insertionSorter).sort roleLess
        [SysRole.mk 1 5 0 [], SysRole.mk 3 2 0 [], SysRole.mk 2 5 0 []]
        = [SysRole.mk 3 2 0 [], SysRole.mk 1 5 0 [], SysRole.mk 2 5 0 []] := rfl
    rw [TreeSort_eq, hs]
    rfl
  have hmem : [SysRole.mk 3 2 0 [], SysRole.mk 1 5 0 [], SysRole.mk 2 5 0 []]
      ∈ siblingGroups (TreeSort (goSorter insertionSorter)
        [SysRole.mk 1 5 0 [], SysRole.mk 3 2 0 [], SysRole.mk 2 5 0 []]) := by
    rw [heval]
    exact List.mem_cons_self _ _
  exact ⟨heval, hmem, TreeSort_stable_up_to_twelve insertionSorter _ _ hmem⟩

/-! ### `Update` -/

/-- The parent block of `Update` returns on every table whose parent cycles, if
any, pass through the menu being updated. -/
theorem updateParentCheck_returns (db : Store) (req : SysMenuUpdateRequest)
    (hac : MenuAcyclicAvoiding db.menus req.ID) :
    ∃ r, updateParentCheck (db.menus.length + 1) db req = some r := by
  obtain ⟨b, hb⟩ := checkParent_terminates db.menus req.ID hac req.ParentID
  unfold updateParentCheck
  by_cases h0 : 0 < req.ParentID
  · rw [if_pos h0]
    by_cases hself : req.ParentID = req.ID
    · rw [if_pos hself]
      exact ⟨_, rfl⟩
    · rw [if_neg hself]
      have hp : req.ParentID ≠ 0 := by omega
      cases b with
      | true =>
        simp only [checkCircularReference, hp, hb, if_false]
        exact ⟨_, rfl⟩
      | false =>
        simp only [checkCircularReference, hp, hb, if_false]
        split
        · exact ⟨_, rfl⟩
        · split
          · split <;> exact ⟨_, rfl⟩
          · split <;> exact ⟨_, rfl⟩
          · exact ⟨_, rfl⟩
          · exact ⟨_, rfl⟩
  · rw [if_neg h0]
    exact ⟨_, rfl⟩

/-- `Update` returns on every table whose parent cycles, if any, pass through
the menu being updated. -/
theorem Update_returns (db : Store) (req : SysMenuUpdateRequest)
    (hac : MenuAcyclicAvoiding db.menus req.ID) :
    ∃ r, Update (db.menus.length + 1) db req = some r := by
  obtain ⟨c, hc⟩ := updateParentCheck_returns db req hac
  unfold Update
  cases hf : updateFieldChecks db req with
  | some msg => exact ⟨_, rfl⟩
  | none =>
    simp only [hc]
    cases c with
    | some msg => exact ⟨_, rfl⟩
    | none => exact ⟨_, rfl⟩

/-- A row found by `ID` that is not empty carries the `ID` asked for, which is
then not zero. -/
theorem findMenu_byID (menus : List SysMenu) (k : Nat)
    (h : (findMenu menus (fun m => decide (m.ID = k))).IsEmpty = false) :
    findMenu menus (fun m => decide (m.ID = k)) ∈ menus ∧
    (findMenu menus (fun m => decide (m.ID = k))).ID = k ∧ k ≠ 0 := by
  unfold findMenu at h ⊢
  cases hfind : menus.find? (fun m => decide (m.ID = k)) with
  | none =>
    rw [hfind] at h
    simp [NewSysMenu, SysMenu.IsEmpty] at h
  | some m =>
    rw [hfind] at h
    have hk : m.ID = k := by simpa using List.find?_some hfind
    have hm : m ∈ menus := List.mem_of_find?_eq_some hfind
    simp only [Option.getD_some, SysMenu.IsEmpty, beq_eq_false_iff_ne] at h ⊢
    exact ⟨hm, hk, fun h0 => h (hk.trans h0)⟩

/-- Under a Button the parent block of `Update` never lets a request pass. -/
theorem updateParentCheck_under_button (fuel : Nat) (db : Store) (req : SysMenuUpdateRequest)
    (hfound : (findMenu db.menus (fun m => decide (m.ID = req.ParentID))).IsEmpty = false)
    (hbtn : (findMenu db.menus (fun m => decide (m.ID = req.ParentID))).MenuType = MenuTypeBtn) :
    updateParentCheck fuel db req ≠ some none ∧
    (req.ParentID ≠ req.ID →
      checkCircularReference fuel db.menus req.ID req.ParentID = some (Except.ok ()) →
      updateParentCheck fuel db req = some (some "按钮下不能添加子项")) := by
  have hp : req.ParentID ≠ 0 := (findMenu_byID db.menus req.ParentID hfound).2.2
  have h0 : 0 < req.ParentID := Nat.pos_of_ne_zero hp
  unfold updateParentCheck
  rw [if_pos h0]
  constructor
  · by_cases hself : req.ParentID = req.ID
    · rw [if_pos hself]
      simp
    · rw [if_neg hself]
      cases hc : checkCircularReference fuel db.menus req.ID req.ParentID with
      | none => simp
      | some r =>
        cases r with
        | error e => simp
        | ok u =>
          simp only [hfound, hbtn, MenuTypeBtn]
          simp
  · intro hself hc
    rw [if_neg hself, hc]
    simp only [hfound, hbtn, MenuTypeBtn]
    simp

/-- C12 (as stated). On the chain `D1 → M1 → B1`, moving `M1` under the button
`B1` is rejected and the store is left as it was, but the error returned is the
circular-reference error, not the type-parentage error: `Update` runs
`checkCircularReference` before it looks at the type of the parent. -/
theorem Update_under_button_cycle_error :
    (findMenu scenarioChain (fun m => decide (m.ID = requestUnderButton.ParentID))).MenuType
      = MenuTypeBtn ∧
    Update 4 { menus := scenarioChain } requestUnderButton
      = some (Except.error "不能设置为父级菜单：会导致循环引用", { menus := scenarioChain }) ∧
    Update 4 { menus := scenarioChain } requestUnderButton
      ≠ some (Except.error "按钮下不能添加子项", { menus := scenarioChain }) := by
  decide

/-- C12 (amended). When the new parent id of a request refers to a Button,
`Update` never succeeds: whenever it returns, it returns an error and the store
is the store before the call; it does return on every table whose parent
cycles, if any, pass through the menu being updated.  The error is the one of
the first check that fails: it is the type-parentage error when the request
passes the field checks, does not name the menu itself as parent and
`checkCircularReference` finds no cycle, and it is the error of
`checkCircularReference` when that finds one. -/
theorem Update_under_button_rejected (db : Store) (req : SysMenuUpdateRequest)
    (hfound : (findMenu db.menus (fun m => decide (m.ID = req.ParentID))).IsEmpty = false)
    (hbtn : (findMenu db.menus (fun m => decide (m.ID = req.ParentID))).MenuType = MenuTypeBtn) :
    (∀ fuel r, Update fuel db req = some r → ∃ msg, r = (Except.error msg, db)) ∧
    (MenuAcyclicAvoiding db.menus req.ID →
      ∃ msg, Update (db.menus.length + 1) db req = some (Except.error msg, db)) ∧
    (∀ fuel, updateFieldChecks db req = none → req.ParentID ≠ req.ID →
      checkCircularReference fuel db.menus req.ID req.ParentID = some (Except.ok ()) →
      Update fuel db req = some (Except.error "按钮下不能添加子项", db)) ∧
    (∀ fuel e, updateFieldChecks db req = none → req.ParentID ≠ req.ID →
      checkCircularReference fuel db.menus req.ID req.ParentID = some (Except.error e) →
      Update fuel db req = some (Except.error e, db)) := by
  have hreject : ∀ fuel r, Update fuel db req = some r → ∃ msg, r = (Except.error msg, db) := by
    intro fuel r hr
    obtain ⟨hne, _⟩ := updateParentCheck_under_button fuel db req hfound hbtn
    unfold Update at hr
    cases hf : updateFieldChecks db req with
    | some msg =>
      rw [hf] at hr
      exact ⟨msg, (Option.some.inj hr).symm⟩
    | none =>
      rw [hf] at hr
      cases hc : updateParentCheck fuel db req with
      | none => rw [hc] at hr; cases hr
      | some c =>
        cases c with
        | some msg =>
          rw [hc] at hr
          exact ⟨msg, (Option.some.inj hr).symm⟩
        | none => exact absurd hc hne
  refine ⟨hreject, ?_, ?_, ?_⟩
  · intro hac
    obtain ⟨r, hr⟩ := Update_returns db req hac
    obtain ⟨msg, hmsg⟩ := hreject _ r hr
    exact ⟨msg, by rw [hr, hmsg]⟩
  · intro fuel hf hself hc
    have h := (updateParentCheck_under_button fuel db req hfound hbtn).2 hself hc
    simp only [Update, hf, h]
  · intro fuel e hf hself hc
    have hp : req.ParentID ≠ 0 := (findMenu_byID db.menus req.ParentID hfound).2.2
    have h : updateParentCheck fuel db req = some (some e) := by
      unfold updateParentCheck
      rw [if_pos (Nat.pos_of_ne_zero hp), if_neg hself, hc]
    simp only [Update, hf, h]

/-- Instance of C12 (amended): the button `B1` is asked to move under the
button `B2` of another menu, where no cycle arises. -/
theorem Update_under_button_rejected_witness :
    (findMenu scenarioMenus (fun m => decide (m.ID = 5))).IsEmpty = false ∧
    (findMenu scenarioMenus (fun m => decide (m.ID = 5))).MenuType = MenuTypeBtn ∧
    Update 6 { menus := scenarioMenus }
        { ID := 3, ParentID := 5, MenuType := 3, Permission := "user:add" }
      = some (Except.error "按钮下不能添加子项", { menus := scenarioMenus }) := by
  refine ⟨by decide, by decide, ?_⟩
  exact (Update_under_button_rejected { menus := scenarioMenus }
    { ID := 3, ParentID := 5, MenuType := 3, Permission := "user:add" }
    (by decide) (by decide)).2.2.1 6 (by decide) (by decide) (by decide)

/-- C13 (failing input). The chain `D1 → M1 → B1` satisfies the type-parentage
rule; `Update` accepts the request that turns the menu `M1` into a directory,
since it compares the new type with the type of the parent only, and the table
it leaves has the button `B1` under a directory. -/
theorem Update_retype_breaks_type_rule :
    TypeRule scenarioChain ∧
    Update 4 { menus := scenarioChain } requestRetype
      = some (Except.ok
          { ID := 2, ParentID := 1, MenuType := 1, Name := "m1", Path := "/d1/m1" },
        { menus :=
            [{ ID := 1, Name := "d1", Path := "/d1" },
              { ID := 2, ParentID := 1, MenuType := 1, Name := "m1", Path := "/d1/m1" },
              { ID := 3, ParentID := 2, MenuType := 3, Name := "b1",
                Permission := "user:add" }] }) ∧
    ¬ TypeRule
      [{ ID := 1, Name := "d1", Path := "/d1" },
        { ID := 2, ParentID := 1, MenuType := 1, Name := "m1", Path := "/d1/m1" },
        { ID := 3, ParentID := 2, MenuType := 3, Name := "b1", Permission := "user:add" }] := by
  decide

/-- Overwriting the values of a map entry by entry commutes with `mapSet`. -/
theorem mapSet_mapValues {V : Type} (f : V → V) (m : List (Nat × V)) (k : Nat) (v : V) :
    mapSet (m.map (fun e => (e.1, f e.2))) k (f v)
      = (mapSet m k v).map (fun e => (e.1, f e.2)) := by
  induction m with
  | nil => rfl
  | cons e rest ih =>
    obtain ⟨k1, v1⟩ := e
    simp only [List.map_cons, mapSet]
    split
    · rfl
    · rw [ih]
      rfl

theorem mapGet_mapValues {V : Type} (f : V → V) (m : List (Nat × V)) (k : Nat) :
    mapGet (m.map (fun e => (e.1, f e.2))) k = (mapGet m k).map f := by
  induction m with
  | nil => rfl
  | cons e rest ih =>
    obtain ⟨k1, v1⟩ := e
    simp only [List.map_cons, mapGet]
    split
    · rfl
    · exact ih

/-- The `menuMap` of a table whose rows were rewritten by a function that
keeps every `ID`. -/
theorem buildMenuMap_map (f : SysMenu → SysMenu) (hid : ∀ m, (f m).ID = m.ID)
    (menus : List SysMenu) (a : Nat) :
    mapGet (buildMenuMap (menus.map f)) a = (mapGet (buildMenuMap menus) a).map f := by
  have hgen : ∀ (menus : List SysMenu) (acc : List (Nat × SysMenu)),
      (menus.map f).foldl (fun m menu => mapSet m menu.ID menu)
          (acc.map (fun e => (e.1, f e.2)))
        = (menus.foldl (fun m menu => mapSet m menu.ID menu) acc).map
          (fun e => (e.1, f e.2)) := by
    intro menus
    induction menus with
    | nil => intro acc; rfl
    | cons x rest ih =>
      intro acc
      simp only [List.map_cons, List.foldl_cons]
      rw [hid, mapSet_mapValues, ih]
  have h := hgen menus []
  simp only [List.map_nil] at h
  rw [buildMenuMap, h, mapGet_mapValues]
  rfl

/-- The upward steps of the table after `Save`: the steps of the old table that
do not start at the saved menu, and the step from the saved menu to its new
parent. -/
theorem menuStep_saveMenu (menus : List SysMenu) (u : SysMenu) (a b : Nat)
    (h : MenuStep (saveMenu menus u) a b) :
    (a ≠ u.ID ∧ MenuStep menus a b) ∨ (a = u.ID ∧ b = u.ParentID) := by
  obtain ⟨ha, hb, menu2, hget, hpar⟩ := h
  have hid : ∀ m : SysMenu, (if m.ID = u.ID then u else m).ID = m.ID := by
    intro m
    split
    · rename_i hm; exact hm.symm
    · rfl
  rw [saveMenu, buildMenuMap_map _ hid] at hget
  cases hold : mapGet (buildMenuMap menus) a with
  | none => rw [hold] at hget; cases hget
  | some menu =>
    rw [hold] at hget
    simp only [Option.map_some', Option.some.injEq] at hget
    have hmid : menu.ID = a := (buildMenuMap_get menus a menu hold).2
    by_cases hk : a = u.ID
    · right
      rw [if_pos (hmid.trans hk)] at hget
      exact ⟨hk, by rw [← hpar, ← hget]⟩
    · left
      rw [if_neg (fun h => hk (hmid.symm.trans h))] at hget
      exact ⟨hk, ha, hb, menu, hold, by rw [hget]; exact hpar⟩

/-- Redirecting the edge that leaves `k` to a node `P` from which `k` is not
reached creates no cycle. -/
theorem transGen_no_new_cycle {R S : Nat → Nat → Prop} (k P : Nat)
    (hstep : ∀ a b, S a b → (a ≠ k ∧ R a b) ∨ (a = k ∧ b = P))
    (hac : ∀ a, ¬ Relation.TransGen R a a) (hno : ¬ Relation.ReflTransGen R P k) :
    ∀ a, ¬ Relation.TransGen S a a := by
  have hfrom : ∀ y, Relation.ReflTransGen S P y → Relation.ReflTransGen R P y := by
    intro y hy
    induction hy with
    | refl => exact Relation.ReflTransGen.refl
    | tail _ hs ih =>
      rcases hstep _ _ hs with ⟨_, hr⟩ | ⟨hk, _⟩
      · exact ih.tail hr
      · exact absurd (hk ▸ ih) hno
  have hsplit : ∀ x y, Relation.TransGen S x y →
      Relation.TransGen R x y ∨ (Relation.ReflTransGen S x k ∧ Relation.ReflTransGen S P y) := by
    intro x y hxy
    induction hxy with
    | single hs =>
      rcases hstep _ _ hs with ⟨_, hr⟩ | ⟨hk, hb⟩
      · exact Or.inl (Relation.TransGen.single hr)
      · subst hk; subst hb
        exact Or.inr ⟨Relation.ReflTransGen.refl, Relation.ReflTransGen.refl⟩
    | tail hxb hs ih =>
      rcases ih with hr | ⟨h1, h2⟩
      · rcases hstep _ _ hs with ⟨_, hr2⟩ | ⟨hk, hb⟩
        · exact Or.inl (hr.tail hr2)
        · subst hk; subst hb
          exact Or.inr ⟨hxb.to_reflTransGen, Relation.ReflTransGen.refl⟩
      · exact Or.inr ⟨h1, h2.tail hs⟩
  intro a haa
  rcases hsplit a a haa with hr | ⟨h1, h2⟩
  · exact hac a hr
  · exact hno (hfrom k (h2.trans h1))

/-- What a request that passes the parent block of `Update` has shown: the new
parent is 0, or it is another menu from which the updated menu is not
reached. -/
theorem updateParentCheck_pass (fuel : Nat) (db : Store) (req : SysMenuUpdateRequest)
    (h : updateParentCheck fuel db req = some none) :
    req.ParentID = 0 ∨
      (req.ParentID ≠ req.ID ∧
        ¬ Relation.ReflTransGen (MenuStep db.menus) req.ParentID req.ID) := by
  unfold updateParentCheck at h
  by_cases h0 : 0 < req.ParentID
  · right
    rw [if_pos h0] at h
    by_cases hself : req.ParentID = req.ID
    · rw [if_pos hself] at h
      cases h
    · rw [if_neg hself] at h
      refine ⟨hself, ?_⟩
      have hp : req.ParentID ≠ 0 := by omega
      unfold checkCircularReference at h
      rw [if_neg hp] at h
      cases hc : checkParent (buildMenuMap db.menus) req.ID fuel req.ParentID with
      | none => rw [hc] at h; cases h
      | some b =>
        cases b with
        | true => rw [hc] at h; cases h
        | false =>
          intro hreach
          have := (checkParent_spec db.menus req.ID fuel req.ParentID false hc hp).mpr hreach
          cases this
  · left
    omega

/-- No upward walk starts at 0. -/
theorem not_reflTransGen_menuStep_zero (menus : List SysMenu) (k : Nat) (hk : k ≠ 0) :
    ¬ Relation.ReflTransGen (MenuStep menus) 0 k := by
  intro h
  rcases Relation.ReflTransGen.cases_head h with h0 | ⟨c, hs, _⟩
  · exact hk h0.symm
  · exact hs.1 rfl

/-- C14. On a menu table without parent cycles `Update` returns, and whatever
it returns, the table it leaves has no parent cycle (no self-reference
included); a request whose new parent id is the id of the menu itself is
rejected with an error on every table, the store staying as it was. -/
theorem Update_preserves_acyclic (db : Store) (req : SysMenuUpdateRequest)
    (hac : MenuAcyclic db.menus) :
    (∃ r, Update (db.menus.length + 1) db req = some r) ∧
    (∀ fuel r, Update fuel db req = some r → MenuAcyclic r.2.menus) ∧
    (req.ParentID = req.ID →
      ∀ fuel, ∃ msg, Update fuel db req = some (Except.error msg, db)) := by
  refine ⟨Update_returns db req (menuAcyclicAvoiding_of_acyclic db.menus req.ID hac), ?_, ?_⟩
  · intro fuel r hr
    unfold Update at hr
    cases hf : updateFieldChecks db req with
    | some msg =>
      rw [hf] at hr
      rw [← Option.some.inj hr]
      exact hac
    | none =>
      rw [hf] at hr
      cases hc : updateParentCheck fuel db req with
      | none => rw [hc] at hr; cases hr
      | some c =>
        rw [hc] at hr
        cases c with
        | some msg =>
          rw [← Option.some.inj hr]
          exact hac
        | none =>
          rw [← Option.some.inj hr]
          have hex : (findMenu db.menus (fun m => decide (m.ID = req.ID))).IsEmpty = false := by
            unfold updateFieldChecks at hf
            cases he : (findMenu db.menus (fun m => decide (m.ID = req.ID))).IsEmpty with
            | false => rfl
            | true => rw [he] at hf; simp at hf
          obtain ⟨_, hid, hk⟩ := findMenu_byID db.menus req.ID hex
          have huid : (updatedMenu db req).ID = req.ID := hid
          have hupar : (updatedMenu db req).ParentID = req.ParentID := rfl
          have hno : ¬ Relation.ReflTransGen (MenuStep db.menus) req.ParentID req.ID := by
            rcases updateParentCheck_pass fuel db req hc with h0 | ⟨_, h1⟩
            · rw [h0]
              exact not_reflTransGen_menuStep_zero db.menus req.ID hk
            · exact h1
          refine transGen_no_new_cycle req.ID req.ParentID ?_ hac hno
          intro a b hs
          have := menuStep_saveMenu db.menus (updatedMenu db req) a b hs
          rwa [huid, hupar] at this
  · intro hself fuel
    unfold Update
    cases hf : updateFieldChecks db req with
    | some msg => exact ⟨msg, rfl⟩
    | none =>
      have hex : (findMenu db.menus (fun m => decide (m.ID = req.ID))).IsEmpty = false := by
        unfold updateFieldChecks at hf
        cases he : (findMenu db.menus (fun m => decide (m.ID = req.ID))).IsEmpty with
        | false => rfl
        | true => rw [he] at hf; simp at hf
      obtain ⟨_, _, hk⟩ := findMenu_byID db.menus req.ID hex
      have h0 : 0 < req.ParentID := by omega
      have hc : updateParentCheck fuel db req = some (some "不能将自己设置为父级菜单") := by
        unfold updateParentCheck
        rw [if_pos h0, if_pos hself]
      simp only [hc]
      exact ⟨_, rfl⟩

/-- Instance of C14: `M2` is moved under `D1` in the scenario table, which has
no parent cycle before and none after. -/
theorem Update_preserves_acyclic_witness :
    MenuAcyclic scenarioMenus ∧
    Update 6 { menus := scenarioMenus } requestMove
      = some (Except.ok { ID := 4, ParentID := 1, MenuType := 2, Name := "m2", Path := "/m2" },
        { menus :=
            [{ ID := 1 }, { ID := 2, ParentID := 1, MenuType := 2 },
              { ID := 3, ParentID := 2, MenuType := 3, Permission := "user:add" },
              { ID := 4, ParentID := 1, MenuType := 2, Name := "m2", Path := "/m2" },
              { ID := 5, ParentID := 4, MenuType := 3 }] }) ∧
    (∃ r, Update (scenarioMenus.length + 1) { menus := scenarioMenus } requestMove = some r) ∧
    (∀ fuel r, Update fuel { menus := scenarioMenus } requestMove = some r →
      MenuAcyclic r.2.menus) ∧
    (requestMove.ParentID = requestMove.ID →
      ∀ fuel, ∃ msg, Update fuel { menus := scenarioMenus } requestMove
        = some (Except.error msg, { menus := scenarioMenus })) :=
  ⟨menuAcyclic_of_rank _ id (by decide), by decide,
    Update_preserves_acyclic { menus := scenarioMenus } requestMove
      (menuAcyclic_of_rank _ id (by decide))⟩

/-! ### `GetUserProfile` -/

/-- The keys of `permissionSet`: the permissions of the button menus, each
once. -/
theorem permissionSetOf_spec (buttonMenus : List SysMenu) :
    (permissionSetOf buttonMenus).Nodup ∧
    ∀ p, p ∈ permissionSetOf buttonMenus ↔ ∃ m ∈ buttonMenus, m.Permission = p := by
  have hgen : ∀ (l : List SysMenu) (init : List String), init.Nodup →
      (l.foldl (fun keys menu =>
          if menu.Permission ∈ keys then keys else keys ++ [menu.Permission]) init).Nodup ∧
      ∀ p, p ∈ l.foldl (fun keys menu =>
          if menu.Permission ∈ keys then keys else keys ++ [menu.Permission]) init ↔
        (p ∈ init ∨ ∃ m ∈ l, m.Permission = p) := by
    intro l
    induction l with
    | nil => intro init h; exact ⟨h, by simp⟩
    | cons a rest ih =>
      intro init h
      simp only [List.foldl_cons]
      by_cases hin : a.Permission ∈ init
      · rw [if_pos hin]
        obtain ⟨h1, h2⟩ := ih init h
        refine ⟨h1, fun p => ?_⟩
        rw [h2 p]
        simp only [List.mem_cons, exists_eq_or_imp]
        constructor
        · rintro (h | h)
          · exact Or.inl h
          · exact Or.inr (Or.inr h)
        · rintro (h | h | h)
          · exact Or.inl h
          · exact Or.inl (h ▸ hin)
          · exact Or.inr h
      · rw [if_neg hin]
        have hnd : (init ++ [a.Permission]).Nodup :=
          List.Nodup.append h (List.nodup_singleton _) (by simpa using hin)
        obtain ⟨h1, h2⟩ := ih _ hnd
        refine ⟨h1, fun p => ?_⟩
        rw [h2 p]
        simp only [List.mem_append, List.mem_singleton, List.mem_cons, exists_eq_or_imp,
          List.not_mem_nil, or_false]
        constructor
        · rintro ((h | h) | h)
          · exact Or.inl h
          · exact Or.inr (Or.inl h.symm)
          · exact Or.inr (Or.inr h)
        · rintro (h | h | h)
          · exact Or.inl (Or.inl h)
          · exact Or.inl (Or.inr h.symm)
          · exact Or.inr h
  obtain ⟨h1, h2⟩ := hgen buttonMenus [] List.nodup_nil
  exact ⟨h1, fun p => by rw [permissionSetOf, h2 p]; simp⟩

/-- What `GetUserProfile` returns for an existing user outside the bypass list:
never an error, and a duplicate-free list of exactly the non-empty permissions
of the Button menus linked to a role of the ancestor closure of the roles of
the user. -/
theorem GetUserProfile_spec (ordRoles ordPerms : MapOrder) (fuel : Nat) (skipAuth : List Nat)
    (db : Store) (auth : AuthTables) (userID : Nat)
    (hexists : (findUser auth.users (fun u => decide (u.ID = userID))).IsEmpty = false)
    (hskip : userID ∉ skipAuth) (r : Except String (List String))
    (hr : GetUserProfile ordRoles ordPerms fuel skipAuth db auth userID = some r) :
    ∃ perms, r = Except.ok perms ∧ perms.Nodup ∧
      ∀ p, p ∈ perms ↔
        ∃ m ∈ db.menus, m.MenuType = MenuTypeBtn ∧ m.Permission ≠ "" ∧ m.Permission = p ∧
          ∃ l ∈ db.roleMenus, l.MenuID = m.ID ∧
            InRoleClosure auth.allRoles
              (GetRoleIDs (preloadRoles auth
                (findUser auth.users (fun u => decide (u.ID = userID))))) l.RoleID := by
  have hskip2 : IsSkipAuthUser skipAuth userID = false := by simp [IsSkipAuthUser, hskip]
  unfold GetUserProfile at hr
  simp only [hexists, hskip2, Bool.false_eq_true, if_false] at hr
  split at hr
  · rename_i hlen
    cases hanc : GetAllAncestorRoleIDs ordRoles fuel auth.allRoles
        (GetRoleIDs (preloadRoles auth
          (findUser auth.users (fun u => decide (u.ID = userID))))) with
    | none => rw [hanc] at hr; cases hr
    | some roleIDs =>
      rw [hanc] at hr
      obtain ⟨_, hmem⟩ := GetAllAncestorRoleIDs_spec ordRoles fuel _ _ roleIDs hanc
      simp only at hr
      split at hr
      · rename_i hpos
        obtain ⟨hnd, hkeys⟩ := permissionSetOf_spec (db.menus.filter (fun m : SysMenu =>
          decide (m.ID ∈ (db.roleMenus.filter (fun l => decide (l.RoleID ∈ roleIDs))).map
            (fun roleMenu => roleMenu.MenuID) ∧ m.MenuType = MenuTypeBtn ∧ m.Permission ≠ "")))
        refine ⟨_, (Option.some.inj hr).symm, (ordPerms.perm _).nodup_iff.mpr hnd, fun p => ?_⟩
        rw [(ordPerms.perm _).mem_iff, hkeys p]
        constructor
        · rintro ⟨m, hm, hp⟩
          simp only [List.mem_filter, decide_eq_true_eq, List.mem_map] at hm
          obtain ⟨hm1, ⟨l, ⟨hl1, hl2⟩, hl3⟩, hm3, hm4⟩ := hm
          exact ⟨m, hm1, hm3, hm4, hp, l, hl1, hl3, (hmem _).mp hl2⟩
        · rintro ⟨m, hm1, hm3, hm4, hp, l, hl1, hl3, hl2⟩
          refine ⟨m, ?_, hp⟩
          simp only [List.mem_filter, decide_eq_true_eq, List.mem_map]
          exact ⟨hm1, ⟨l, ⟨hl1, (hmem _).mpr hl2⟩, hl3⟩, hm3, hm4⟩
      · rename_i hpos
        refine ⟨[], (Option.some.inj hr).symm, List.nodup_nil, fun p => ?_⟩
        constructor
        · intro h; cases h
        · rintro ⟨m, _, _, _, _, l, hl1, _, hl2⟩
          exfalso
          apply hpos
          exact List.length_pos_of_mem
            (List.mem_filter.mpr ⟨hl1, by simpa using (hmem _).mpr hl2⟩)
  · rename_i hlen
    have hnil : preloadRoles auth (findUser auth.users (fun u => decide (u.ID = userID))) = [] := by
      apply List.length_eq_zero.mp
      simpa using hlen
    refine ⟨[], (Option.some.inj hr).symm, List.nodup_nil, fun p => ?_⟩
    constructor
    · intro h; cases h
    · rintro ⟨m, _, _, _, _, l, _, _, hl2⟩
      rw [hnil] at hl2
      rcases hl2 with h | ⟨r0, h, _⟩
      · simp [GetRoleIDs] at h
      · simp [GetRoleIDs] at h

/-- `GetUserProfile` returns when no ancestor chain of a role of the user runs
into a cycle. -/
theorem GetUserProfile_returns (ordRoles ordPerms : MapOrder) (skipAuth : List Nat)
    (db : Store) (auth : AuthTables) (userID : Nat)
    (hac : RoleChainsAcyclic auth.allRoles
      (GetRoleIDs (preloadRoles auth (findUser auth.users (fun u => decide (u.ID = userID)))))) :
    ∃ r, GetUserProfile ordRoles ordPerms (auth.allRoles.length + 1) skipAuth db auth userID
      = some r := by
  obtain ⟨res, hres⟩ := GetAllAncestorRoleIDs_terminates ordRoles auth.allRoles _ hac
  unfold GetUserProfile
  simp only
  split
  · exact ⟨_, rfl⟩
  · split
    · exact ⟨_, rfl⟩
    · split
      · rw [hres]
        simp only
        split <;> exact ⟨_, rfl⟩
      · exact ⟨_, rfl⟩

/-- C15 (as stated). User 9 exists, is on no bypass list and holds role 1 of
the role cycle `1 → 2 → 1`: `GetUserProfile` computes no permission list at
all, since the ancestor walk it starts never returns, whatever the fuel. -/
theorem GetUserProfile_diverges_on_role_cycle :
    (findUser scenarioAuthCycle.users (fun u => decide (u.ID = 9))).IsEmpty = false ∧
    ¬ ∃ fuel r, GetUserProfile insertionOrder insertionOrder fuel []
        scenarioStoreButtonOnly scenarioAuthCycle 9 = some r := by
  refine ⟨by decide, ?_⟩
  rintro ⟨fuel, r, h⟩
  have hroles : GetRoleIDs (preloadRoles scenarioAuthCycle
      (findUser scenarioAuthCycle.users (fun u => decide (u.ID = 9)))) = [1] := by decide
  have hall : scenarioAuthCycle.allRoles = [SysRole.mk 1 0 2 [], SysRole.mk 2 0 1 []] := rfl
  have hnone := GetAllAncestorRoleIDs_none_on_two_cycle insertionOrder fuel 1 (Or.inl rfl) []
  have hex : (findUser scenarioAuthCycle.users (fun u => decide (u.ID = 9))).IsEmpty = false := by
    decide
  have hlen : (preloadRoles scenarioAuthCycle
      (findUser scenarioAuthCycle.users (fun u => decide (u.ID = 9)))).length ≠ 0 := by decide
  unfold GetUserProfile at h
  simp only [hex, IsSkipAuthUser, List.not_mem_nil, decide_False, Bool.false_eq_true, if_false,
    hlen, ne_eq, not_false_eq_true, if_true, hroles, hall, hnone] at h
  cases h

/-- C15 (amended). For an existing user, the permissions computed by
`GetUserProfile` are exactly `["*:*:*"]` when the user is on the bypass list,
and the empty list, without error, when the user is not and has no role, on
every store.  For any other user, provided no ancestor chain of a role of the
user runs into a parent-pointer cycle, the call returns, without error, a list
without duplicates that holds exactly the non-empty `Permission` values of the
Button menus whose id appears in a RoleMenuLink of a role in the ancestor
closure of the roles of the user. -/
theorem GetUserProfile_permissions (ordRoles ordPerms : MapOrder) (skipAuth : List Nat)
    (db : Store) (auth : AuthTables) (userID : Nat)
    (hexists : (findUser auth.users (fun u => decide (u.ID = userID))).IsEmpty = false) :
    (userID ∈ skipAuth → ∀ fuel,
      GetUserProfile ordRoles ordPerms fuel skipAuth db auth userID
        = some (Except.ok ["*:*:*"])) ∧
    (userID ∉ skipAuth →
      (preloadRoles auth (findUser auth.users (fun u => decide (u.ID = userID))) = [] →
        ∀ fuel, GetUserProfile ordRoles ordPerms fuel skipAuth db auth userID
          = some (Except.ok [])) ∧
      (RoleChainsAcyclic auth.allRoles
          (GetRoleIDs (preloadRoles auth
            (findUser auth.users (fun u => decide (u.ID = userID))))) →
        ∃ perms,
          GetUserProfile ordRoles ordPerms (auth.allRoles.length + 1) skipAuth db auth userID
            = some (Except.ok perms) ∧
          perms.Nodup ∧
          ∀ p, p ∈ perms ↔
            ∃ m ∈ db.menus, m.MenuType = MenuTypeBtn ∧ m.Permission ≠ "" ∧ m.Permission = p ∧
              ∃ l ∈ db.roleMenus, l.MenuID = m.ID ∧
                InRoleClosure auth.allRoles
                  (GetRoleIDs (preloadRoles auth
                    (findUser auth.users (fun u => decide (u.ID = userID))))) l.RoleID)) := by
  refine ⟨?_, fun hskip => ⟨?_, ?_⟩⟩
  · intro hskip fuel
    have hskip2 : IsSkipAuthUser skipAuth userID = true := by simp [IsSkipAuthUser, hskip]
    unfold GetUserProfile
    simp only [hexists, hskip2, Bool.false_eq_true, if_false, if_true]
  · intro hnil fuel
    have hskip2 : IsSkipAuthUser skipAuth userID = false := by simp [IsSkipAuthUser, hskip]
    unfold GetUserProfile
    simp only [hexists, hskip2, Bool.false_eq_true, if_false, hnil, List.length_nil, ne_eq,
      not_true_eq_false]
  · intro hac
    obtain ⟨r, hr⟩ := GetUserProfile_returns ordRoles ordPerms skipAuth db auth userID hac
    obtain ⟨perms, hperms, hnd, hmem⟩ :=
      GetUserProfile_spec ordRoles ordPerms _ skipAuth db auth userID hexists hskip r hr
    exact ⟨perms, by rw [hr, hperms], hnd, hmem⟩

/-- Instance of C15 (amended): user 9 holds role 7 only, and the button `B1` is
linked to role 8, the parent of role 7; the permission of `B1` reaches the user
through the ancestor closure. -/
theorem GetUserProfile_permissions_witness :
    (findUser scenarioAuthInherit.users (fun u => decide (u.ID = 9))).IsEmpty = false ∧
    (9 : Nat) ∉ ([] : List Nat) ∧
    RoleChainsAcyclic scenarioAuthInherit.allRoles
      (GetRoleIDs (preloadRoles scenarioAuthInherit
        (findUser scenarioAuthInherit.users (fun u => decide (u.ID = 9))))) ∧
    GetUserProfile insertionOrder insertionOrder 3 [] scenarioStoreInherited
      scenarioAuthInherit 9 = some (Except.ok ["user:add"]) ∧
    GetUserProfile insertionOrder insertionOrder 3 [9] scenarioStoreInherited
      scenarioAuthInherit 9 = some (Except.ok ["*:*:*"]) ∧
    ∃ perms,
      GetUserProfile insertionOrder insertionOrder (scenarioAuthInherit.allRoles.length + 1) []
          scenarioStoreInherited scenarioAuthInherit 9
        = some (Except.ok perms) ∧
      perms.Nodup ∧
      ∀ p, p ∈ perms ↔
        ∃ m ∈ scenarioStoreInherited.menus,
          m.MenuType = MenuTypeBtn ∧ m.Permission ≠ "" ∧ m.Permission = p ∧
            ∃ l ∈ scenarioStoreInherited.roleMenus, l.MenuID = m.ID ∧
              InRoleClosure scenarioAuthInherit.allRoles
                (GetRoleIDs (preloadRoles scenarioAuthInherit
                  (findUser scenarioAuthInherit.users (fun u => decide (u.ID = 9))))) l.RoleID := by
  have hac : RoleChainsAcyclic scenarioAuthInherit.allRoles
      (GetRoleIDs (preloadRoles scenarioAuthInherit
        (findUser scenarioAuthInherit.users (fun u => decide (u.ID = 9))))) :=
    roleChainsAcyclic_of_acyclic _ _ (roleAcyclic_of_rank _ (fun x => 20 - x) (by decide))
  exact ⟨by decide, by decide, hac, by decide, by decide,
    ((GetUserProfile_permissions insertionOrder insertionOrder [] scenarioStoreInherited
      scenarioAuthInherit 9 (by decide)).2 (by decide)).2 hac⟩

/-! ### `GetRouters` -/

/-- A user found by `ID` that is not empty carries the `ID` asked for. -/
theorem findUser_byID (users : List SysUser) (k : Nat)
    (h : (findUser users (fun u => decide (u.ID = k))).IsEmpty = false) :
    (findUser users (fun u => decide (u.ID = k))).ID = k := by
  unfold findUser at h ⊢
  cases hfind : users.find? (fun u => decide (u.ID = k)) with
  | none =>
    rw [hfind] at h
    simp [SysUser.IsEmpty] at h
  | some u =>
    simpa using List.find?_some hfind

/-- The role ids that `Preload("Roles")` yields: the roles of the table that a
row of `sys_user_role` joins to the user. -/
theorem mem_preloadRoles (auth : AuthTables) (user : SysUser) (x : Nat) :
    x ∈ GetRoleIDs (preloadRoles auth user) ↔
      (∃ row ∈ auth.roles, row.role.ID = x) ∧
        ∃ l ∈ auth.userRoles, l.UserID = user.ID ∧ l.RoleID = x := by
  simp only [GetRoleIDs, preloadRoles, List.mem_map, List.mem_filter, List.any_eq_true,
    decide_eq_true_eq]
  constructor
  · rintro ⟨role, ⟨row, ⟨hrow, l, hl, hu, hr⟩, rfl⟩, rfl⟩
    exact ⟨⟨row, hrow, rfl⟩, l, hl, hu, hr⟩
  · rintro ⟨⟨row, hrow, rfl⟩, l, hl, hu, hr⟩
    exact ⟨row.role, ⟨row, ⟨hrow, l, hl, hu, hr⟩, rfl⟩, rfl⟩

/-- The closure of a list that holds the one role `r`, however often, is the
closure of `[r]`. -/
theorem inRoleClosure_single (allRoles : List SysRole) (ids : List Nat) (r x : Nat)
    (hall : ∀ y ∈ ids, y = r) (hne : r ∈ ids) :
    InRoleClosure allRoles ids x ↔ InRoleClosure allRoles [r] x := by
  unfold InRoleClosure
  constructor
  · rintro (h | ⟨y, hy, ht⟩)
    · exact Or.inl (by rw [hall x h]; exact List.mem_singleton_self _)
    · exact Or.inr ⟨r, List.mem_singleton_self _, hall y hy ▸ ht⟩
  · rintro (h | ⟨y, hy, ht⟩)
    · rw [List.mem_singleton] at h
      exact Or.inl (h ▸ hne)
    · rw [List.mem_singleton] at hy
      exact Or.inr ⟨r, hne, hy ▸ ht⟩

theorem roleChainsAcyclic_single (allRoles : List SysRole) (ids : List Nat) (r : Nat)
    (hall : ∀ y ∈ ids, y = r) (hac : RoleChainsAcyclic allRoles [r]) :
    RoleChainsAcyclic allRoles ids := by
  intro y hy
  rw [hall y hy]
  exact hac r (List.mem_singleton_self _)

/-- A duplicate-free list with a single member is the singleton. -/
theorem eq_singleton_of_nodup {α : Type} (l : List α) (a : α) (hnd : l.Nodup)
    (hmem : ∀ p, p ∈ l ↔ p = a) : l = [a] := by
  apply List.perm_singleton.mp
  rw [List.perm_ext_iff_of_nodup hnd (List.nodup_singleton a)]
  intro p
  rw [hmem p, List.mem_singleton]

/-- C16 (as stated). In the scenario store the only role of user 9 is linked
to the button `B1` and to nothing else: `GetRouters` selects no menu, whatever
builds the tree, so the forest it returns is empty and not `D1` with child
`M1`; the permissions are `user:add`. -/
theorem GetRouters_button_link_selects_nothing :
    GetRouters insertionOrder 2 (fun l => l.map (fun m => MenuNode.mk m []))
        [] scenarioStoreButtonOnly scenarioAuth (some { UserID := 9 })
      = some (Except.ok []) ∧
    (¬ ∃ buildTree, GetRouters insertionOrder 2 buildTree [] scenarioStoreButtonOnly
        scenarioAuth (some { UserID := 9 })
      = some (Except.ok
          [MenuNode.mk { ID := 1, Name := "d1", Path := "/d1" }
            [MenuNode.mk
              { ID := 2, ParentID := 1, MenuType := 2, Name := "m1", Path := "/d1/m1" } []]])) ∧
    GetUserProfile insertionOrder insertionOrder 2 [] scenarioStoreButtonOnly scenarioAuth 9
      = some (Except.ok ["user:add"]) := by
  refine ⟨rfl, ?_, by decide⟩
  rintro ⟨buildTree, h⟩
  have h0 : GetRouters insertionOrder 2 buildTree [] scenarioStoreButtonOnly
      scenarioAuth (some { UserID := 9 }) = some (Except.ok []) := rfl
  rw [h0] at h
  cases h

/-- C16 (amended). For a user off both bypass lists whose only role is linked
to the button `B1` (permission `user:add`) and to nothing else, `GetRouters`
selects no menu and returns the empty forest, since it keeps only Directory
and Menu rows whose own id appears in a RoleMenuLink; the permissions computed
by `GetUserProfile` are exactly `user:add`. -/
theorem GetRouters_button_only (ord ordPerms : MapOrder)
    (buildTree : List SysMenu → List MenuNode) (skipAuth notCheckUserIds : List Nat)
    (db : Store) (auth : AuthTables) (claims : Claims) (r b1 : Nat)
    (h : ButtonOnlyScenario db auth claims r b1)
    (hskip : claims.UserID ∉ skipAuth) (hnc : claims.UserID ∉ notCheckUserIds) :
    GetRouters ord (auth.allRoles.length + 1) buildTree notCheckUserIds db auth (some claims)
      = some (Except.ok []) ∧
    GetUserProfile ord ordPerms (auth.allRoles.length + 1) skipAuth db auth claims.UserID
      = some (Except.ok ["user:add"]) := by
  obtain ⟨l0, hl0, hl0u, hl0r⟩ := h.hasRole
  have huid := findUser_byID auth.users claims.UserID h.userExists
  constructor
  · -- the routing menus
    have hany : notCheckUserIds.any (fun userId => decide (userId = claims.UserID)) = false := by
      rw [List.any_eq_false]
      intro x hx
      simpa using fun hxe : x = claims.UserID => hnc (hxe ▸ hx)
    have hmain : ∀ list : List SysUserRole, (∀ l ∈ list, l.RoleID = r) → l0 ∈ list →
        (if list.length = 0 then some (Except.error "用户未分配角色")
        else
          match GetAllAncestorRoleIDs ord (auth.allRoles.length + 1) auth.allRoles
              (list.map (fun sur => sur.RoleID)) with
          | none => none
          | some allRoleIds =>
            (fun menuList : List SysMenu =>
              if menuList.length ≠ 0 then some (Except.ok (buildTree menuList))
              else some (Except.ok []))
              (db.menus.filter (fun m =>
                decide (m.Disable = false ∧ (m.MenuType = 1 ∨ m.MenuType = 2) ∧
                  m.ID ∈ (db.roleMenus.filter (fun l => decide (l.RoleID ∈ allRoleIds))).map
                    (fun l => l.MenuID)))))
          = some (Except.ok []) := by
      intro list hall hin
      have hlen : list.length ≠ 0 := fun h0 => by
        rw [List.length_eq_zero.mp h0] at hin
        cases hin
      rw [if_neg hlen]
      have hids : ∀ y ∈ list.map (fun sur => sur.RoleID), y = r := by
        intro y hy
        obtain ⟨l, hl, rfl⟩ := List.mem_map.mp hy
        exact hall l hl
      have hrin : r ∈ list.map (fun sur => sur.RoleID) :=
        List.mem_map.mpr ⟨l0, hin, hl0r⟩
      obtain ⟨res, hres⟩ := GetAllAncestorRoleIDs_terminates ord auth.allRoles _
        (roleChainsAcyclic_single auth.allRoles _ r hids h.acyclic)
      obtain ⟨_, hmem⟩ := GetAllAncestorRoleIDs_spec ord _ _ _ res hres
      rw [hres]
      have hnil : db.menus.filter (fun m =>
          decide (m.Disable = false ∧ (m.MenuType = 1 ∨ m.MenuType = 2) ∧
            m.ID ∈ (db.roleMenus.filter (fun l => decide (l.RoleID ∈ res))).map
              (fun l => l.MenuID))) = [] := by
        rw [List.filter_eq_nil_iff]
        intro m hm hsel
        simp only [decide_eq_true_eq, List.mem_map, List.mem_filter] at hsel
        obtain ⟨_, htype, l, ⟨hl, hlr⟩, hlm⟩ := hsel
        have hclo : InRoleClosure auth.allRoles [r] l.RoleID :=
          (inRoleClosure_single auth.allRoles _ r l.RoleID hids hrin).mp ((hmem _).mp hlr)
        have hb := (h.button m hm (hlm ▸ h.linksOnlyButton l hl hclo)).1
        rw [hb] at htype
        simp [MenuTypeBtn] at htype
      simp only [hnil, List.length_nil, ne_eq, not_true_eq_false, if_false]
    unfold GetRouters
    simp only [hany, Bool.false_eq_true, if_false]
    split
    · exact hmain _
        (fun l hl => h.onlyRole l (List.mem_filter.mp hl).1
          (by simpa using (List.mem_filter.mp hl).2))
        (List.mem_filter.mpr ⟨hl0, by simpa using hl0u⟩)
    · rename_i hten
      refine hmain _ (fun l hl => h.onlyRole l (List.mem_filter.mp hl).1 ?_)
        (List.mem_filter.mpr ⟨hl0, ?_⟩)
      · have := (List.mem_filter.mp hl).2
        simp only [decide_eq_true_eq] at this
        exact this.1
      · rcases h.tenantOk with h0 | ⟨row, hrow, hrid, hrt⟩
        · exact absurd h0 hten
        · simp only [decide_eq_true_eq, List.mem_map, List.mem_filter]
          exact ⟨hl0u, row, ⟨hrow, hrt⟩, hrid.trans hl0r.symm⟩
  · -- the permissions
    have hids : ∀ y ∈ GetRoleIDs (preloadRoles auth
        (findUser auth.users (fun u => decide (u.ID = claims.UserID)))), y = r := by
      intro y hy
      obtain ⟨_, l, hl, hu, hr⟩ := (mem_preloadRoles auth _ y).mp hy
      rw [huid] at hu
      exact hr ▸ h.onlyRole l hl hu
    have hrin : r ∈ GetRoleIDs (preloadRoles auth
        (findUser auth.users (fun u => decide (u.ID = claims.UserID)))) :=
      (mem_preloadRoles auth _ r).mpr ⟨h.roleExists, l0, hl0, by rw [huid]; exact hl0u, hl0r⟩
    obtain ⟨res, hres⟩ := GetUserProfile_returns ord ordPerms skipAuth db auth claims.UserID
      (roleChainsAcyclic_single auth.allRoles _ r hids h.acyclic)
    obtain ⟨perms, hperms, hnd, hmem⟩ := GetUserProfile_spec ord ordPerms _ skipAuth db auth
      claims.UserID h.userExists hskip res hres
    rw [hres, hperms]
    have hone : perms = ["user:add"] := by
      apply eq_singleton_of_nodup perms "user:add" hnd
      intro p
      rw [hmem p]
      constructor
      · rintro ⟨m, hm, _, _, hp, l, hl, hlm, hclo⟩
        have hclo2 := (inRoleClosure_single auth.allRoles _ r l.RoleID hids hrin).mp hclo
        have hb := (h.button m hm (hlm ▸ h.linksOnlyButton l hl hclo2)).2
        rw [← hp, hb]
      · intro hp
        obtain ⟨m, hm, hmid⟩ := h.buttonExists
        obtain ⟨l, hl, hlr, hlm⟩ := h.linked
        obtain ⟨hb1, hb2⟩ := h.button m hm hmid
        refine ⟨m, hm, hb1, ?_, by rw [hb2, hp], l, hl, hlm.trans hmid.symm, ?_⟩
        · rw [hb2]; decide
        · exact Or.inl (hlr ▸ hrin)
    rw [hone]

/-- Instance of C16 (amended): the scenario store, user 9 with role 7 linked
to `B1`. -/
theorem GetRouters_button_only_witness :
    ButtonOnlyScenario scenarioStoreButtonOnly scenarioAuth { UserID := 9 } 7 3 ∧
    GetRouters insertionOrder 2 (fun l => l.map (fun m => MenuNode.mk m []))
        [] scenarioStoreButtonOnly scenarioAuth (some { UserID := 9 })
      = some (Except.ok []) ∧
    GetUserProfile insertionOrder insertionOrder 2 [] scenarioStoreButtonOnly scenarioAuth 9
      = some (Except.ok ["user:add"]) := by
  have hs : ButtonOnlyScenario scenarioStoreButtonOnly scenarioAuth { UserID := 9 } 7 3 := by
    refine ⟨by decide, by decide, by decide, ⟨_, List.mem_singleton_self _, rfl⟩,
      Or.inl (by decide), ?_, by decide, by decide, by decide, ?_⟩
    · intro l hl _
      have : l = ⟨7, 3⟩ := by simpa [scenarioStoreButtonOnly] using hl
      rw [this]
    · exact roleChainsAcyclic_of_acyclic _ _ (roleAcyclic_of_rank _ id (by decide))
  exact ⟨hs, GetRouters_button_only insertionOrder insertionOrder _ [] []
    scenarioStoreButtonOnly scenarioAuth { UserID := 9 } 7 3 hs (by decide) (by decide)⟩

/-! ### `SetMenuApis` -/

/-- C17 (failing input). Every id of the list `[5, 5]` exists in the Api table,
yet `SetMenuApis` rejects the request as naming an Api that does not exist: the
validation compares the length of the list with the number of Api rows found,
which counts a repeated id once. -/
theorem SetMenuApis_rejects_repeated_id :
    (∀ id ∈ [5, 5], ∃ a ∈ scenarioStoreApis.apis, a.ID = id) ∧
    SetMenuApis (fun _ _ => false) scenarioStoreApis 1 [5, 5]
      = ⟨some "存在不存在的API ID", scenarioStoreApis⟩ ∧
    SetMenuApis (fun _ _ => false) scenarioStoreApis 1 [5]
      = ⟨none, { scenarioStoreApis with menuApis := [{ MenuID := 1, ApiID := 5 }] }⟩ := by
  decide

/-- The count query of `SetMenuApis` on a table with one row per Api id: it
equals the length of a list without repetition exactly when every listed id
exists, and it is smaller than the length of any list with a missing id. -/
theorem apiCount_spec (apis : List SysApi) (apiIDs : List Nat)
    (hpk : (apis.map SysApi.ID).Nodup) :
    (apiIDs.Nodup → (∀ id ∈ apiIDs, ∃ a ∈ apis, a.ID = id) →
      (apis.filter (fun a => decide (a.ID ∈ apiIDs))).length = apiIDs.length) ∧
    ((∃ id ∈ apiIDs, ∀ a ∈ apis, a.ID ≠ id) →
      (apis.filter (fun a => decide (a.ID ∈ apiIDs))).length < apiIDs.length) := by
  have hnd : ((apis.filter (fun a => decide (a.ID ∈ apiIDs))).map SysApi.ID).Nodup :=
    (List.filter_sublist apis).map SysApi.ID |>.nodup hpk
  have hlen : (apis.filter (fun a => decide (a.ID ∈ apiIDs))).length
      = ((apis.filter (fun a => decide (a.ID ∈ apiIDs))).map SysApi.ID).length := by
    rw [List.length_map]
  constructor
  · intro hids hall
    rw [hlen]
    apply List.Perm.length_eq
    rw [List.perm_ext_iff_of_nodup hnd hids]
    intro x
    simp only [List.mem_map, List.mem_filter, decide_eq_true_eq]
    constructor
    · rintro ⟨a, ⟨_, ha⟩, rfl⟩
      exact ha
    · intro hx
      obtain ⟨a, ha, hid⟩ := hall x hx
      exact ⟨a, ⟨ha, hid ▸ hx⟩, hid⟩
  · rintro ⟨id, hid, hmiss⟩
    rw [hlen]
    have hsub : ∀ x ∈ (apis.filter (fun a => decide (a.ID ∈ apiIDs))).map SysApi.ID,
        x ∈ apiIDs.filter (fun y => !decide (y = id)) := by
      intro x hx
      simp only [List.mem_map, List.mem_filter, decide_eq_true_eq] at hx
      obtain ⟨a, ⟨ha, hin⟩, rfl⟩ := hx
      simp only [List.mem_filter, Bool.not_eq_true', decide_eq_false_iff_not]
      exact ⟨hin, hmiss a ha⟩
    have h1 := (List.subperm_of_subset hnd hsub).length_le
    have h2 : (apiIDs.filter (fun y => !decide (y = id))).length < apiIDs.length := by
      rw [List.length_filter_lt_length_iff_exists]
      exact ⟨id, hid, by simp⟩
    omega

/-- What holds of C17: on a table with one row per Api id, a request for an
existing menu that lists existing Api ids without repetition passes the
validation, the links of the menu become the listed ids, in order, and every
other row of the store stays as it was; a request that lists a missing Api id
is rejected with the store unchanged. -/
theorem SetMenuApis_distinct_ids (casbinFails : Store → Nat → Bool) (db : Store)
    (menuID : Nat) (apiIDs : List Nat)
    (hmenu : (findMenu db.menus (fun m => decide (m.ID = menuID))).IsEmpty = false)
    (hpk : (db.apis.map SysApi.ID).Nodup) :
    (apiIDs.Nodup → (∀ id ∈ apiIDs, ∃ a ∈ db.apis, a.ID = id) →
      (SetMenuApis casbinFails db menuID apiIDs).store
        = { db with
            menuApis := db.menuApis.filter (fun l => !decide (l.MenuID = menuID)) ++
              apiIDs.map (fun apiID => ({ MenuID := menuID, ApiID := apiID } : SysMenuApi)) } ∧
      ((SetMenuApis casbinFails db menuID apiIDs).err = none ∨
        (SetMenuApis casbinFails db menuID apiIDs).err = some "更新角色API权限失败")) ∧
    ((∃ id ∈ apiIDs, ∀ a ∈ db.apis, a.ID ≠ id) →
      SetMenuApis casbinFails db menuID apiIDs = ⟨some "存在不存在的API ID", db⟩) := by
  obtain ⟨hcount, hmiss⟩ := apiCount_spec db.apis apiIDs hpk
  constructor
  · intro hnd hall
    have hc := hcount hnd hall
    have hmap : (if 0 < apiIDs.length then
          apiIDs.map (fun apiID => ({ MenuID := menuID, ApiID := apiID } : SysMenuApi))
        else [])
        = apiIDs.map (fun apiID => ({ MenuID := menuID, ApiID := apiID } : SysMenuApi)) := by
      split
      · rfl
      · rename_i h0
        have : apiIDs = [] := List.length_eq_zero.mp (by omega)
        rw [this]
        rfl
    unfold SetMenuApis
    simp only [hmenu, Bool.false_eq_true, if_false, hc, ne_eq, not_true_eq_false, and_false,
      hmap]
    split <;> simp
  · intro hex
    have hlt := hmiss hex
    have hpos : 0 < apiIDs.length := by omega
    unfold SetMenuApis
    simp only [hmenu, Bool.false_eq_true, if_false]
    rw [if_pos ⟨hpos, by omega⟩]

/-! ### Import -/

/-- C19 (as stated). In a document whose two menus carry the same old id, the
second assignment `idMap[oldID] = newMenuID` overwrites the first: on return
the id map sends the old id 1 to the new id 11 of the second menu only, and
`CreateMenuApis` links the Api of the first menu, created as menu 10, to menu
11. -/
theorem ProcessMenuImport_clashing_ids :
    (ProcessMenuImport scenarioTx 7 scenarioDocClash 0).1.store.menus
      = [{ ID := 10, Name := "a" }, { ID := 11, Name := "b" }] ∧
    (ProcessMenuImport scenarioTx 7 scenarioDocClash 0).1.idMap = [(1, 11)] ∧
    (CreateMenuApis (ProcessMenuImport scenarioTx 7 scenarioDocClash 0).1
        (ProcessMenuImport scenarioTx 7 scenarioDocClash 0).2).store.apis
      = [{ ID := 20, Path := "/a", Method := "GET" }] ∧
    (CreateMenuApis (ProcessMenuImport scenarioTx 7 scenarioDocClash 0).1
        (ProcessMenuImport scenarioTx 7 scenarioDocClash 0).2).store.menuApis
      = [{ MenuID := 11, ApiID := 20 }] := by
  decide

/-- The numbering hands out the ids from `next` on, one per menu, in the
pre-order of the document. -/
theorem numberList_spec (next parent : Nat) (doc : List ImportMenu) :
    (numberList next parent doc).map (fun t => t.1) = List.range' next (sizeList doc) ∧
    (numberList next parent doc).map (fun t => t.2.2.menu) = docMenus doc := by
  obtain ⟨n, hsz⟩ : ∃ n, sizeOf doc = n := ⟨_, rfl⟩
  induction n using Nat.strong_induction_on generalizing doc next parent with
  | _ n ih =>
    subst hsz
    cases doc with
    | nil => simp [numberList, sizeList, docMenus]
    | cons node rest =>
      cases node with
      | mk menu cb apis children =>
        have h1 : sizeOf children < sizeOf (ImportMenu.mk menu cb apis children :: rest) := by
          simp only [List.cons.sizeOf_spec, ImportMenu.mk.sizeOf_spec]; omega
        have h2 : sizeOf rest < sizeOf (ImportMenu.mk menu cb apis children :: rest) := by
          simp only [List.cons.sizeOf_spec]; omega
        obtain ⟨c1, c2⟩ := ih _ h1 (next + 1) next children rfl
        obtain ⟨r1, r2⟩ := ih _ h2 (next + (1 + sizeList children)) parent rest rfl
        constructor
        · simp only [numberList, numberNode, sizeList, sizeNode, List.map_append,
            List.map_cons, c1, r1]
          have e1 : 1 + sizeList children + sizeList rest
              = (sizeList rest + sizeList children) + 1 := by omega
          have e2 : next + (1 + sizeList children) = next + 1 + sizeList children := by omega
          rw [e1, List.range'_succ, e2, ← List.range'_append_1]
          rfl
        · simp only [numberList, numberNode, sizeNode, docMenus, docMenusNode, List.map_append,
            List.map_cons, c2, r2]
          rfl

/-- What `ProcessMenuImport` does to the transaction and to the document: the
rows of the numbering are appended to `sys_menu`, the next id moves past them,
every numbered menu files its new id under its old one in `idMap`, in order,
and the document comes back with `CreatedBy` overwritten and nothing else
changed. -/
theorem ProcessMenuImport_spec (uid : Nat) (doc : List ImportMenu) (tx : ImportTx)
    (parent : Nat) :
    (ProcessMenuImport tx uid doc parent).1.store.menus
      = tx.store.menus ++ (numberList tx.nextMenuID parent doc).map rowOf ∧
    (ProcessMenuImport tx uid doc parent).1.nextMenuID = tx.nextMenuID + sizeList doc ∧
    (ProcessMenuImport tx uid doc parent).1.idMap
      = (numberList tx.nextMenuID parent doc).foldl
          (fun m t => mapSet m t.2.2.menu.ID t.1) tx.idMap ∧
    (ProcessMenuImport tx uid doc parent).1.store.roleMenus = tx.store.roleMenus ∧
    (ProcessMenuImport tx uid doc parent).1.store.menuApis = tx.store.menuApis ∧
    (ProcessMenuImport tx uid doc parent).1.store.apis = tx.store.apis ∧
    (ProcessMenuImport tx uid doc parent).1.nextApiID = tx.nextApiID ∧
    (ProcessMenuImport tx uid doc parent).2 = restampList uid doc := by
  obtain ⟨n, hsz⟩ : ∃ n, sizeOf doc = n := ⟨_, rfl⟩
  induction n using Nat.strong_induction_on generalizing doc tx parent with
  | _ n ih =>
    subst hsz
    cases doc with
    | nil => simp [ProcessMenuImport, numberList, sizeList, restampList]
    | cons node rest =>
      cases node with
      | mk menu cb apis children =>
        have h1 : sizeOf children < sizeOf (ImportMenu.mk menu cb apis children :: rest) := by
          simp only [List.cons.sizeOf_spec, ImportMenu.mk.sizeOf_spec]; omega
        have h2 : sizeOf rest < sizeOf (ImportMenu.mk menu cb apis children :: rest) := by
          simp only [List.cons.sizeOf_spec]; omega
        obtain ⟨k1, k2, k3, k4, k5, k6, k7, k8⟩ :=
          ih _ h1 children (createMenuRow tx menu parent) tx.nextMenuID rfl
        obtain ⟨r1, r2, r3, r4, r5, r6, r7, r8⟩ := ih _ h2 rest
          (ProcessMenuImport (createMenuRow tx menu parent) uid children tx.nextMenuID).1
          parent rfl
        have hbelow : (if 0 < children.length then
              ProcessMenuImport (createMenuRow tx menu parent) uid children tx.nextMenuID
            else (createMenuRow tx menu parent, children))
            = ProcessMenuImport (createMenuRow tx menu parent) uid children tx.nextMenuID := by
          split
          · rfl
          · rename_i hlen
            have : children = [] := List.length_eq_zero.mp (by omega)
            subst this
            rfl
        have c1 : (createMenuRow tx menu parent).store.menus
            = tx.store.menus ++ [rowOf (tx.nextMenuID, parent, ImportMenu.mk menu cb apis children)] :=
          rfl
        have c2 : (createMenuRow tx menu parent).nextMenuID = tx.nextMenuID + 1 := rfl
        have c3 : (createMenuRow tx menu parent).idMap
            = mapSet tx.idMap menu.ID tx.nextMenuID := rfl
        rw [c1, c2] at k1
        rw [c2] at k2 k3
        rw [c3] at k3
        rw [k2] at r1 r2 r3
        rw [k1] at r1
        rw [k3] at r3
        simp only [ProcessMenuImport, processMenuNode, hbelow]
        refine ⟨?_, ?_, ?_, ?_, ?_, ?_, ?_, ?_⟩
        · rw [r1]
          simp only [numberList, numberNode, sizeNode, List.map_append, List.map_cons,
            List.append_assoc, List.singleton_append]
          rw [show tx.nextMenuID + 1 + sizeList children
            = tx.nextMenuID + (1 + sizeList children) by omega]
        · rw [r2]
          simp only [sizeList, sizeNode]
          omega
        · rw [r3]
          simp only [numberList, numberNode, sizeNode, List.foldl_append, List.foldl_cons]
          rw [show tx.nextMenuID + 1 + sizeList children
            = tx.nextMenuID + (1 + sizeList children) by omega]
          rfl
        · rw [r4, k4]; rfl
        · rw [r5, k5]; rfl
        · rw [r6, k6]; rfl
        · rw [r7, k7]; rfl
        · rw [r8, k8]
          rfl

/-- A key that a loop of assignments does not touch keeps its entry. -/
theorem mapGet_foldl_mapSet_other {X V : Type} (kf : X → Nat) (vf : X → V) (l : List X)
    (k : Nat) (hk : k ∉ l.map kf) (init : List (Nat × V)) :
    mapGet (l.foldl (fun m x => mapSet m (kf x) (vf x)) init) k = mapGet init k := by
  induction l generalizing init with
  | nil => rfl
  | cons a rest ih =>
    simp only [List.map_cons, List.mem_cons, not_or] at hk
    rw [List.foldl_cons, ih hk.2, mapGet_mapSet, if_neg (fun h => hk.1 h.symm)]

/-- After a loop of assignments under pairwise distinct keys every key holds
the value assigned to it. -/
theorem mapGet_foldl_mapSet {X V : Type} (kf : X → Nat) (vf : X → V) (l : List X)
    (hnd : (l.map kf).Nodup) (init : List (Nat × V)) :
    ∀ x ∈ l, mapGet (l.foldl (fun m x => mapSet m (kf x) (vf x)) init) (kf x)
      = some (vf x) := by
  induction l generalizing init with
  | nil => intro x hx; cases hx
  | cons a rest ih =>
    rw [List.map_cons, List.nodup_cons] at hnd
    intro x hx
    rw [List.foldl_cons]
    rcases List.mem_cons.mp hx with rfl | hx
    · rw [mapGet_foldl_mapSet_other kf vf rest _ hnd.1, mapGet_mapSet, if_pos rfl]
    · exact ih hnd.2 _ x hx

/-- One pass of the Api loop body: `idMap` and the menus are left alone, no Api
and no link is lost, and the Api of the document is in the table, under its
path and method, linked to the menu id given. -/
theorem createMenuApi_spec (newMenuID : Nat) (tx : ImportTx) (api : SysApi) :
    (createMenuApi newMenuID tx api).idMap = tx.idMap ∧
    (∀ a ∈ tx.store.apis, a ∈ (createMenuApi newMenuID tx api).store.apis) ∧
    (∀ l ∈ tx.store.menuApis, l ∈ (createMenuApi newMenuID tx api).store.menuApis) ∧
    ∃ a ∈ (createMenuApi newMenuID tx api).store.apis,
      a.Path = api.Path ∧ a.Method = api.Method ∧
        ({ MenuID := newMenuID, ApiID := a.ID } : SysMenuApi)
          ∈ (createMenuApi newMenuID tx api).store.menuApis := by
  unfold createMenuApi
  by_cases hex : (findApiByPathAndMethod tx.store.apis api.Path api.Method).ID = 0
  · simp only [hex, if_true]
    split
    · rename_i hin
      refine ⟨rfl, fun a ha => List.mem_append_left _ ha, fun l hl => hl, ?_⟩
      exact ⟨{ api with ID := tx.nextApiID }, by simp, rfl, rfl, hin⟩
    · refine ⟨rfl, fun a ha => List.mem_append_left _ ha,
        fun l hl => List.mem_append_left _ hl, ?_⟩
      exact ⟨{ api with ID := tx.nextApiID }, by simp, rfl, rfl, by simp⟩
  · simp only [hex, if_false]
    have hfound : findApiByPathAndMethod tx.store.apis api.Path api.Method ∈ tx.store.apis ∧
        (findApiByPathAndMethod tx.store.apis api.Path api.Method).Path = api.Path ∧
        (findApiByPathAndMethod tx.store.apis api.Path api.Method).Method = api.Method := by
      unfold findApiByPathAndMethod at hex ⊢
      cases hfind : tx.store.apis.find?
          (fun a => decide (a.Path = api.Path ∧ a.Method = api.Method)) with
      | none => rw [hfind] at hex; exact absurd rfl hex
      | some a =>
        have hp := List.find?_some hfind
        simp only [decide_eq_true_eq] at hp
        exact ⟨List.mem_of_find?_eq_some hfind, hp.1, hp.2⟩
    split
    · rename_i hin
      exact ⟨rfl, fun a ha => ha, fun l hl => hl, _, hfound.1, hfound.2.1, hfound.2.2, hin⟩
    · exact ⟨rfl, fun a ha => ha, fun l hl => List.mem_append_left _ hl,
        _, hfound.1, hfound.2.1, hfound.2.2, by simp⟩

/-- The loop over `menu.Apis`. -/
theorem createMenuApi_foldl_spec (newMenuID : Nat) (apis : List SysApi) (tx : ImportTx) :
    (apis.foldl (createMenuApi newMenuID) tx).idMap = tx.idMap ∧
    (∀ a ∈ tx.store.apis, a ∈ (apis.foldl (createMenuApi newMenuID) tx).store.apis) ∧
    (∀ l ∈ tx.store.menuApis, l ∈ (apis.foldl (createMenuApi newMenuID) tx).store.menuApis) ∧
    ∀ api ∈ apis, ∃ a ∈ (apis.foldl (createMenuApi newMenuID) tx).store.apis,
      a.Path = api.Path ∧ a.Method = api.Method ∧
        ({ MenuID := newMenuID, ApiID := a.ID } : SysMenuApi)
          ∈ (apis.foldl (createMenuApi newMenuID) tx).store.menuApis := by
  induction apis generalizing tx with
  | nil => exact ⟨rfl, fun a ha => ha, fun l hl => hl, fun api h => by cases h⟩
  | cons api rest ih =>
    obtain ⟨s1, s2, s3, a0, ha0, hp0, hm0, hl0⟩ := createMenuApi_spec newMenuID tx api
    obtain ⟨i1, i2, i3, i4⟩ := ih (createMenuApi newMenuID tx api)
    rw [List.foldl_cons]
    refine ⟨i1.trans s1, fun a ha => i2 a (s2 a ha), fun l hl => i3 l (s3 l hl), ?_⟩
    intro x hx
    rcases List.mem_cons.mp hx with rfl | hx
    · exact ⟨a0, i2 a0 ha0, hp0, hm0, i3 _ hl0⟩
    · exact i4 x hx

/-- What `CreateMenuApis` leaves: `idMap` as it was, no Api and no link lost,
and for every menu of the document each of its Apis in the table, linked to
the id that `idMap` holds for the old id of the menu. -/
theorem CreateMenuApis_spec (doc : List ImportMenu) (tx : ImportTx) :
    (CreateMenuApis tx doc).idMap = tx.idMap ∧
    (∀ a ∈ tx.store.apis, a ∈ (CreateMenuApis tx doc).store.apis) ∧
    (∀ l ∈ tx.store.menuApis, l ∈ (CreateMenuApis tx doc).store.menuApis) ∧
    ∀ next parent, ∀ t ∈ numberList next parent doc, ∀ api ∈ t.2.2.Apis,
      ∃ a ∈ (CreateMenuApis tx doc).store.apis,
        a.Path = api.Path ∧ a.Method = api.Method ∧
          ({ MenuID := (mapGet tx.idMap t.2.2.menu.ID).getD 0, ApiID := a.ID } : SysMenuApi)
            ∈ (CreateMenuApis tx doc).store.menuApis := by
  obtain ⟨n, hsz⟩ : ∃ n, sizeOf doc = n := ⟨_, rfl⟩
  induction n using Nat.strong_induction_on generalizing doc tx with
  | _ n ih =>
    subst hsz
    cases doc with
    | nil =>
      exact ⟨rfl, fun a ha => ha, fun l hl => hl, fun _ _ t ht => by
        simp [numberList] at ht⟩
    | cons node rest =>
      cases node with
      | mk menu cb apis children =>
        have h1 : sizeOf children < sizeOf (ImportMenu.mk menu cb apis children :: rest) := by
          simp only [List.cons.sizeOf_spec, ImportMenu.mk.sizeOf_spec]; omega
        have h2 : sizeOf rest < sizeOf (ImportMenu.mk menu cb apis children :: rest) := by
          simp only [List.cons.sizeOf_spec]; omega
        have hlinked : (if 0 < apis.length then
              apis.foldl (createMenuApi ((mapGet tx.idMap menu.ID).getD 0)) tx else tx)
            = apis.foldl (createMenuApi ((mapGet tx.idMap menu.ID).getD 0)) tx := by
          split
          · rfl
          · rename_i hlen
            have : apis = [] := List.length_eq_zero.mp (by omega)
            subst this
            rfl
        have hkids : ∀ linked : ImportTx,
            (if 0 < children.length then CreateMenuApis linked children else linked)
              = CreateMenuApis linked children := by
          intro linked
          split
          · rfl
          · rename_i hlen
            have : children = [] := List.length_eq_zero.mp (by omega)
            subst this
            rfl
        obtain ⟨f1, f2, f3, f4⟩ :=
          createMenuApi_foldl_spec ((mapGet tx.idMap menu.ID).getD 0) apis tx
        obtain ⟨k1, k2, k3, k4⟩ := ih _ h1 children
          (apis.foldl (createMenuApi ((mapGet tx.idMap menu.ID).getD 0)) tx) rfl
        obtain ⟨r1, r2, r3, r4⟩ := ih _ h2 rest
          (CreateMenuApis (apis.foldl (createMenuApi ((mapGet tx.idMap menu.ID).getD 0)) tx)
            children) rfl
        simp only [CreateMenuApis, createMenuNodeApis, hlinked, hkids]
        refine ⟨r1.trans (k1.trans f1), fun a ha => r2 a (k2 a (f2 a ha)),
          fun l hl => r3 l (k3 l (f3 l hl)), ?_⟩
        intro next parent t ht api hapi
        simp only [numberList, numberNode, List.mem_append, List.mem_cons] at ht
        rcases ht with (rfl | ht) | ht
        · obtain ⟨a, ha, hp, hm, hl⟩ := f4 api hapi
          exact ⟨a, r2 a (k2 a ha), hp, hm, r3 _ (k3 _ hl)⟩
        · obtain ⟨a, ha, hp, hm, hl⟩ := k4 _ _ t ht api hapi
          rw [f1] at hl
          exact ⟨a, r2 a ha, hp, hm, r3 _ hl⟩
        · obtain ⟨a, ha, hp, hm, hl⟩ := r4 _ _ t ht api hapi
          rw [k1, f1] at hl
          exact ⟨a, ha, hp, hm, hl⟩

/-- `CreateMenuApis` does not read `CreatedBy`. -/
theorem CreateMenuApis_restamp (uid : Nat) (doc : List ImportMenu) (tx : ImportTx) :
    CreateMenuApis tx (restampList uid doc) = CreateMenuApis tx doc := by
  obtain ⟨n, hsz⟩ : ∃ n, sizeOf doc = n := ⟨_, rfl⟩
  induction n using Nat.strong_induction_on generalizing doc tx with
  | _ n ih =>
    subst hsz
    cases doc with
    | nil => rfl
    | cons node rest =>
      cases node with
      | mk menu cb apis children =>
        have h1 : sizeOf children < sizeOf (ImportMenu.mk menu cb apis children :: rest) := by
          simp only [List.cons.sizeOf_spec, ImportMenu.mk.sizeOf_spec]; omega
        have h2 : sizeOf rest < sizeOf (ImportMenu.mk menu cb apis children :: rest) := by
          simp only [List.cons.sizeOf_spec]; omega
        have hlen : (restampList uid children).length = children.length := by
          clear ih h1 h2
          induction children with
          | nil => rfl
          | cons c cs ihc => simp [restampList, ihc]
        simp only [restampList, restampNode, CreateMenuApis, createMenuNodeApis, hlen]
        rw [ih _ h2 rest _ rfl, ih _ h1 children _ rfl]

/-- The pass of `ProcessMenuImport` leaves `ID` and `ParentID`, and every other
row field, of the document menus as they were. -/
theorem docMenus_restamp (uid : Nat) (doc : List ImportMenu) :
    docMenus (restampList uid doc) = docMenus doc := by
  obtain ⟨n, hsz⟩ : ∃ n, sizeOf doc = n := ⟨_, rfl⟩
  induction n using Nat.strong_induction_on generalizing doc with
  | _ n ih =>
    subst hsz
    cases doc with
    | nil => rfl
    | cons node rest =>
      cases node with
      | mk menu cb apis children =>
        have h1 : sizeOf children < sizeOf (ImportMenu.mk menu cb apis children :: rest) := by
          simp only [List.cons.sizeOf_spec, ImportMenu.mk.sizeOf_spec]; omega
        have h2 : sizeOf rest < sizeOf (ImportMenu.mk menu cb apis children :: rest) := by
          simp only [List.cons.sizeOf_spec]; omega
        simp only [restampList, restampNode, docMenus, docMenusNode]
        rw [ih _ h2 rest rfl, ih _ h1 children rfl]

/-- C19 (amended). For a document forest whose menus carry pairwise distinct
ids, imported into a store whose next menu id lies above the ids in use:
`ProcessMenuImport` appends to `sys_menu` one row per document menu, in
pre-order (a menu before its children), under the new ids `nextMenuID`,
`nextMenuID + 1`, ... none of which is in use; the `ParentID` of each row is
the new id of the menu that encloses it in the document, 0 at the top level (as
`numberList` and `rowOf` spell out); on return `idMap` sends the old id of
every document menu to the new id of its row; `CreateMenuApis`, run on that
state, leaves every Api of every document menu in `sys_api` under its path and
method, linked to the new id of that menu; and the document menus have the `ID`
and `ParentID` they came with. -/
theorem ProcessMenuImport_distinct_ids (tx : ImportTx) (uid : Nat) (doc : List ImportMenu)
    (hdist : ((docMenus doc).map SysMenu.ID).Nodup)
    (hfresh : ∀ m ∈ tx.store.menus, m.ID < tx.nextMenuID) :
    (ProcessMenuImport tx uid doc 0).1.store.menus
      = tx.store.menus ++ (numberList tx.nextMenuID 0 doc).map rowOf ∧
    (numberList tx.nextMenuID 0 doc).map (fun t => t.1)
      = List.range' tx.nextMenuID (sizeList doc) ∧
    (numberList tx.nextMenuID 0 doc).map (fun t => t.2.2.menu) = docMenus doc ∧
    (∀ t ∈ numberList tx.nextMenuID 0 doc, ∀ m ∈ tx.store.menus, m.ID ≠ t.1) ∧
    (∀ t ∈ numberList tx.nextMenuID 0 doc,
      mapGet (ProcessMenuImport tx uid doc 0).1.idMap t.2.2.menu.ID = some t.1) ∧
    (∀ t ∈ numberList tx.nextMenuID 0 doc, ∀ api ∈ t.2.2.Apis,
      ∃ a ∈ (CreateMenuApis (ProcessMenuImport tx uid doc 0).1
          (ProcessMenuImport tx uid doc 0).2).store.apis,
        a.Path = api.Path ∧ a.Method = api.Method ∧
          ({ MenuID := t.1, ApiID := a.ID } : SysMenuApi)
            ∈ (CreateMenuApis (ProcessMenuImport tx uid doc 0).1
                (ProcessMenuImport tx uid doc 0).2).store.menuApis) ∧
    docMenus (ProcessMenuImport tx uid doc 0).2 = docMenus doc := by
  obtain ⟨p1, _, p3, _, _, _, _, p8⟩ := ProcessMenuImport_spec uid doc tx 0
  obtain ⟨n1, n2⟩ := numberList_spec tx.nextMenuID 0 doc
  have hkeys : ((numberList tx.nextMenuID 0 doc).map (fun t => t.2.2.menu.ID)).Nodup := by
    have : (numberList tx.nextMenuID 0 doc).map (fun t => t.2.2.menu.ID)
        = ((numberList tx.nextMenuID 0 doc).map (fun t => t.2.2.menu)).map SysMenu.ID := by
      rw [List.map_map]
      rfl
    rw [this, n2]
    exact hdist
  have hmap : ∀ t ∈ numberList tx.nextMenuID 0 doc,
      mapGet (ProcessMenuImport tx uid doc 0).1.idMap t.2.2.menu.ID = some t.1 := by
    rw [p3]
    exact mapGet_foldl_mapSet (fun t : Nat × Nat × ImportMenu => t.2.2.menu.ID)
      (fun t => t.1) _ hkeys tx.idMap
  refine ⟨p1, n1, n2, ?_, hmap, ?_, ?_⟩
  · intro t ht m hm
    have hin : t.1 ∈ List.range' tx.nextMenuID (sizeList doc) := by
      rw [← n1]
      exact List.mem_map.mpr ⟨t, ht, rfl⟩
    have hge : tx.nextMenuID ≤ t.1 := (List.mem_range'_1.mp hin).1
    have hlt := hfresh m hm
    omega
  · intro t ht api hapi
    rw [p8, CreateMenuApis_restamp]
    obtain ⟨a, ha, hp, hm, hl⟩ :=
      (CreateMenuApis_spec doc (ProcessMenuImport tx uid doc 0).1).2.2.2 _ _ t ht api hapi
    rw [hmap t ht] at hl
    exact ⟨a, ha, hp, hm, hl⟩
  · rw [p8, docMenus_restamp]

/-- Instance of C19 (amended): menu 1 over menu 2, each with an Api, imported
into the empty store as menus 10 and 11 and Apis 20 and 21. -/
theorem ProcessMenuImport_distinct_ids_witness :
    ((docMenus scenarioDoc).map SysMenu.ID).Nodup ∧
    (∀ m ∈ scenarioTx.store.menus, m.ID < scenarioTx.nextMenuID) ∧
    (ProcessMenuImport scenarioTx 7 scenarioDoc 0).1.store.menus
      = [{ ID := 10, Name := "a" }, { ID := 11, ParentID := 10, MenuType := 2, Name := "b" }] ∧
    (ProcessMenuImport scenarioTx 7 scenarioDoc 0).1.idMap = [(1, 10), (2, 11)] ∧
    (CreateMenuApis (ProcessMenuImport scenarioTx 7 scenarioDoc 0).1
        (ProcessMenuImport scenarioTx 7 scenarioDoc 0).2).store.menuApis
      = [{ MenuID := 10, ApiID := 20 }, { MenuID := 11, ApiID := 21 }] ∧
    docMenus (ProcessMenuImport scenarioTx 7 scenarioDoc 0).2 = docMenus scenarioDoc := by
  refine ⟨by decide, by decide, by decide, by decide, by decide, ?_⟩
  exact (ProcessMenuImport_distinct_ids scenarioTx 7 scenarioDoc (by decide) (by decide)).2.2.2.2.2.2

end GinFast
